import Mathlib

set_option maxRecDepth 100000

/-!
Verification of the revealjs-skill repository core:
`create-presentation.js` (structure grammar, slide markup compiler,
template materializer, deck customizer) and `finalize.js`
(finalization pipeline).  The JavaScript sources are shallowly
embedded: strings become `List Char`, the file system becomes an
explicit record, fallible steps return `Except`/`Option`.
-/

/-! ## Substring occurrence counting

`countPat p s` counts the positions of `s` at which the pattern `p`
occurs (as `List.isPrefixOf` of the remaining suffix).  This is the
measuring device used to count slide elements, ids and markers in the
rendered markup strings.
-/

def countPat (p : List Char) : List Char → Nat
  | [] => 0
  | c :: rest => (if p.isPrefixOf (c :: rest) then 1 else 0) + countPat p rest

theorem countPat_nil (p : List Char) : countPat p [] = 0 := rfl

theorem countPat_cons (p : List Char) (c : Char) (s : List Char) :
    countPat p (c :: s) = (if p.isPrefixOf (c :: s) then 1 else 0) + countPat p s := rfl

theorem take_append_le {α : Type} (l₁ l₂ : List α) (n : Nat) (h : n ≤ l₁.length) :
    (l₁ ++ l₂).take n = l₁.take n := by
  rw [List.take_append_eq_append_take, Nat.sub_eq_zero_of_le h]
  simp

theorem prefix_of_prefix_append {p l₁ l₂ : List Char}
    (h : p <+: l₁ ++ l₂) (hlen : p.length ≤ l₁.length) : p <+: l₁ := by
  have h1 : p = (l₁ ++ l₂).take p.length := List.prefix_iff_eq_take.mp h
  rw [take_append_le l₁ l₂ p.length hlen] at h1
  exact h1 ▸ List.take_prefix _ _

theorem prefix_of_short_append {t p l₂ : List Char}
    (h : p <+: t ++ l₂) (hlen : t.length < p.length) : t <+: p := by
  have h1 : p = (t ++ l₂).take p.length := List.prefix_iff_eq_take.mp h
  have h2 : p.take t.length = t := by
    rw [h1, List.take_take, Nat.min_eq_left (le_of_lt hlen),
      take_append_le t l₂ t.length (le_refl _), List.take_length]
  have := List.take_prefix t.length p
  rwa [h2] at this

theorem long_prefix_head_mem {t p l₂ : List Char} {c : Char}
    (h : p <+: t ++ c :: l₂) (hlen : t.length < p.length) : c ∈ p := by
  have h1 : p = (t ++ c :: l₂).take p.length := List.prefix_iff_eq_take.mp h
  rw [List.take_append_eq_append_take] at h1
  have h2 : t.take p.length = t := List.take_of_length_le (le_of_lt hlen)
  rw [h2] at h1
  have h3 : ∃ k, p.length - t.length = k + 1 := ⟨p.length - t.length - 1, by omega⟩
  rcases h3 with ⟨k, hk⟩
  rw [hk] at h1
  rw [h1]
  simp

/-- Core splitting lemma: if every nonempty suffix `t` of `l₁` at which
`p` starts inside `t ++ l₂` already contains the whole match, then
counting over `l₁ ++ l₂` splits. -/
theorem countPat_append_core (p l₁ l₂ : List Char)
    (h : ∀ t : List Char, t <:+ l₁ → t ≠ [] → p.isPrefixOf (t ++ l₂) → p.isPrefixOf t) :
    countPat p (l₁ ++ l₂) = countPat p l₁ + countPat p l₂ := by
  induction l₁ with
  | nil => simp [countPat_nil]
  | cons c l₁' ih =>
    have hstep : countPat p ((c :: l₁') ++ l₂)
        = (if p.isPrefixOf (c :: (l₁' ++ l₂)) then 1 else 0) + countPat p (l₁' ++ l₂) :=
      countPat_cons p c (l₁' ++ l₂)
    have hiff : (if p.isPrefixOf (c :: (l₁' ++ l₂)) then (1:Nat) else 0)
        = (if p.isPrefixOf (c :: l₁') then 1 else 0) := by
      by_cases hyes : p.isPrefixOf (c :: l₁')
      · have hpre : p <+: (c :: l₁') := List.isPrefixOf_iff_prefix.mp hyes
        have hext : p <+: (c :: (l₁' ++ l₂)) := by
          rcases hpre with ⟨t, ht⟩
          exact ⟨t ++ l₂, by rw [← List.append_assoc, ht]; rfl⟩
        simp [List.isPrefixOf_iff_prefix.mpr hext, hyes]
      · by_cases hcross : p.isPrefixOf (c :: (l₁' ++ l₂))
        · exfalso
          exact hyes (h (c :: l₁') ⟨[], rfl⟩ (by simp) (by simpa using hcross))
        · simp [hyes, hcross]
    have ih' := ih (fun t hsuf hne hpre => h t (hsuf.trans ⟨[c], rfl⟩) hne hpre)
    rw [hstep, hiff, ih', countPat_cons]
    ring

/-- A pattern not containing the last character of `l₁` cannot straddle
the `l₁ ++ l₂` boundary, so the count splits. -/
theorem countPat_append_last (p l₁ l₂ : List Char) (c : Char)
    (hlast : l₁.getLast? = some c) (hc : c ∉ p) :
    countPat p (l₁ ++ l₂) = countPat p l₁ + countPat p l₂ := by
  apply countPat_append_core
  intro t hsuf hne hpre
  have hp : p <+: t ++ l₂ := List.isPrefixOf_iff_prefix.mp hpre
  by_cases hlen : p.length ≤ t.length
  · exact List.isPrefixOf_iff_prefix.mpr (prefix_of_prefix_append hp hlen)
  · exfalso
    push_neg at hlen
    have ht : t <+: p := prefix_of_short_append hp hlen
    have hlt : t.getLast? = some c := by
      rcases hsuf with ⟨s, hs⟩
      rw [← hs, List.getLast?_append_of_ne_nil s hne] at hlast
      exact hlast
    have hcmem : c ∈ t := by
      rcases List.mem_getLast?_eq_getLast (by simpa using hlt) with ⟨hne', rfl⟩
      exact List.getLast_mem hne'
    exact hc (ht.subset hcmem)

/-- A pattern not containing the first character of `l₂` cannot straddle
the `l₁ ++ l₂` boundary either. -/
theorem countPat_append_head (p l₁ l₂ : List Char) (c : Char)
    (hhead : l₂.head? = some c) (hc : c ∉ p) :
    countPat p (l₁ ++ l₂) = countPat p l₁ + countPat p l₂ := by
  apply countPat_append_core
  intro t _ hne hpre
  have hp : p <+: t ++ l₂ := List.isPrefixOf_iff_prefix.mp hpre
  by_cases hlen : p.length ≤ t.length
  · exact List.isPrefixOf_iff_prefix.mpr (prefix_of_prefix_append hp hlen)
  · exfalso
    push_neg at hlen
    obtain ⟨l₂', rfl⟩ : ∃ l₂', l₂ = c :: l₂' := by
      cases l₂ with
      | nil => simp at hhead
      | cons x xs =>
        simp only [List.head?_cons, Option.some.injEq] at hhead
        exact ⟨xs, by rw [hhead]⟩
    exact hc (long_prefix_head_mem hp hlen)

theorem head_of_isPrefixOf {p : List Char} {c c' : Char} {s : List Char}
    (hp : p.head? = some c') (h : p.isPrefixOf (c :: s)) : c' = c := by
  cases p with
  | nil => simp at hp
  | cons x xs =>
    simp only [List.head?_cons, Option.some.injEq] at hp
    rcases List.isPrefixOf_iff_prefix.mp h with ⟨t, ht⟩
    have hxc : x = c := by
      have := congrArg List.head? ht
      simpa using this
    exact hp ▸ hxc

/-- If the head of the pattern never occurs in `l₁`, no occurrence can
start inside `l₁`. -/
theorem countPat_append_skip (p l₁ l₂ : List Char) (c : Char)
    (hhead : p.head? = some c) (hc : c ∉ l₁) :
    countPat p (l₁ ++ l₂) = countPat p l₂ := by
  induction l₁ with
  | nil => rfl
  | cons x xs ih =>
    have hx : ¬ p.isPrefixOf (x :: (xs ++ l₂)) := by
      intro h
      have := head_of_isPrefixOf hhead h
      exact hc (this ▸ List.mem_cons_self x xs)
    have hstep : countPat p ((x :: xs) ++ l₂)
        = (if p.isPrefixOf (x :: (xs ++ l₂)) then 1 else 0) + countPat p (xs ++ l₂) :=
      countPat_cons p x (xs ++ l₂)
    rw [hstep, if_neg hx, ih (fun hmem => hc (List.mem_cons_of_mem x hmem))]
    ring

theorem countPat_eq_zero_of_head_notMem (p l : List Char) (c : Char)
    (hhead : p.head? = some c) (hc : c ∉ l) : countPat p l = 0 := by
  have := countPat_append_skip p l [] c hhead hc
  simpa using this

/-! ## Decimal rendering of numbers

JavaScript template interpolation renders the horizontal index, the
vertical index and the divider counter in decimal.  `numChars n` is
that rendering as a character list.
-/

def digitChars : List Char := "0123456789".data

/-- Decimal rendering with explicit fuel (structural recursion so that
concrete markup strings evaluate inside the kernel). -/
def numCharsFuel : Nat → Nat → List Char
  | 0, _ => []
  | fuel + 1, n =>
    if n < 10 then [digitChars.getD n '0']
    else numCharsFuel fuel (n / 10) ++ [digitChars.getD (n % 10) '0']

def numChars (n : Nat) : List Char := numCharsFuel (n + 1) n

theorem numCharsFuel_irrel : ∀ f₁ n f₂, n < f₁ → n < f₂ →
    numCharsFuel f₁ n = numCharsFuel f₂ n := by
  intro f₁
  induction f₁ with
  | zero => intro n f₂ h1 _; omega
  | succ k ih =>
    intro n f₂ h1 h2
    cases f₂ with
    | zero => omega
    | succ k2 =>
      by_cases h10 : n < 10
      · rw [numCharsFuel, numCharsFuel, if_pos h10, if_pos h10]
      · have hlt : n / 10 < n := Nat.div_lt_self (by omega) (by omega)
        rw [numCharsFuel, numCharsFuel, if_neg h10, if_neg h10,
          ih (n / 10) k2 (by omega) (by omega)]

theorem numChars_lt (n : Nat) (h : n < 10) : numChars n = [digitChars.getD n '0'] := by
  rw [numChars, numCharsFuel, if_pos h]

theorem numChars_ge (n : Nat) (h : 10 ≤ n) :
    numChars n = numChars (n / 10) ++ [digitChars.getD (n % 10) '0'] := by
  have hlt : n / 10 < n := Nat.div_lt_self (by omega) (by omega)
  rw [numChars, numCharsFuel, if_neg (Nat.not_lt_of_le h)]
  rw [numCharsFuel_irrel n (n / 10) (n / 10 + 1) (by omega) (by omega)]
  rfl

theorem digitChars_getD_mem (d : Nat) (h : d < 10) : digitChars.getD d '0' ∈ digitChars := by
  interval_cases d <;> decide

theorem numChars_mem_digits (n : Nat) : ∀ c ∈ numChars n, c ∈ digitChars := by
  induction n using Nat.strong_induction_on with
  | _ n ih =>
    by_cases h : n < 10
    · rw [numChars_lt n h]
      intro c hc
      simp only [List.mem_singleton] at hc
      exact hc ▸ digitChars_getD_mem n h
    · push_neg at h
      rw [numChars_ge n h]
      intro c hc
      rcases List.mem_append.mp hc with h1 | h2
      · exact ih (n / 10) (Nat.div_lt_self (by omega) (by omega)) c h1
      · simp only [List.mem_singleton] at h2
        exact h2 ▸ digitChars_getD_mem (n % 10) (Nat.mod_lt _ (by omega))

theorem numChars_ne_nil (n : Nat) : numChars n ≠ [] := by
  by_cases h : n < 10
  · rw [numChars_lt n h]; simp
  · push_neg at h
    rw [numChars_ge n h]; simp

theorem digitChars_getD_inj (a b : Nat) (ha : a < 10) (hb : b < 10)
    (h : digitChars.getD a '0' = digitChars.getD b '0') : a = b := by
  interval_cases a <;> interval_cases b <;> first
    | rfl
    | (exfalso; revert h; decide)

theorem concat_inj {α : Type} (xs ys : List α) (a b : α)
    (h : xs ++ [a] = ys ++ [b]) : xs = ys ∧ a = b := by
  have hrev := congrArg List.reverse h
  simp only [List.reverse_append, List.reverse_cons, List.reverse_nil, List.nil_append,
    List.singleton_append, List.cons.injEq] at hrev
  exact ⟨by have := hrev.2; exact List.reverse_injective this, hrev.1⟩

theorem numChars_inj (n : Nat) : ∀ m : Nat, numChars n = numChars m → n = m := by
  induction n using Nat.strong_induction_on with
  | _ n ih =>
    intro m h
    by_cases hn : n < 10 <;> by_cases hm : m < 10
    · rw [numChars_lt n hn, numChars_lt m hm] at h
      simp only [List.cons.injEq] at h
      exact digitChars_getD_inj n m hn hm h.1
    · exfalso
      push_neg at hm
      rw [numChars_lt n hn, numChars_ge m hm] at h
      have hlen := congrArg List.length h
      simp only [List.length_singleton, List.length_append] at hlen
      have hz : (numChars (m / 10)).length = 0 := by omega
      exact numChars_ne_nil (m / 10) (List.length_eq_zero.mp hz)
    · exfalso
      push_neg at hn
      rw [numChars_ge n hn, numChars_lt m hm] at h
      have hlen := congrArg List.length h
      simp only [List.length_singleton, List.length_append] at hlen
      have hz : (numChars (n / 10)).length = 0 := by omega
      exact numChars_ne_nil (n / 10) (List.length_eq_zero.mp hz)
    · push_neg at hn hm
      rw [numChars_ge n hn, numChars_ge m hm] at h
      rcases concat_inj _ _ _ _ h with ⟨h1, h2⟩
      have hdiv : n / 10 = m / 10 :=
        ih (n / 10) (Nat.div_lt_self (by omega) (by omega)) (m / 10) h1
      have hmod : n % 10 = m % 10 :=
        digitChars_getD_inj _ _ (Nat.mod_lt _ (by omega)) (Nat.mod_lt _ (by omega)) h2
      omega

theorem notMem_numChars {c : Char} (n : Nat) (hc : c ∉ digitChars) : c ∉ numChars n :=
  fun hmem => hc (numChars_mem_digits n c hmem)

/-! ## The structure grammar and the slide markup compiler

`Item` is one element of the validated structure array that
`generateSlides` receives in `create-presentation.js`: the literal
divider marker `'d'` or a positive integer (1 = single horizontal
slide, n>1 = vertical stack of n slides).  The markup chunks below are
the exact string pieces emitted by `generateSlides` (source lines
82-123), with the interpolated counters rendered by `numChars`.
-/

inductive Item where
  | d : Item
  | num : Nat → Item
deriving DecidableEq

/-- The ternary `b === 'd' ? 1 : b` inside the reduce callback. -/
def itemCount : Item → Nat
  | .d => 1
  | .num n => n

/-- `slideCount` as computed by the compiler:
`structure.reduce((a, b) => a + (b === 'd' ? 1 : b), 0)`
(source lines 154 and 292). -/
def slideCount (st : List Item) : Nat :=
  st.foldl (fun a b => a + itemCount b) 0

theorem slideCount_aux (st : List Item) :
    ∀ a : Nat, st.foldl (fun a b => a + itemCount b) a = a + slideCount st := by
  induction st with
  | nil => intro a; simp [slideCount]
  | cons it rest ih =>
    intro a
    show List.foldl _ (a + itemCount it) rest = _
    rw [ih (a + itemCount it)]
    have h1 : slideCount (it :: rest) = (0 + itemCount it) + slideCount rest := by
      show List.foldl _ (0 + itemCount it) rest = _
      rw [ih (0 + itemCount it)]
    rw [h1]
    ring

theorem slideCount_cons (it : Item) (rest : List Item) :
    slideCount (it :: rest) = itemCount it + slideCount rest := by
  show List.foldl _ (0 + itemCount it) rest = _
  rw [slideCount_aux rest (0 + itemCount it)]
  ring

/-- Divider slide chunk (source lines 92-94). -/
def dividerL1 : List Char := "\t\t\t<section id=\"divider-".data
def dividerL2 : List Char :=
  "\" class=\"section-divider\" data-state=\"is-section-divider\">\n\t\t\t\t<h1>Section ".data
def dividerL3 : List Char := " Title</h1>\n\t\t\t</section>\n".data

def dividerChunk (dc : Nat) : List Char :=
  dividerL1 ++ (numChars dc ++ (dividerL2 ++ (numChars dc ++ dividerL3)))

/-- Title slide chunk, emitted for a `Single` at horizontal index 1
(source lines 100-102). -/
def titleChunk : List Char :=
  ("\t\t\t<section id=\"title\" class=\"section-divider\" data-state=\"is-section-divider\">\n" ++
   "\t\t\t\t<h1>Presentation Title</h1>\n" ++
   "\t\t\t</section>\n").data

/-- Ordinary single slide chunk (source lines 104-106). -/
def singleL1 : List Char := "\t\t\t<section id=\"slide-".data
def singleL2 : List Char := "\">\n\t\t\t\t<h2>Slide ".data
def singleL3 : List Char := " Title Here</h2>\n\t\t\t</section>\n".data

def singleChunk (h : Nat) : List Char :=
  singleL1 ++ (numChars h ++ (singleL2 ++ (numChars h ++ singleL3)))

/-- One slide inside a vertical stack (source lines 113-115). -/
def innerL1 : List Char := "\t\t\t\t<section id=\"slide-".data
def innerL2 : List Char := "\">\n\t\t\t\t\t<h2>Slide ".data
def innerL3 : List Char := " Title Here</h2>\n\t\t\t\t</section>\n".data

def innerChunk (h v : Nat) : List Char :=
  innerL1 ++ (numChars h ++ (['-'] ++ (numChars v ++
    (innerL2 ++ (numChars h ++ (['.'] ++ (numChars v ++ innerL3)))))))

def stackOpen : List Char := "\t\t\t<section>\n".data
def stackClose : List Char := "\t\t\t</section>\n".data

/-- The inner `for (let vIndex = 1; vIndex <= item; vIndex++)` loop of
the vertical stack branch, unrolled by the number `k` of remaining
iterations (the loop runs for `v = 1, ..., item`, so `k` iterations
remain when the counter is at `v = item - k + 1`). -/
def stackInnerK (h : Nat) : Nat → Nat → List Char
  | 0, _ => []
  | k + 1, v => innerChunk h v ++ stackInnerK h k (v + 1)

/-- Vertical stack chunk (source lines 111-117). -/
def stackChunk (h n : Nat) : List Char :=
  stackOpen ++ (stackInnerK h n 1 ++ stackClose)

/-- The markup emitted for one structure item, given the current
horizontal index and divider counter (the branch structure of the
`for` loop body at source lines 87-119: `'d'`, then `item === 1`
with the `hIndex === 1` title special case, else vertical stack). -/
def genItem (it : Item) (h dc : Nat) : List Char :=
  match it with
  | .d => dividerChunk dc
  | .num n => if n = 1 then (if h = 1 then titleChunk else singleChunk h) else stackChunk h n

/-- The compiler loop: both counters advance exactly as in the source
(`hIndex++` on every branch, `dividerCount++` only on dividers). -/
def generateSlidesAux : List Item → Nat → Nat → List Char
  | [], _, _ => []
  | it :: rest, h, dc =>
      genItem it h dc ++ generateSlidesAux rest (h + 1) (if it = .d then dc + 1 else dc)

/-- `generateSlides(structure)`: counters start at 1 (source lines 84-85). -/
def generateSlides (st : List Item) : List Char :=
  generateSlidesAux st 1 1

/-- A structure array is valid when every numeric entry is a positive
integer (the check at source line 256). -/
def validItem : Item → Prop
  | Item.d => True
  | Item.num n => 1 ≤ n

instance validItem.dec : DecidablePred validItem := fun it => by
  cases it with
  | d => exact isTrue trivial
  | num n => exact Nat.decLe 1 n

def ValidStructure (st : List Item) : Prop :=
  ∀ it ∈ st, validItem it

instance (st : List Item) : Decidable (ValidStructure st) :=
  List.decidableBAll validItem st

/-! ## Pattern counting over the emitted markup -/

/-- Patterns suitable for counting across the emitted chunks: nonempty,
head not a digit (so no occurrence starts inside an interpolated
number), and avoiding the junction characters `-`, `.`, space, tab and
newline of the chunk literals. -/
structure GoodPat (p : List Char) : Prop where
  hd : ∃ c, p.head? = some c ∧ c ∉ digitChars
  dash : '-' ∉ p
  space : ' ' ∉ p
  dot : '.' ∉ p
  newline : '\n' ∉ p
  tab : '\t' ∉ p

theorem GoodPat.ne {p : List Char} (gp : GoodPat p) : p ≠ [] := by
  obtain ⟨c, hc, _⟩ := gp.hd
  intro h
  rw [h] at hc
  simp at hc

theorem countPat_singleton_zero (p : List Char) (a : Char) (ha : a ∉ p) (hne : p ≠ []) :
    countPat p [a] = 0 := by
  rw [countPat_cons]
  have hnp : ¬ p.isPrefixOf [a] := by
    intro h
    rcases List.isPrefixOf_iff_prefix.mp h with ⟨t, ht⟩
    cases p with
    | nil => exact hne rfl
    | cons x xs =>
      cases xs with
      | nil =>
        simp only [List.singleton_append, List.cons.injEq] at ht
        exact ha (ht.1 ▸ List.mem_singleton_self x)
      | cons y ys =>
        have := congrArg List.length ht
        simp at this
  simp [hnp, countPat_nil]

theorem getLast?_append_right {l₁ l₂ : List Char} {c : Char}
    (h : l₂.getLast? = some c) : (l₁ ++ l₂).getLast? = some c := by
  have hne : l₂ ≠ [] := by
    intro h2
    rw [h2] at h
    simp at h
  rw [List.getLast?_append_of_ne_nil l₁ hne, h]

theorem countPat_skip_num (p : List Char) (c : Char) (hc : p.head? = some c)
    (hd : c ∉ digitChars) (n : Nat) (l₂ : List Char) :
    countPat p (numChars n ++ l₂) = countPat p l₂ :=
  countPat_append_skip p (numChars n) l₂ c hc (notMem_numChars n hd)

theorem countPat_dividerChunk (p : List Char) (gp : GoodPat p) (dc : Nat) :
    countPat p (dividerChunk dc)
      = countPat p dividerL1 + countPat p dividerL2 + countPat p dividerL3 := by
  obtain ⟨c, hc, hcd⟩ := gp.hd
  unfold dividerChunk
  rw [countPat_append_last p dividerL1 _ '-' (by decide) gp.dash,
      countPat_skip_num p c hc hcd,
      countPat_append_last p dividerL2 _ ' ' (by decide) gp.space,
      countPat_skip_num p c hc hcd]
  ring

theorem countPat_singleChunk (p : List Char) (gp : GoodPat p) (h : Nat) :
    countPat p (singleChunk h)
      = countPat p singleL1 + countPat p singleL2 + countPat p singleL3 := by
  obtain ⟨c, hc, hcd⟩ := gp.hd
  unfold singleChunk
  rw [countPat_append_last p singleL1 _ '-' (by decide) gp.dash,
      countPat_skip_num p c hc hcd,
      countPat_append_last p singleL2 _ ' ' (by decide) gp.space,
      countPat_skip_num p c hc hcd]
  ring

theorem countPat_innerChunk (p : List Char) (gp : GoodPat p) (h v : Nat) :
    countPat p (innerChunk h v)
      = countPat p innerL1 + countPat p innerL2 + countPat p innerL3 := by
  obtain ⟨c, hc, hcd⟩ := gp.hd
  unfold innerChunk
  rw [countPat_append_last p innerL1 _ '-' (by decide) gp.dash,
      countPat_skip_num p c hc hcd,
      countPat_append_last p ['-'] _ '-' (by decide) gp.dash,
      countPat_singleton_zero p '-' gp.dash gp.ne,
      countPat_skip_num p c hc hcd,
      countPat_append_last p innerL2 _ ' ' (by decide) gp.space,
      countPat_skip_num p c hc hcd,
      countPat_append_last p ['.'] _ '.' (by decide) gp.dot,
      countPat_singleton_zero p '.' gp.dot gp.ne,
      countPat_skip_num p c hc hcd]
  ring

theorem innerChunk_last (h v : Nat) : (innerChunk h v).getLast? = some '\n' := by
  unfold innerChunk
  repeat apply getLast?_append_right
  decide

theorem countPat_stackInnerK (p : List Char) (gp : GoodPat p) (h : Nat) :
    ∀ k v, countPat p (stackInnerK h k v)
        = k * (countPat p innerL1 + countPat p innerL2 + countPat p innerL3) := by
  intro k
  induction k with
  | zero =>
    intro v
    rw [stackInnerK, countPat_nil]
    ring
  | succ k ih =>
    intro v
    rw [stackInnerK,
        countPat_append_last p _ _ '\n' (innerChunk_last h v) gp.newline,
        countPat_innerChunk p gp, ih (v + 1)]
    ring

theorem countPat_stackChunk (p : List Char) (gp : GoodPat p) (h n : Nat) :
    countPat p (stackChunk h n)
      = countPat p stackOpen
        + n * (countPat p innerL1 + countPat p innerL2 + countPat p innerL3)
        + countPat p stackClose := by
  unfold stackChunk
  rw [countPat_append_last p stackOpen _ '\n' (by decide) gp.newline,
      countPat_append_head p _ stackClose '\t' (by decide) gp.tab,
      countPat_stackInnerK p gp h n 1]
  ring

/-- Every leaf slide element emitted by the compiler carries exactly one
heading open tag `<h1>`/`<h2>`, and nothing else in the emitted markup
contains the character pair `<h`; counting it counts leaf slides. -/
def hPat : List Char := "<h".data

theorem goodPat_hPat : GoodPat hPat :=
  ⟨⟨'<', by decide, by decide⟩, by decide, by decide, by decide, by decide, by decide⟩

theorem titleChunk_last : titleChunk.getLast? = some '\n' := by decide

theorem singleChunk_last (h : Nat) : (singleChunk h).getLast? = some '\n' := by
  unfold singleChunk
  repeat apply getLast?_append_right
  decide

theorem dividerChunk_last (dc : Nat) : (dividerChunk dc).getLast? = some '\n' := by
  unfold dividerChunk
  repeat apply getLast?_append_right
  decide

theorem stackChunk_last (h n : Nat) : (stackChunk h n).getLast? = some '\n' := by
  unfold stackChunk
  repeat apply getLast?_append_right
  decide

theorem genItem_last (it : Item) (h dc : Nat) : (genItem it h dc).getLast? = some '\n' := by
  cases it with
  | d => exact dividerChunk_last dc
  | num n =>
    show (if n = 1 then (if h = 1 then titleChunk else singleChunk h)
          else stackChunk h n).getLast? = some '\n'
    by_cases h1 : n = 1
    · by_cases h2 : h = 1
      · rw [if_pos h1, if_pos h2]; exact titleChunk_last
      · rw [if_pos h1, if_neg h2]; exact singleChunk_last h
    · rw [if_neg h1]; exact stackChunk_last h n

/-- Counting `<h` over the compiler output yields exactly the
structural slide count, for any counter start values. -/
theorem countPat_hPat_aux (st : List Item) :
    ∀ h dc : Nat, countPat hPat (generateSlidesAux st h dc) = slideCount st := by
  induction st with
  | nil => intro h dc; simp [generateSlidesAux, slideCount, countPat_nil]
  | cons it rest ih =>
    intro h dc
    rw [generateSlidesAux,
        countPat_append_last hPat _ _ '\n' (genItem_last it h dc) (by decide),
        ih _ _, slideCount_cons]
    congr 1
    cases it with
    | d =>
      rw [show genItem Item.d h dc = dividerChunk dc from rfl,
          countPat_dividerChunk hPat goodPat_hPat]
      decide
    | num n =>
      by_cases h1 : n = 1
      · subst h1
        by_cases h2 : h = 1
        · subst h2
          rw [show genItem (Item.num 1) 1 dc = titleChunk from rfl]
          decide
        · rw [show genItem (Item.num 1) h dc = singleChunk h by simp [genItem, h2],
              countPat_singleChunk hPat goodPat_hPat]
          decide
      · rw [show genItem (Item.num n) h dc = stackChunk h n by simp [genItem, h1],
            countPat_stackChunk hPat goodPat_hPat]
        have e1 : countPat hPat stackOpen = 0 := by decide
        have e2 : countPat hPat innerL1 = 0 := by decide
        have e3 : countPat hPat innerL2 = 1 := by decide
        have e4 : countPat hPat innerL3 = 0 := by decide
        have e5 : countPat hPat stackClose = 0 := by decide
        rw [e1, e2, e3, e4, e5, itemCount]
        ring

/-- The title slide is the unique element carrying `id="title"`; this
pattern occurs nowhere else in any chunk. -/
def titlePat : List Char := "id=\"title\"".data

theorem goodPat_titlePat : GoodPat titlePat :=
  ⟨⟨'i', by decide, by decide⟩, by decide, by decide, by decide, by decide, by decide⟩

/-- Once the horizontal index has moved past 1, no later chunk can carry
the title marker. -/
theorem countPat_titlePat_aux (st : List Item) :
    ∀ h dc : Nat, 2 ≤ h → countPat titlePat (generateSlidesAux st h dc) = 0 := by
  induction st with
  | nil => intro h dc _; simp [generateSlidesAux, countPat_nil]
  | cons it rest ih =>
    intro h dc hh
    rw [generateSlidesAux,
        countPat_append_last titlePat _ _ '\n' (genItem_last it h dc) (by decide),
        ih _ _ (by omega)]
    have hzero : countPat titlePat (genItem it h dc) = 0 := by
      cases it with
      | d =>
        rw [show genItem Item.d h dc = dividerChunk dc from rfl,
            countPat_dividerChunk titlePat goodPat_titlePat]
        decide
      | num n =>
        by_cases h1 : n = 1
        · subst h1
          have h2 : h ≠ 1 := by omega
          rw [show genItem (Item.num 1) h dc = singleChunk h by simp [genItem, h2],
              countPat_singleChunk titlePat goodPat_titlePat]
          decide
        · rw [show genItem (Item.num n) h dc = stackChunk h n by simp [genItem, h1],
              countPat_stackChunk titlePat goodPat_titlePat]
          have e1 : countPat titlePat stackOpen = 0 := by decide
          have e2 : countPat titlePat innerL1 = 0 := by decide
          have e3 : countPat titlePat innerL2 = 0 := by decide
          have e4 : countPat titlePat innerL3 = 0 := by decide
          have e5 : countPat titlePat stackClose = 0 := by decide
          rw [e1, e2, e3, e4, e5]
          ring
    rw [hzero]

/-! ## The structure token grammar

`parseArgs` (source line 193) splits the `--structure` option on commas
and maps each token: the literal `"d"` stays a divider marker, anything
else goes through `parseInt(n, 10)`.  `Tok.nan` models a failed numeric
parse.  `main` (source line 256) then rejects any token that is neither
`'d'` nor a positive integer.
-/

inductive Tok where
  | d : Tok
  | num : Nat → Tok
  | nan : Tok
deriving DecidableEq

def digitVal (c : Char) : Nat := c.toNat - '0'.toNat

def charsToNat (ds : List Char) : Nat :=
  ds.foldl (fun a c => 10 * a + digitVal c) 0

/-- `parseInt(n, 10)` restricted to the shapes the grammar accepts:
leading decimal digits give a number, no leading digit gives `NaN`.
(The sign/whitespace handling of full `parseInt` never yields a token
that validation accepts, so it is not modelled.) -/
def parseIntTok (s : List Char) : Tok :=
  let ds := s.takeWhile (fun c => c ∈ digitChars)
  if ds = [] then .nan else .num (charsToNat ds)

/-- `String.prototype.split(',')`: split the character list at commas. -/
def splitComma : List Char → List (List Char)
  | [] => [[]]
  | c :: rest =>
    if c = ',' then [] :: splitComma rest
    else
      match splitComma rest with
      | [] => [[c]]
      | t :: ts => (c :: t) :: ts

/-- `args.split(',').map(n => n === 'd' ? 'd' : parseInt(n, 10))`. -/
def parseStructure (s : String) : List Tok :=
  (splitComma s.data).map (fun t => if t = ['d'] then Tok.d else parseIntTok t)

/-- The check `structure.some(n => n !== 'd' && (n < 1 || isNaN(n)))`. -/
def tokBad : Tok → Bool
  | .d => false
  | .num n => decide (n < 1)
  | .nan => true

/-- Validation of an explicit structure list: reject if any token is
bad, otherwise hand the compiler the typed item list. -/
def validateStructure (ts : List Tok) : Option (List Item) :=
  if ts.any tokBad then none
  else some (ts.filterMap (fun t => match t with
    | .d => some Item.d
    | .num n => some (Item.num n)
    | .nan => none))

/-- Count of divider elements: the divider chunk is the unique chunk
whose section carries `id="divider...`. -/
def dividerPat : List Char := "id=\"divider".data

/-- The bare `<section>` opener is emitted only as the outer container
of a vertical stack. -/
def stackPat : List Char := "<section>".data

/-- Inner slides of a vertical stack are the only sections opened at
four tabs of indentation. -/
def innerPat : List Char := "\t\t\t\t<section id=\"slide-".data

/-- C1.  For every valid LayoutDescriptor the compiler's `slideCount`
equals the number of leaf slide elements (heading-carrying sections)
in the rendered markup; and the token list `"1,d,3,1"` parses,
validates, and compiles to slide count 6 with exactly one divider
element and one vertical stack of three inner slides. -/
theorem slideCount_eq_markup_leaf_count :
    (∀ st : List Item, ValidStructure st →
        countPat hPat (generateSlides st) = slideCount st)
    ∧ parseStructure "1,d,3,1" = [Tok.num 1, Tok.d, Tok.num 3, Tok.num 1]
    ∧ validateStructure [Tok.num 1, Tok.d, Tok.num 3, Tok.num 1]
        = some [Item.num 1, Item.d, Item.num 3, Item.num 1]
    ∧ slideCount [Item.num 1, Item.d, Item.num 3, Item.num 1] = 6
    ∧ countPat hPat (generateSlides [Item.num 1, Item.d, Item.num 3, Item.num 1]) = 6
    ∧ countPat dividerPat (generateSlides [Item.num 1, Item.d, Item.num 3, Item.num 1]) = 1
    ∧ countPat stackPat (generateSlides [Item.num 1, Item.d, Item.num 3, Item.num 1]) = 1
    ∧ countPat innerPat (generateSlides [Item.num 1, Item.d, Item.num 3, Item.num 1]) = 3 := by
  refine ⟨fun st _ => countPat_hPat_aux st 1 1, ?_, by decide, by decide, ?_, ?_, ?_, ?_⟩
  · decide
  · decide
  · decide
  · decide
  · decide

/-- C1 witness at a concrete valid structure. -/
theorem slideCount_eq_markup_leaf_count_witness :
    ValidStructure [Item.num 2, Item.d]
    ∧ countPat hPat (generateSlides [Item.num 2, Item.d])
        = slideCount [Item.num 2, Item.d] :=
  ⟨by decide, slideCount_eq_markup_leaf_count.1 [Item.num 2, Item.d] (by decide)⟩

/-! ## Slide identifiers (claim C8)

The `id` attributes written into the emitted chunks, collected in
emission order: `"title"`, `divider-<k>`, `slide-<h>`, and
`slide-<h>-<v>` (see the chunk definitions above, where each of these
appears inside `id="..."`).
-/

def titleId : List Char := "title".data
def dividerId (k : Nat) : List Char := "divider-".data ++ numChars k
def singleId (h : Nat) : List Char := "slide-".data ++ numChars h
def stackId (h v : Nat) : List Char := "slide-".data ++ (numChars h ++ ('-' :: numChars v))

def stackIdsK (h : Nat) : Nat → Nat → List (List Char)
  | 0, _ => []
  | k + 1, v => stackId h v :: stackIdsK h k (v + 1)

def itemIds (it : Item) (h dc : Nat) : List (List Char) :=
  match it with
  | .d => [dividerId dc]
  | .num n => if n = 1 then [if h = 1 then titleId else singleId h] else stackIdsK h n 1

def slideIdsAux : List Item → Nat → Nat → List (List Char)
  | [], _, _ => []
  | it :: rest, h, dc =>
      itemIds it h dc ++ slideIdsAux rest (h + 1) (if it = .d then dc + 1 else dc)

def slideIds (st : List Item) : List (List Char) := slideIdsAux st 1 1

theorem dividerId_head (k : Nat) : dividerId k = 'd' :: ("ivider-".data ++ numChars k) := rfl

theorem singleId_head (h : Nat) : singleId h = 's' :: ("lide-".data ++ numChars h) := rfl

theorem stackId_head (h v : Nat) :
    stackId h v = 's' :: ("lide-".data ++ (numChars h ++ ('-' :: numChars v))) := rfl

theorem titleId_ne_dividerId (k : Nat) : titleId ≠ dividerId k := by
  rw [dividerId_head]
  intro h
  have := congrArg List.head? h
  simp [titleId] at this

theorem titleId_ne_singleId (h : Nat) : titleId ≠ singleId h := by
  rw [singleId_head]
  intro heq
  have := congrArg List.head? heq
  simp [titleId] at this

theorem titleId_ne_stackId (h v : Nat) : titleId ≠ stackId h v := by
  rw [stackId_head]
  intro heq
  have := congrArg List.head? heq
  simp [titleId] at this

theorem dividerId_ne_singleId (k h : Nat) : dividerId k ≠ singleId h := by
  rw [dividerId_head, singleId_head]
  intro heq
  have := congrArg List.head? heq
  simp at this

theorem dividerId_ne_stackId (k h v : Nat) : dividerId k ≠ stackId h v := by
  rw [dividerId_head, stackId_head]
  intro heq
  have := congrArg List.head? heq
  simp at this

theorem dividerId_inj {k k' : Nat} (h : dividerId k = dividerId k') : k = k' :=
  numChars_inj k k' (List.append_cancel_left h)

theorem singleId_inj {h h' : Nat} (heq : singleId h = singleId h') : h = h' :=
  numChars_inj h h' (List.append_cancel_left heq)

theorem dash_notMem_numChars (n : Nat) : '-' ∉ numChars n :=
  notMem_numChars n (by decide)

theorem singleId_ne_stackId (h h' v : Nat) : singleId h ≠ stackId h' v := by
  intro heq
  have h1 : numChars h = numChars h' ++ ('-' :: numChars v) :=
    List.append_cancel_left (heq : "slide-".data ++ _ = "slide-".data ++ _)
  have h2 : '-' ∈ numChars h := by
    rw [h1]
    exact List.mem_append_right _ (List.mem_cons_self _ _)
  exact dash_notMem_numChars h h2

theorem dash_split {a b c d : List Char} (ha : '-' ∉ a) (hc : '-' ∉ c)
    (h : a ++ '-' :: b = c ++ '-' :: d) : a = c ∧ b = d := by
  induction a generalizing c with
  | nil =>
    cases c with
    | nil => simpa using h
    | cons y ys =>
      exfalso
      simp only [List.nil_append, List.cons_append, List.cons.injEq] at h
      exact hc (h.1 ▸ List.mem_cons_self y ys)
  | cons x xs ih =>
    cases c with
    | nil =>
      exfalso
      simp only [List.nil_append, List.cons_append, List.cons.injEq] at h
      exact ha (h.1 ▸ List.mem_cons_self x xs)
    | cons y ys =>
      simp only [List.cons_append, List.cons.injEq] at h
      have := ih (fun hm => ha (List.mem_cons_of_mem x hm))
        (fun hm => hc (h.1 ▸ List.mem_cons_of_mem y hm)) h.2
      exact ⟨by rw [h.1, this.1], this.2⟩

theorem stackId_inj {h v h' v' : Nat} (heq : stackId h v = stackId h' v') :
    h = h' ∧ v = v' := by
  have h1 : numChars h ++ ('-' :: numChars v) = numChars h' ++ ('-' :: numChars v') :=
    List.append_cancel_left (heq : "slide-".data ++ _ = "slide-".data ++ _)
  have h2 := dash_split (dash_notMem_numChars h) (dash_notMem_numChars h') h1
  exact ⟨numChars_inj _ _ h2.1, numChars_inj _ _ h2.2⟩

/-- Shape of every identifier produced from a walk whose horizontal
index starts at `h` and divider counter at `dc`. -/
def IdSpec (h dc : Nat) (id : List Char) : Prop :=
  (id = titleId ∧ h ≤ 1)
  ∨ (∃ k, dc ≤ k ∧ id = dividerId k)
  ∨ (∃ h', h ≤ h' ∧ id = singleId h')
  ∨ (∃ h' v, h ≤ h' ∧ id = stackId h' v)

theorem stackIdsK_mem {h : Nat} :
    ∀ k v id, id ∈ stackIdsK h k v → ∃ v', v ≤ v' ∧ id = stackId h v' := by
  intro k
  induction k with
  | zero => intro v id hid; simp [stackIdsK] at hid
  | succ k ih =>
    intro v id hid
    rw [stackIdsK] at hid
    rcases List.mem_cons.mp hid with h1 | h2
    · exact ⟨v, le_refl v, h1⟩
    · rcases ih (v + 1) id h2 with ⟨v', hv', hid'⟩
      exact ⟨v', by omega, hid'⟩

theorem stackIdsK_nodup (h : Nat) : ∀ k v, (stackIdsK h k v).Nodup := by
  intro k
  induction k with
  | zero => intro v; simp [stackIdsK]
  | succ k ih =>
    intro v
    rw [stackIdsK]
    refine List.nodup_cons.mpr ⟨?_, ih (v + 1)⟩
    intro hmem
    rcases stackIdsK_mem (k) (v + 1) _ hmem with ⟨v', hv', heq⟩
    have := (stackId_inj heq).2
    omega

theorem itemIds_mem {it : Item} {h dc : Nat} {id : List Char}
    (hid : id ∈ itemIds it h dc) : IdSpec h dc id := by
  cases it with
  | d =>
    simp only [itemIds, List.mem_singleton] at hid
    exact Or.inr (Or.inl ⟨dc, le_refl dc, hid⟩)
  | num n =>
    by_cases h1 : n = 1
    · subst h1
      by_cases h2 : h = 1
      · subst h2
        have hid' : id = titleId := by simpa [itemIds] using hid
        exact Or.inl ⟨hid', by omega⟩
      · have hid' : id = singleId h := by simpa [itemIds, h2] using hid
        exact Or.inr (Or.inr (Or.inl ⟨h, le_refl h, hid'⟩))
    · rw [itemIds, if_neg h1] at hid
      rcases stackIdsK_mem n 1 id hid with ⟨v', _, heq⟩
      exact Or.inr (Or.inr (Or.inr ⟨h, v', le_refl h, heq⟩))

theorem itemIds_nodup (it : Item) (h dc : Nat) : (itemIds it h dc).Nodup := by
  cases it with
  | d => simp [itemIds]
  | num n =>
    by_cases h1 : n = 1
    · subst h1; simp [itemIds]
    · rw [itemIds, if_neg h1]
      exact stackIdsK_nodup h n 1

theorem IdSpec.weaken {h dc h' dc' : Nat} {id : List Char}
    (hs : IdSpec h' dc' id) (hh : h ≤ h') (hdc : dc ≤ dc') : IdSpec h dc id := by
  rcases hs with ⟨he, hle⟩ | ⟨k, hk, he⟩ | ⟨x, hx, he⟩ | ⟨x, v, hx, he⟩
  · exact Or.inl ⟨he, by omega⟩
  · exact Or.inr (Or.inl ⟨k, by omega, he⟩)
  · exact Or.inr (Or.inr (Or.inl ⟨x, by omega, he⟩))
  · exact Or.inr (Or.inr (Or.inr ⟨x, v, by omega, he⟩))

theorem slideIdsAux_mem :
    ∀ (st : List Item) (h dc : Nat) (id : List Char),
      id ∈ slideIdsAux st h dc → IdSpec h dc id := by
  intro st
  induction st with
  | nil => intro h dc id hid; simp [slideIdsAux] at hid
  | cons it rest ih =>
    intro h dc id hid
    rw [slideIdsAux] at hid
    rcases List.mem_append.mp hid with h1 | h2
    · exact itemIds_mem h1
    · have := ih (h + 1) _ id h2
      exact this.weaken (by omega) (by split <;> omega)

/-- The identifiers of the chunk at horizontal index `h` are disjoint
from those of any walk starting at `h + 1`. -/
theorem itemIds_disjoint_tail (it : Item) (h dc dc' : Nat) (hdc : dc ≤ dc')
    (hposs : it = Item.d → dc < dc') :
    ∀ id, id ∈ itemIds it h dc → ¬ IdSpec (h + 1) dc' id := by
  intro id hid hspec
  cases it with
  | d =>
    simp only [itemIds, List.mem_singleton] at hid
    subst hid
    rcases hspec with ⟨he, _⟩ | ⟨k, hk, he⟩ | ⟨x, _, he⟩ | ⟨x, v, _, he⟩
    · exact titleId_ne_dividerId dc he.symm
    · have := dividerId_inj he
      have := hposs rfl
      omega
    · exact dividerId_ne_singleId dc x he
    · exact dividerId_ne_stackId dc x v he
  | num n =>
    by_cases h1 : n = 1
    · subst h1
      by_cases h2 : h = 1
      · subst h2
        have hid' : id = titleId := by simpa [itemIds] using hid
        subst hid'
        rcases hspec with ⟨_, hle⟩ | ⟨k, _, he⟩ | ⟨x, _, he⟩ | ⟨x, v, _, he⟩
        · omega
        · exact titleId_ne_dividerId k he
        · exact titleId_ne_singleId x he
        · exact titleId_ne_stackId x v he
      · have hid' : id = singleId h := by simpa [itemIds, h2] using hid
        subst hid'
        rcases hspec with ⟨he, _⟩ | ⟨k, _, he⟩ | ⟨x, hx, he⟩ | ⟨x, v, hx, he⟩
        · exact titleId_ne_singleId h he.symm
        · exact dividerId_ne_singleId k h he.symm
        · have := singleId_inj he
          omega
        · exact singleId_ne_stackId h x v he
    · rw [itemIds, if_neg h1] at hid
      rcases stackIdsK_mem n 1 id hid with ⟨v', _, heq⟩
      subst heq
      rcases hspec with ⟨he, _⟩ | ⟨k, _, he⟩ | ⟨x, hx, he⟩ | ⟨x, v, hx, he⟩
      · exact titleId_ne_stackId h v' he.symm
      · exact dividerId_ne_stackId k h v' he.symm
      · exact singleId_ne_stackId x h v' he.symm
      · have := (stackId_inj he).1
        omega

theorem slideIdsAux_nodup :
    ∀ (st : List Item) (h dc : Nat), (slideIdsAux st h dc).Nodup := by
  intro st
  induction st with
  | nil => intro h dc; simp [slideIdsAux]
  | cons it rest ih =>
    intro h dc
    rw [slideIdsAux]
    refine List.Nodup.append (itemIds_nodup it h dc) (ih _ _) ?_
    intro id hid1 hid2
    have hspec := slideIdsAux_mem rest (h + 1) _ id hid2
    by_cases hd : it = Item.d
    · subst hd
      exact itemIds_disjoint_tail Item.d h dc (dc + 1) (by omega)
        (fun _ => by omega) id hid1 (by simpa using hspec)
    · have hspec' : IdSpec (h + 1) dc id := by
        simpa [hd] using hspec
      exact itemIds_disjoint_tail it h dc dc (le_refl dc)
        (fun hd' => absurd hd' hd) id hid1 hspec'

/-- C8.  Within one deck the assigned slide identifiers are pairwise
distinct, and rendering is a deterministic pure function of the
LayoutDescriptor: equal structures give byte-identical markup and
identical identifier lists. -/
theorem slideIds_nodup_and_deterministic :
    (∀ st : List Item, ValidStructure st → (slideIds st).Nodup)
    ∧ (∀ st st' : List Item, st = st' →
        generateSlides st = generateSlides st' ∧ slideIds st = slideIds st') := by
  constructor
  · intro st _
    exact slideIdsAux_nodup st 1 1
  · intro st st' h
    exact ⟨by rw [h], by rw [h]⟩

/-- C8 witness at a concrete valid structure. -/
theorem slideIds_nodup_and_deterministic_witness :
    ValidStructure [Item.num 1, Item.d, Item.num 3, Item.num 1]
    ∧ (slideIds [Item.num 1, Item.d, Item.num 3, Item.num 1]).Nodup :=
  ⟨by decide,
   slideIds_nodup_and_deterministic.1 [Item.num 1, Item.d, Item.num 3, Item.num 1] (by decide)⟩

/-- C4.  When the first element of the structure is a `Single`, the
first rendered slide is the distinguished title slide, the title
marker occurs exactly once in the whole deck, and no walk whose
horizontal index has moved past 1 ever emits it (a `Single` is the
title slide exactly at horizontal index 1). -/
theorem first_single_is_title :
    (∀ rest : List Item,
        generateSlides (Item.num 1 :: rest) = titleChunk ++ generateSlidesAux rest 2 1
        ∧ countPat titlePat (generateSlides (Item.num 1 :: rest)) = 1)
    ∧ (∀ (st : List Item) (h dc : Nat), 2 ≤ h →
        countPat titlePat (generateSlidesAux st h dc) = 0) := by
  constructor
  · intro rest
    have hshape : generateSlides (Item.num 1 :: rest)
        = titleChunk ++ generateSlidesAux rest 2 1 := by
      show generateSlidesAux (Item.num 1 :: rest) 1 1 = _
      rw [generateSlidesAux]
      rfl
    refine ⟨hshape, ?_⟩
    rw [hshape,
        countPat_append_last titlePat _ _ '\n' titleChunk_last (by decide),
        countPat_titlePat_aux rest 2 1 (by omega)]
    decide
  · exact fun st h dc hh => countPat_titlePat_aux st h dc hh

/-- C4 witness: a concrete two-slide deck has exactly one title marker,
and a walk starting past index 1 has none. -/
theorem first_single_is_title_witness :
    countPat titlePat (generateSlides [Item.num 1, Item.num 1]) = 1
    ∧ countPat titlePat (generateSlidesAux [Item.num 1] 2 1) = 0 :=
  ⟨(first_single_is_title.1 [Item.num 1]).2,
   first_single_is_title.2 [Item.num 1] 2 1 (by decide)⟩

/-! ## A file-system model

`finalize.js` and `create-presentation.js` mutate the file system
through `fs.existsSync / readFileSync / writeFileSync / unlinkSync /
mkdirSync / renameSync / rmSync / readdirSync`.  The model is a flat
record of files (path to content) and directories, with paths as
component lists.
-/

abbrev FPath := List String

structure FSys where
  files : List (FPath × List Char)
  dirs : List FPath
deriving DecidableEq

def isFile (fs : FSys) (p : FPath) : Bool := fs.files.any (fun e => e.1 = p)

def isDir (fs : FSys) (p : FPath) : Bool := fs.dirs.any (fun q => q = p)

/-- `fs.existsSync` — true for files and directories alike. -/
def fsExists (fs : FSys) (p : FPath) : Bool := isFile fs p || isDir fs p

/-- `fs.readFileSync(p, 'utf8')` (callers only read files they have
checked or just created). -/
def readFile (fs : FSys) (p : FPath) : Option (List Char) :=
  (fs.files.find? (fun e => e.1 = p)).map (fun e => e.2)

/-- `fs.writeFileSync(p, c)` — creates or overwrites. -/
def writeFile (fs : FSys) (p : FPath) (c : List Char) : FSys :=
  ⟨(p, c) :: fs.files.filter (fun e => ¬ e.1 = p), fs.dirs⟩

/-- `fs.unlinkSync p`. -/
def unlink (fs : FSys) (p : FPath) : FSys :=
  ⟨fs.files.filter (fun e => ¬ e.1 = p), fs.dirs⟩

/-- `fs.mkdirSync(p, {recursive: true})` (callers guard with
`existsSync`, so only the new directory entry is recorded). -/
def mkdir (fs : FSys) (p : FPath) : FSys := ⟨fs.files, p :: fs.dirs⟩

/-- `fs.rmSync(p, {recursive: true, force: true})` — removes the whole
subtree under `p`. -/
def rmRec (fs : FSys) (p : FPath) : FSys :=
  ⟨fs.files.filter (fun e => ¬ p.isPrefixOf e.1),
   fs.dirs.filter (fun q => ¬ p.isPrefixOf q)⟩

/-- The name of `p` when `p` is a direct child of directory `d`. -/
def childName (d p : FPath) : Option String :=
  if d.isPrefixOf p ∧ p.length = d.length + 1 then p.getLast? else none

/-- `fs.readdirSync d` — names of entries directly inside `d`. -/
def readdirNames (fs : FSys) (d : FPath) : List String :=
  (fs.files.map (fun e => e.1) ++ fs.dirs).filterMap (childName d)

/-- `String.prototype.endsWith`, on the character lists. -/
def strEndsWith (s suffix : String) : Bool := suffix.data.isSuffixOf s.data

/-! ### Basic facts about the file-system operations -/

theorem isFile_iff (fs : FSys) (q : FPath) :
    isFile fs q ↔ ∃ e ∈ fs.files, e.1 = q := by
  simp [isFile, List.any_eq_true]

theorem isDir_iff (fs : FSys) (q : FPath) : isDir fs q ↔ q ∈ fs.dirs := by
  simp only [isDir, List.any_eq_true, decide_eq_true_eq]
  constructor
  · rintro ⟨x, hx, rfl⟩; exact hx
  · intro h; exact ⟨q, h, rfl⟩

theorem isFile_writeFile_iff (fs : FSys) (p q : FPath) (c : List Char) :
    isFile (writeFile fs p c) q ↔ (q = p ∨ isFile fs q) := by
  simp only [isFile_iff, writeFile, List.mem_cons, List.mem_filter,
    decide_eq_true_eq]
  constructor
  · rintro ⟨e, (rfl | ⟨hef, _⟩), hq⟩
    · exact Or.inl hq.symm
    · exact Or.inr ⟨e, hef, hq⟩
  · rintro (rfl | ⟨e, hef, hq⟩)
    · exact ⟨(q, c), Or.inl rfl, rfl⟩
    · by_cases hqp : q = p
      · exact ⟨(p, c), Or.inl rfl, hqp.symm⟩
      · refine ⟨e, Or.inr ⟨hef, ?_⟩, hq⟩
        simp only [decide_eq_true_eq] at *
        rw [hq]
        exact fun h => hqp h

theorem isFile_unlink_iff (fs : FSys) (p q : FPath) :
    isFile (unlink fs p) q ↔ (isFile fs q ∧ q ≠ p) := by
  simp only [isFile_iff, unlink, List.mem_filter, decide_eq_true_eq]
  constructor
  · rintro ⟨e, ⟨hef, hne⟩, hq⟩
    exact ⟨⟨e, hef, hq⟩, fun hqp => hne (hq.trans hqp)⟩
  · rintro ⟨⟨e, hef, hq⟩, hne⟩
    exact ⟨e, ⟨hef, fun hp => hne (hq.symm.trans hp)⟩, hq⟩

theorem isDir_writeFile (fs : FSys) (p q : FPath) (c : List Char) :
    isDir (writeFile fs p c) q = isDir fs q := rfl

theorem isDir_unlink (fs : FSys) (p q : FPath) :
    isDir (unlink fs p) q = isDir fs q := rfl

theorem isFile_mkdir (fs : FSys) (p q : FPath) :
    isFile (mkdir fs p) q = isFile fs q := rfl

theorem isDir_mkdir_iff (fs : FSys) (p q : FPath) :
    isDir (mkdir fs p) q ↔ (q = p ∨ isDir fs q) := by
  simp only [isDir_iff, mkdir, List.mem_cons]

theorem isFile_rmRec_iff (fs : FSys) (p q : FPath) :
    isFile (rmRec fs p) q ↔ (isFile fs q ∧ ¬ p <+: q) := by
  simp only [isFile_iff, rmRec, List.mem_filter, decide_eq_true_eq]
  constructor
  · rintro ⟨e, ⟨hef, hne⟩, hq⟩
    refine ⟨⟨e, hef, hq⟩, ?_⟩
    intro hpre
    exact hne (List.isPrefixOf_iff_prefix.mpr (by rw [hq]; exact hpre))
  · rintro ⟨⟨e, hef, hq⟩, hnp⟩
    refine ⟨e, ⟨hef, ?_⟩, hq⟩
    intro hpre
    exact hnp (by rw [← hq]; exact List.isPrefixOf_iff_prefix.mp hpre)

theorem isDir_rmRec_iff (fs : FSys) (p q : FPath) :
    isDir (rmRec fs p) q ↔ (isDir fs q ∧ ¬ p <+: q) := by
  simp only [isDir_iff, rmRec, List.mem_filter, decide_eq_true_eq]
  constructor
  · rintro ⟨hq, hne⟩
    exact ⟨hq, fun hpre => hne (List.isPrefixOf_iff_prefix.mpr hpre)⟩
  · rintro ⟨hq, hnp⟩
    exact ⟨hq, fun hpre => hnp (List.isPrefixOf_iff_prefix.mp hpre)⟩

theorem readFile_writeFile_self (fs : FSys) (p : FPath) (c : List Char) :
    readFile (writeFile fs p c) p = some c := by
  simp [readFile, writeFile, List.find?_cons]

theorem find?_filter_ne (q p : FPath) (h : q ≠ p) (l : List (FPath × List Char)) :
    (l.filter (fun e => ¬ e.1 = p)).find? (fun e => e.1 = q)
      = l.find? (fun e => e.1 = q) := by
  induction l with
  | nil => rfl
  | cons e l ih =>
    by_cases he : e.1 = p
    · rw [List.filter_cons_of_neg (by simpa using he), ih,
        List.find?_cons_of_neg _
          (by simp only [he, decide_eq_true_eq]; exact fun hpq => h hpq.symm)]
    · rw [List.filter_cons_of_pos (by simpa using he)]
      by_cases hq : e.1 = q
      · rw [List.find?_cons_of_pos _ (by simpa using hq),
          List.find?_cons_of_pos _ (by simpa using hq)]
      · rw [List.find?_cons_of_neg _ (by simpa using hq),
          List.find?_cons_of_neg _ (by simpa using hq), ih]

theorem readFile_writeFile_ne (fs : FSys) (p q : FPath) (c : List Char)
    (h : q ≠ p) : readFile (writeFile fs p c) q = readFile fs q := by
  simp only [readFile, writeFile]
  rw [List.find?_cons_of_neg _
      (by simp only [decide_eq_true_eq]; exact fun hpq => h hpq.symm),
    find?_filter_ne q p h]

theorem readFile_unlink_ne (fs : FSys) (p q : FPath) (h : q ≠ p) :
    readFile (unlink fs p) q = readFile fs q := by
  simp only [readFile, unlink]
  rw [find?_filter_ne q p h]

theorem readFile_mkdir (fs : FSys) (p q : FPath) :
    readFile (mkdir fs p) q = readFile fs q := rfl

theorem find?_filter_keep (q : FPath) (pr : FPath × List Char → Bool)
    (l : List (FPath × List Char)) (hk : ∀ e : FPath × List Char, e.1 = q → pr e = true) :
    (l.filter pr).find? (fun e => e.1 = q) = l.find? (fun e => e.1 = q) := by
  induction l with
  | nil => rfl
  | cons e l ih =>
    by_cases hq : e.1 = q
    · rw [List.filter_cons_of_pos (hk e hq),
        List.find?_cons_of_pos _ (by simpa using hq),
        List.find?_cons_of_pos _ (by simpa using hq)]
    · rw [List.find?_cons_of_neg _ (by simpa using hq)]
      by_cases hpr : pr e = true
      · rw [List.filter_cons_of_pos hpr,
          List.find?_cons_of_neg _ (by simpa using hq), ih]
      · rw [List.filter_cons_of_neg (by simpa using hpr), ih]

theorem readFile_rmRec_ne (fs : FSys) (p q : FPath) (h : ¬ p <+: q) :
    readFile (rmRec fs p) q = readFile fs q := by
  simp only [readFile, rmRec]
  rw [find?_filter_keep q _ _ ?_]
  intro e he
  simp only [decide_eq_true_eq, Bool.not_eq_true', ← Bool.not_eq_true]
  intro hpre
  exact absurd (List.isPrefixOf_iff_prefix.mp (he ▸ hpre)) h

theorem childName_eq_some (d p : FPath) (n : String) :
    childName d p = some n ↔ p = d ++ [n] := by
  unfold childName
  constructor
  · intro h
    by_cases hc : d.isPrefixOf p ∧ p.length = d.length + 1
    · rw [if_pos hc] at h
      rcases hc with ⟨hpre, hlen⟩
      rcases List.isPrefixOf_iff_prefix.mp hpre with ⟨t, ht⟩
      have hlt : t.length = 1 := by
        have := congrArg List.length ht
        simp at this
        omega
      rcases List.length_eq_one.mp hlt with ⟨a, rfl⟩
      rw [← ht] at h ⊢
      rw [List.getLast?_append_of_ne_nil d (by simp)] at h
      simp at h
      rw [h]
    · rw [if_neg hc] at h
      exact absurd h (by simp)
  · rintro rfl
    rw [if_pos ⟨List.isPrefixOf_iff_prefix.mpr ⟨[n], rfl⟩, by simp⟩,
      List.getLast?_append_of_ne_nil d (by simp)]
    rfl

theorem mem_readdirNames (fs : FSys) (d : FPath) (n : String) :
    n ∈ readdirNames fs d ↔ (isFile fs (d ++ [n]) ∨ isDir fs (d ++ [n])) := by
  simp only [readdirNames, List.mem_filterMap, List.mem_append, List.mem_map,
    isFile_iff, isDir_iff]
  constructor
  · rintro ⟨p, hp, hcn⟩
    rw [childName_eq_some] at hcn
    subst hcn
    rcases hp with ⟨e, he, hp⟩ | hp
    · exact Or.inl ⟨e, he, hp⟩
    · exact Or.inr hp
  · rintro (⟨e, he, hp⟩ | hp)
    · exact ⟨d ++ [n], Or.inl ⟨e, he, hp⟩, (childName_eq_some _ _ _).mpr rfl⟩
    · exact ⟨d ++ [n], Or.inr hp, (childName_eq_some _ _ _).mpr rfl⟩

/-! ## Stylesheet link stripping (finalize.js step 3)

`html.replace(/<link[^>]*href="[^"]*\.css"[^>]*>/gi, m =>
  m.includes('lib/offline-v2.css') ? m : '')`
modelled as a left-to-right scan: at each `<link` occurrence the tag up
to the next `>` is taken whole and dropped exactly when it carries an
`href` whose quote-free value ends in `.css` and does not mention the
canonical path.  (The `i` flag's case folding is not modelled; all
markup involved is lower-case.)
-/

def linkPat : List Char := "<link".data
def hrefPat : List Char := "href=\"".data
def canonicalRef : List Char := "lib/offline-v2.css".data

def hasInfix (p : List Char) : List Char → Bool
  | [] => p.isEmpty
  | c :: rest => p.isPrefixOf (c :: rest) || hasInfix p rest

/-- Does the tag body contain `href="<quote-free>.css"`? -/
def hasCssHref : List Char → Bool
  | [] => false
  | c :: rest =>
    (hrefPat.isPrefixOf (c :: rest)
      && (let afterHref := (c :: rest).drop hrefPat.length
          let content := afterHref.takeWhile (fun x => ¬ x = '"')
          ".css".data.isSuffixOf content
            && (afterHref.dropWhile (fun x => ¬ x = '"')).isEmpty = false))
    || hasCssHref rest

/-- A matched link tag is removed unless it references the canonical
stylesheet. -/
def dropTag (tag : List Char) : Bool :=
  hasCssHref tag && !(hasInfix canonicalRef tag)

/-- The scan: outside any tag (`none`) emit characters, entering a
buffer at each `<link`; inside a buffer (`some acc`, reversed) close at
`>` and decide whether the whole tag is kept. -/
def stripGo : Option (List Char) → List Char → List Char
  | none, [] => []
  | none, c :: rest =>
    if linkPat.isPrefixOf (c :: rest) then stripGo (some [c]) rest
    else c :: stripGo none rest
  | some acc, [] => acc.reverse
  | some acc, c :: rest =>
    if c = '>' then
      (if dropTag (acc.reverse ++ ['>']) then [] else acc.reverse ++ ['>'])
        ++ stripGo none rest
    else stripGo (some (c :: acc)) rest

def stripCssLinks (html : List Char) : List Char := stripGo none html

/-- Counting closed `<link ...>` tags satisfying a predicate, with the
same scanning discipline. -/
def countTagsGo (f : List Char → Bool) : Option (List Char) → List Char → Nat
  | _, [] => 0
  | none, c :: rest =>
    if linkPat.isPrefixOf (c :: rest) then countTagsGo f (some [c]) rest
    else countTagsGo f none rest
  | some acc, c :: rest =>
    if c = '>' then
      (if f (acc.reverse ++ ['>']) then 1 else 0) + countTagsGo f none rest
    else countTagsGo f (some (c :: acc)) rest

/-- Number of stylesheet link tags (css `href`) in the markup. -/
def cssLinkCount (html : List Char) : Nat := countTagsGo hasCssHref none html

/-- Number of stylesheet link tags other than the canonical one. -/
def nonCanonicalCssLinkCount (html : List Char) : Nat := countTagsGo dropTag none html

/-! ## The finalize pipeline (finalize.js) -/

def indexName : String := "index.html"

/-- Step 2: integrate loose stylesheets (finalize.js lines 42-86). -/
def cssNames (fs : FSys) (deck : FPath) : List String :=
  (readdirNames fs deck).filter (fun n =>
    isFile fs (deck ++ [n]) && strEndsWith n ".css" && ¬ n = "offline-v2.css")

def cssBanner (n : String) (content : List Char) : List Char :=
  "\n/* Integrated from ".data ++ n.data ++ " */\n".data ++ content ++ "\n".data

def customCssBlock (fs : FSys) (deck : FPath) (names : List String) : List Char :=
  "\n\n/* === Custom Styles === */\n".data
    ++ (names.map (fun n => cssBanner n ((readFile fs (deck ++ [n])).getD []))).flatten

def integrateCss (deck : FPath) (fs : FSys) : FSys :=
  if ¬ fsExists fs (deck ++ ["lib", "offline-v2.css"]) then fs
  else if (cssNames fs deck).isEmpty then fs
  else
    (cssNames fs deck).foldl (fun a n => unlink a (deck ++ [n]))
      (writeFile fs (deck ++ ["lib", "offline-v2.css"])
        (((readFile fs (deck ++ ["lib", "offline-v2.css"])).getD [])
          ++ customCssBlock fs deck (cssNames fs deck)))

/-- Step 3: strip non-canonical stylesheet references, rewriting the
markup only when it changed (finalize.js lines 88-105). -/
def stripHtmlStep (deck : FPath) (fs : FSys) : FSys :=
  if stripCssLinks ((readFile fs (deck ++ [indexName])).getD [])
      = (readFile fs (deck ++ [indexName])).getD [] then fs
  else
    writeFile fs (deck ++ [indexName])
      (stripCssLinks ((readFile fs (deck ++ [indexName])).getD []))

/-- Step 4 helper (finalize.js lines 111-125). -/
def removeArtifact (fs : FSys) (p : FPath) : FSys :=
  if fsExists fs p then (if isDir fs p then rmRec fs p else unlink fs p) else fs

/-- Step 1: ensure the `assets` folder exists (finalize.js lines 33-40). -/
def ensureAssets (deck : FPath) (fs : FSys) : FSys :=
  if fsExists fs (deck ++ ["assets"]) then fs else mkdir fs (deck ++ ["assets"])

/-- The whole pipeline: precondition checks, then the four steps in
order (finalize.js lines 18-129). -/
def finalize (deck : FPath) (fs : FSys) : Except String Unit × FSys :=
  if ¬ fsExists fs deck then
    (Except.error "Error: Deck path does not exist", fs)
  else if ¬ fsExists fs (deck ++ [indexName]) then
    (Except.error "Error: index.html not found", fs)
  else
    (Except.ok (),
      removeArtifact
        (removeArtifact
          (stripHtmlStep deck (integrateCss deck (ensureAssets deck fs)))
          (deck ++ ["screenshots"]))
        (deck ++ ["output.pdf"]))


/-! ## Well-formed markup decompositions

`stripCssLinks` is characterised on markup that decomposes into plain
segments (free of `<link` occurrences, and not ending in a dangling
prefix of `<link`) and complete link tags.  Realistic markup always
decomposes this way; without the condition the regex replacement can
splice a new `<link` token out of the surrounding text (see the
counterexample for claim C6).
-/

inductive Piece where
  | plain : List Char → Piece
  | tag : List Char → Piece
deriving DecidableEq

def pieceChars : Piece → List Char
  | .plain s => s
  | .tag b => b ++ ['>']

def flatPieces (ps : List Piece) : List Char := (ps.map pieceChars).flatten

/-- A plain segment: no `<link` inside, and no nonempty proper prefix
of `<link` as a suffix (so no `<link` can be spliced across a seam). -/
def plainOk (s : List Char) : Bool :=
  !(hasInfix linkPat s)
    && !("<".data.isSuffixOf s) && !("<l".data.isSuffixOf s)
    && !("<li".data.isSuffixOf s) && !("<lin".data.isSuffixOf s)

/-- A tag body: starts with `<link`, contains no `>`. -/
def tagOk (b : List Char) : Bool := linkPat.isPrefixOf b && !(b.contains '>')

def pieceOk : Piece → Bool
  | .plain s => plainOk s
  | .tag b => tagOk b

def WfPieces (ps : List Piece) : Prop := ∀ pc ∈ ps, pieceOk pc = true

instance (ps : List Piece) : Decidable (WfPieces ps) :=
  List.decidableBAll _ ps

/-- The full tags of a decomposition, in order. -/
def pieceTags (ps : List Piece) : List (List Char) :=
  ps.filterMap (fun pc => match pc with
    | .tag b => some (b ++ ['>'])
    | .plain _ => none)

/-- What stripping does at the piece level: droppable tags vanish. -/
def stripPieces (ps : List Piece) : List Piece :=
  ps.filter (fun pc => match pc with
    | .tag b => !(dropTag (b ++ ['>']))
    | .plain _ => true)

theorem prefix_hasInfix {p s : List Char} (hne : s ≠ []) (h : p <+: s) :
    hasInfix p s = true := by
  cases s with
  | nil => exact absurd rfl hne
  | cons c rest =>
    rw [hasInfix]
    simp only [Bool.or_eq_true]
    exact Or.inl (List.isPrefixOf_iff_prefix.mpr h)

theorem plainOk_not_prefix {s : List Char} (hok : plainOk s = true) (hne : s ≠ []) :
    ¬ (∃ rest : List Char, linkPat.isPrefixOf (s ++ rest)) := by
  rintro ⟨rest, hpre⟩
  have hp : linkPat <+: s ++ rest := List.isPrefixOf_iff_prefix.mp hpre
  simp only [plainOk, Bool.and_eq_true, Bool.not_eq_true'] at hok
  obtain ⟨⟨⟨⟨hinf, h1⟩, h2⟩, h3⟩, h4⟩ := hok
  by_cases hlen : linkPat.length ≤ s.length
  · have : linkPat <+: s := prefix_of_prefix_append hp hlen
    rw [prefix_hasInfix hne this] at hinf
    exact Bool.true_eq_false.mp hinf
  · push_neg at hlen
    have hsp : s <+: linkPat := prefix_of_short_append hp hlen
    have hs_eq : s = linkPat.take s.length := by
      have h1' : s = (linkPat.take s.length) := by
        rcases hsp with ⟨t, ht⟩
        rw [← ht, take_append_le _ _ _ (le_refl _), List.take_length]
      exact h1'
    have hsl : 1 ≤ s.length := List.length_pos.mpr hne
    have hsl4 : s.length ≤ 4 := by
      have : linkPat.length = 5 := by decide
      omega
    interval_cases hc : s.length
    · rw [show linkPat.take 1 = "<".data by decide] at hs_eq
      rw [hs_eq] at h1
      exact absurd h1 (by decide)
    · rw [show linkPat.take 2 = "<l".data by decide] at hs_eq
      rw [hs_eq] at h2
      exact absurd h2 (by decide)
    · rw [show linkPat.take 3 = "<li".data by decide] at hs_eq
      rw [hs_eq] at h3
      exact absurd h3 (by decide)
    · rw [show linkPat.take 4 = "<lin".data by decide] at hs_eq
      rw [hs_eq] at h4
      exact absurd h4 (by decide)

theorem plainOk_tail {c : Char} {s : List Char} (hok : plainOk (c :: s) = true) :
    plainOk s = true := by
  simp only [plainOk, Bool.and_eq_true, Bool.not_eq_true'] at hok ⊢
  obtain ⟨⟨⟨⟨hinf, h1⟩, h2⟩, h3⟩, h4⟩ := hok
  have hsuf : ∀ x : List Char, x.isSuffixOf s = true → x.isSuffixOf (c :: s) = true := by
    intro x hx
    have := List.isSuffixOf_iff_suffix.mp hx
    exact List.isSuffixOf_iff_suffix.mpr (this.trans (List.suffix_cons c s))
  have hinf' : hasInfix linkPat s = false := by
    rw [hasInfix] at hinf
    cases hbig : hasInfix linkPat s with
    | false => rfl
    | true => rw [hbig] at hinf; simp at hinf
  refine ⟨⟨⟨⟨hinf', ?_⟩, ?_⟩, ?_⟩, ?_⟩
  · cases hx : List.isSuffixOf ['<'] s with
    | false => rfl
    | true => exact absurd (hsuf _ hx) (by simp [h1])
  · cases hx : List.isSuffixOf ['<', 'l'] s with
    | false => rfl
    | true => exact absurd (hsuf _ hx) (by simp [h2])
  · cases hx : List.isSuffixOf ['<', 'l', 'i'] s with
    | false => rfl
    | true => exact absurd (hsuf _ hx) (by simp [h3])
  · cases hx : List.isSuffixOf ['<', 'l', 'i', 'n'] s with
    | false => rfl
    | true => exact absurd (hsuf _ hx) (by simp [h4])

theorem stripGo_plain (s : List Char) (rest : List Char) (hok : plainOk s = true) :
    stripGo none (s ++ rest) = s ++ stripGo none rest := by
  induction s with
  | nil => rfl
  | cons c s' ih =>
    have hnp : ¬ linkPat.isPrefixOf (c :: (s' ++ rest)) := by
      intro hpre
      exact plainOk_not_prefix hok (by simp) ⟨rest, by simpa using hpre⟩
    show stripGo none (c :: (s' ++ rest)) = _
    rw [stripGo, if_neg hnp, ih (plainOk_tail hok)]
    rfl

theorem stripGo_buffer (b : List Char) :
    ∀ acc rest, b.contains '>' = false →
      stripGo (some acc) (b ++ '>' :: rest)
        = (if dropTag (acc.reverse ++ (b ++ ['>'])) then []
           else acc.reverse ++ (b ++ ['>'])) ++ stripGo none rest := by
  induction b with
  | nil =>
    intro acc rest _
    show stripGo (some acc) ('>' :: rest) = _
    rw [stripGo, if_pos rfl]
    simp
  | cons x b' ih =>
    intro acc rest hnc
    have hx : ¬ x = '>' := by
      intro hx
      rw [hx] at hnc
      simp [List.contains_cons] at hnc
    have hnc' : b'.contains '>' = false := by
      rw [List.contains_cons] at hnc
      cases h : b'.contains '>' with
      | false => rfl
      | true => rw [h] at hnc; simp at hnc
    show stripGo (some acc) (x :: (b' ++ '>' :: rest)) = _
    rw [stripGo, if_neg hx, ih (x :: acc) rest hnc']
    simp

theorem stripGo_tag (b : List Char) (rest : List Char) (hok : tagOk b = true) :
    stripGo none ((b ++ ['>']) ++ rest)
      = (if dropTag (b ++ ['>']) then [] else b ++ ['>']) ++ stripGo none rest := by
  simp only [tagOk, Bool.and_eq_true, Bool.not_eq_true'] at hok
  obtain ⟨hpre, hnc⟩ := hok
  obtain ⟨c, b', rfl⟩ : ∃ c b', b = c :: b' := by
    cases b with
    | nil => simp [linkPat] at hpre
    | cons c b' => exact ⟨c, b', rfl⟩
  have htrig : linkPat.isPrefixOf (c :: (b' ++ '>' :: rest)) := by
    have h1 : linkPat <+: (c :: b') := List.isPrefixOf_iff_prefix.mp hpre
    rcases h1 with ⟨t, ht⟩
    apply List.isPrefixOf_iff_prefix.mpr
    refine ⟨t ++ '>' :: rest, ?_⟩
    rw [← List.append_assoc, ht]
    rfl
  have harr : (c :: b') ++ ['>'] ++ rest = c :: (b' ++ '>' :: rest) := by simp
  have hnc' : b'.contains '>' = false := by
    rw [List.contains_cons] at hnc
    cases h : b'.contains '>' with
    | false => rfl
    | true => rw [h] at hnc; simp at hnc
  rw [harr, stripGo, if_pos htrig, stripGo_buffer b' [c] rest hnc']
  simp

theorem stripGo_flat (ps : List Piece) (hwf : WfPieces ps) :
    stripGo none (flatPieces ps) = flatPieces (stripPieces ps) := by
  induction ps with
  | nil => rfl
  | cons pc ps' ih =>
    have hpc := hwf pc (List.mem_cons_self pc ps')
    have hwf' : WfPieces ps' := fun q hq => hwf q (List.mem_cons_of_mem pc hq)
    cases pc with
    | plain s =>
      have hflat : flatPieces (Piece.plain s :: ps') = s ++ flatPieces ps' := by
        simp [flatPieces, pieceChars]
      rw [hflat, stripGo_plain s _ hpc, ih hwf']
      have : stripPieces (Piece.plain s :: ps') = Piece.plain s :: stripPieces ps' := by
        simp [stripPieces]
      rw [this]
      simp [flatPieces, pieceChars]
    | tag b =>
      have hflat : flatPieces (Piece.tag b :: ps') = (b ++ ['>']) ++ flatPieces ps' := by
        simp [flatPieces, pieceChars]
      rw [hflat, stripGo_tag b _ hpc, ih hwf']
      by_cases hdrop : dropTag (b ++ ['>']) = true
      · rw [if_pos hdrop]
        have : stripPieces (Piece.tag b :: ps') = stripPieces ps' := by
          simp [stripPieces, hdrop]
        rw [this]
        rfl
      · rw [if_neg hdrop]
        have : stripPieces (Piece.tag b :: ps') = Piece.tag b :: stripPieces ps' := by
          simp [stripPieces, hdrop]
        rw [this]
        simp [flatPieces, pieceChars]

theorem stripCssLinks_flat (ps : List Piece) (hwf : WfPieces ps) :
    stripCssLinks (flatPieces ps) = flatPieces (stripPieces ps) :=
  stripGo_flat ps hwf

theorem countTagsGo_plain (f : List Char → Bool) (s rest : List Char)
    (hok : plainOk s = true) :
    countTagsGo f none (s ++ rest) = countTagsGo f none rest := by
  induction s with
  | nil => rfl
  | cons c s' ih =>
    have hnp : ¬ linkPat.isPrefixOf (c :: (s' ++ rest)) := by
      intro hpre
      exact plainOk_not_prefix hok (by simp) ⟨rest, by simpa using hpre⟩
    show countTagsGo f none (c :: (s' ++ rest)) = _
    rw [countTagsGo, if_neg hnp, ih (plainOk_tail hok)]

theorem countTagsGo_buffer (f : List Char → Bool) (b : List Char) :
    ∀ acc rest, b.contains '>' = false →
      countTagsGo f (some acc) (b ++ '>' :: rest)
        = (if f (acc.reverse ++ (b ++ ['>'])) then 1 else 0) + countTagsGo f none rest := by
  induction b with
  | nil =>
    intro acc rest _
    show countTagsGo f (some acc) ('>' :: rest) = _
    rw [countTagsGo, if_pos rfl]
    simp
  | cons x b' ih =>
    intro acc rest hnc
    have hx : ¬ x = '>' := by
      intro hx
      rw [hx] at hnc
      simp [List.contains_cons] at hnc
    have hnc' : b'.contains '>' = false := by
      rw [List.contains_cons] at hnc
      cases h : b'.contains '>' with
      | false => rfl
      | true => rw [h] at hnc; simp at hnc
    show countTagsGo f (some acc) (x :: (b' ++ '>' :: rest)) = _
    rw [countTagsGo, if_neg hx, ih (x :: acc) rest hnc']
    simp

theorem countTagsGo_tag (f : List Char → Bool) (b rest : List Char) (hok : tagOk b = true) :
    countTagsGo f none ((b ++ ['>']) ++ rest)
      = (if f (b ++ ['>']) then 1 else 0) + countTagsGo f none rest := by
  simp only [tagOk, Bool.and_eq_true, Bool.not_eq_true'] at hok
  obtain ⟨hpre, hnc⟩ := hok
  obtain ⟨c, b', rfl⟩ : ∃ c b', b = c :: b' := by
    cases b with
    | nil => simp [linkPat] at hpre
    | cons c b' => exact ⟨c, b', rfl⟩
  have htrig : linkPat.isPrefixOf (c :: (b' ++ '>' :: rest)) := by
    have h1 : linkPat <+: (c :: b') := List.isPrefixOf_iff_prefix.mp hpre
    rcases h1 with ⟨t, ht⟩
    apply List.isPrefixOf_iff_prefix.mpr
    refine ⟨t ++ '>' :: rest, ?_⟩
    rw [← List.append_assoc, ht]
    rfl
  have harr : (c :: b') ++ ['>'] ++ rest = c :: (b' ++ '>' :: rest) := by simp
  have hnc' : b'.contains '>' = false := by
    rw [List.contains_cons] at hnc
    cases h : b'.contains '>' with
    | false => rfl
    | true => rw [h] at hnc; simp at hnc
  rw [harr, countTagsGo, if_pos htrig, countTagsGo_buffer f b' [c] rest hnc']
  simp

theorem countTagsGo_flat (f : List Char → Bool) (ps : List Piece) (hwf : WfPieces ps) :
    countTagsGo f none (flatPieces ps) = (pieceTags ps).countP f := by
  induction ps with
  | nil => rfl
  | cons pc ps' ih =>
    have hpc := hwf pc (List.mem_cons_self pc ps')
    have hwf' : WfPieces ps' := fun q hq => hwf q (List.mem_cons_of_mem pc hq)
    cases pc with
    | plain s =>
      have hflat : flatPieces (Piece.plain s :: ps') = s ++ flatPieces ps' := by
        simp [flatPieces, pieceChars]
      rw [hflat, countTagsGo_plain f s _ hpc, ih hwf']
      simp [pieceTags]
    | tag b =>
      have hflat : flatPieces (Piece.tag b :: ps') = (b ++ ['>']) ++ flatPieces ps' := by
        simp [flatPieces, pieceChars]
      rw [hflat, countTagsGo_tag f b _ hpc, ih hwf']
      have : pieceTags (Piece.tag b :: ps') = (b ++ ['>']) :: pieceTags ps' := by
        simp [pieceTags]
      rw [this, List.countP_cons]
      by_cases hf : f (b ++ ['>']) = true <;> simp [hf] <;> ring

theorem WfPieces_stripPieces {ps : List Piece} (hwf : WfPieces ps) :
    WfPieces (stripPieces ps) :=
  fun pc hpc => hwf pc (List.mem_of_mem_filter hpc)

theorem stripPieces_idem (ps : List Piece) : stripPieces (stripPieces ps) = stripPieces ps := by
  unfold stripPieces
  rw [List.filter_filter]
  apply List.filter_congr
  intro pc _
  cases pc with
  | plain s => rfl
  | tag b => cases h : dropTag (b ++ ['>']) <;> simp [h]

theorem pieceTags_stripPieces (ps : List Piece) :
    pieceTags (stripPieces ps) = (pieceTags ps).filter (fun t => !(dropTag t)) := by
  induction ps with
  | nil => rfl
  | cons pc ps' ih =>
    cases pc with
    | plain s => simp [stripPieces, pieceTags] at *; exact ih
    | tag b =>
      by_cases hdrop : dropTag (b ++ ['>']) = true
      · have h1 : stripPieces (Piece.tag b :: ps') = stripPieces ps' := by
          simp [stripPieces, hdrop]
        have h2 : pieceTags (Piece.tag b :: ps') = (b ++ ['>']) :: pieceTags ps' := by
          simp [pieceTags]
        rw [h1, h2, List.filter_cons_of_neg (by simp [hdrop]), ih]
      · have h1 : stripPieces (Piece.tag b :: ps') = Piece.tag b :: stripPieces ps' := by
          simp [stripPieces, hdrop]
        have h2 : pieceTags (Piece.tag b :: ps') = (b ++ ['>']) :: pieceTags ps' := by
          simp [pieceTags]
        have h3 : pieceTags (Piece.tag b :: stripPieces ps')
            = (b ++ ['>']) :: pieceTags (stripPieces ps') := by
          simp [pieceTags]
        rw [h1, h3, h2, List.filter_cons_of_pos (by simp [hdrop]), ih]

/-! ### Path arithmetic -/

theorem append_prefix_cancel (deck xs ys : List String) :
    (deck ++ xs) <+: (deck ++ ys) ↔ xs <+: ys := by
  constructor
  · rintro ⟨t, ht⟩
    rw [List.append_assoc] at ht
    exact ⟨t, List.append_cancel_left ht⟩
  · rintro ⟨t, ht⟩
    exact ⟨t, by rw [List.append_assoc, ht]⟩

theorem singleton_prefix_iff (a b : String) (bs : List String) :
    ([a] <+: (b :: bs)) ↔ a = b := by
  constructor
  · rintro ⟨t, ht⟩
    simp only [List.singleton_append, List.cons.injEq] at ht
    exact ht.1
  · rintro rfl
    exact ⟨bs, rfl⟩

theorem append_single_ne (deck : FPath) (a b : String) (h : a ≠ b) :
    deck ++ [a] ≠ deck ++ [b] := by
  intro heq
  have := List.append_cancel_left heq
  simp at this
  exact h this

theorem append_len_ne (deck : FPath) (xs ys : List String)
    (h : xs.length ≠ ys.length) : deck ++ xs ≠ deck ++ ys := by
  intro heq
  have := congrArg List.length heq
  simp at this
  omega

/-! ### Step-level lemmas -/

theorem ensureAssets_isFile (deck : FPath) (fs : FSys) (q : FPath) :
    isFile (ensureAssets deck fs) q = isFile fs q := by
  unfold ensureAssets
  split <;> rfl

theorem ensureAssets_readFile (deck : FPath) (fs : FSys) (q : FPath) :
    readFile (ensureAssets deck fs) q = readFile fs q := by
  unfold ensureAssets
  split <;> rfl

theorem ensureAssets_isDir_mono (deck : FPath) (fs : FSys) (q : FPath)
    (h : isDir fs q = true) : isDir (ensureAssets deck fs) q = true := by
  unfold ensureAssets
  split
  · exact h
  · exact (isDir_mkdir_iff fs _ q).mpr (Or.inr h)

theorem ensureAssets_exists (deck : FPath) (fs : FSys) :
    fsExists (ensureAssets deck fs) (deck ++ ["assets"]) = true := by
  unfold ensureAssets
  split
  · next h => exact h
  · show (isFile _ _ || isDir _ _) = true
    have : isDir (mkdir fs (deck ++ ["assets"])) (deck ++ ["assets"]) = true :=
      (isDir_mkdir_iff fs _ _).mpr (Or.inl rfl)
    rw [this]
    simp

theorem ensureAssets_exists_mono (deck : FPath) (fs : FSys) (q : FPath)
    (h : fsExists fs q = true) : fsExists (ensureAssets deck fs) q = true := by
  simp only [fsExists, Bool.or_eq_true] at h ⊢
  rcases h with h | h
  · rw [ensureAssets_isFile]; exact Or.inl h
  · exact Or.inr (ensureAssets_isDir_mono deck fs q h)

theorem foldlUnlink_dirs (deck : FPath) (names : List String) :
    ∀ fs : FSys, (names.foldl (fun a n => unlink a (deck ++ [n])) fs).dirs = fs.dirs := by
  induction names with
  | nil => intro fs; rfl
  | cons n names ih =>
    intro fs
    show (names.foldl _ (unlink fs (deck ++ [n]))).dirs = _
    rw [ih (unlink fs (deck ++ [n]))]
    rfl

theorem foldlUnlink_isFile (deck : FPath) (names : List String) :
    ∀ (fs : FSys) (q : FPath),
      isFile (names.foldl (fun a n => unlink a (deck ++ [n])) fs) q
        ↔ (isFile fs q ∧ ∀ n ∈ names, q ≠ deck ++ [n]) := by
  induction names with
  | nil => intro fs q; simp
  | cons n names ih =>
    intro fs q
    show isFile (names.foldl _ (unlink fs (deck ++ [n]))) q ↔ _
    rw [ih (unlink fs (deck ++ [n])) q]
    rw [isFile_unlink_iff]
    constructor
    · rintro ⟨⟨hf, hne⟩, hall⟩
      refine ⟨hf, ?_⟩
      intro m hm
      rcases List.mem_cons.mp hm with rfl | hm'
      · exact hne
      · exact hall m hm'
    · rintro ⟨hf, hall⟩
      exact ⟨⟨hf, hall n (List.mem_cons_self n names)⟩,
        fun m hm => hall m (List.mem_cons_of_mem n hm)⟩

theorem foldlUnlink_readFile (deck : FPath) (names : List String) :
    ∀ (fs : FSys) (q : FPath), (∀ n ∈ names, q ≠ deck ++ [n]) →
      readFile (names.foldl (fun a n => unlink a (deck ++ [n])) fs) q = readFile fs q := by
  induction names with
  | nil => intro fs q _; rfl
  | cons n names ih =>
    intro fs q hq
    show readFile (names.foldl _ (unlink fs (deck ++ [n]))) q = _
    rw [ih (unlink fs (deck ++ [n])) q (fun m hm => hq m (List.mem_cons_of_mem n hm)),
      readFile_unlink_ne fs _ q (hq n (List.mem_cons_self n names))]

theorem integrateCss_dirs (deck : FPath) (fs : FSys) :
    (integrateCss deck fs).dirs = fs.dirs := by
  unfold integrateCss
  split
  · rfl
  · split
    · rfl
    · rw [foldlUnlink_dirs]
      rfl

theorem integrateCss_isDir (deck : FPath) (fs : FSys) (q : FPath) :
    isDir (integrateCss deck fs) q = isDir fs q := by
  simp only [isDir, integrateCss_dirs]

theorem integrateCss_isFile_other (deck : FPath) (fs : FSys) (q : FPath)
    (hq : ∀ n ∈ cssNames fs deck, q ≠ deck ++ [n])
    (hmain : q ≠ deck ++ ["lib", "offline-v2.css"]) :
    isFile (integrateCss deck fs) q = isFile fs q := by
  unfold integrateCss
  split
  · rfl
  · split
    · rfl
    · rw [Bool.eq_iff_iff, foldlUnlink_isFile, isFile_writeFile_iff]
      constructor
      · rintro ⟨(h | h), _⟩
        · exact absurd h hmain
        · exact h
      · intro h
        exact ⟨Or.inr h, hq⟩

theorem integrateCss_readFile_other (deck : FPath) (fs : FSys) (q : FPath)
    (hq : ∀ n ∈ cssNames fs deck, q ≠ deck ++ [n])
    (hmain : q ≠ deck ++ ["lib", "offline-v2.css"]) :
    readFile (integrateCss deck fs) q = readFile fs q := by
  unfold integrateCss
  split
  · rfl
  · split
    · rfl
    · rw [foldlUnlink_readFile deck _ _ q hq, readFile_writeFile_ne _ _ _ _ hmain]

theorem cssNames_no_lib (fs : FSys) (deck : FPath) (n : String)
    (hn : n ∈ cssNames fs deck) : deck ++ ["lib", "offline-v2.css"] ≠ deck ++ [n] :=
  append_len_ne deck _ _ (by simp)

theorem integrateCss_mainCss (deck : FPath) (fs : FSys)
    (hmain : fsExists fs (deck ++ ["lib", "offline-v2.css"]) = true)
    (hne : ¬ (cssNames fs deck).isEmpty = true) :
    readFile (integrateCss deck fs) (deck ++ ["lib", "offline-v2.css"])
      = some ((readFile fs (deck ++ ["lib", "offline-v2.css"])).getD []
          ++ customCssBlock fs deck (cssNames fs deck)) := by
  unfold integrateCss
  rw [if_neg (by simp [hmain]), if_neg hne,
    foldlUnlink_readFile deck _ _ _ (fun n hn => cssNames_no_lib fs deck n hn),
    readFile_writeFile_self]

theorem integrateCss_removes (deck : FPath) (fs : FSys)
    (hmain : fsExists fs (deck ++ ["lib", "offline-v2.css"]) = true)
    (n : String) (hn : n ∈ cssNames fs deck) :
    isFile (integrateCss deck fs) (deck ++ [n]) = false := by
  unfold integrateCss
  rw [if_neg (by simp [hmain]), if_neg (by
    intro h
    rw [List.isEmpty_iff] at h
    rw [h] at hn
    simp at hn)]
  rw [← Bool.not_eq_true, foldlUnlink_isFile]
  rintro ⟨_, hall⟩
  exact hall n hn rfl

theorem stripHtmlStep_dirs (deck : FPath) (fs : FSys) :
    (stripHtmlStep deck fs).dirs = fs.dirs := by
  unfold stripHtmlStep
  split <;> rfl

theorem stripHtmlStep_isDir (deck : FPath) (fs : FSys) (q : FPath) :
    isDir (stripHtmlStep deck fs) q = isDir fs q := by
  simp only [isDir, stripHtmlStep_dirs]

theorem stripHtmlStep_other (deck : FPath) (fs : FSys) (q : FPath)
    (hq : q ≠ deck ++ [indexName]) :
    isFile (stripHtmlStep deck fs) q = isFile fs q
    ∧ readFile (stripHtmlStep deck fs) q = readFile fs q := by
  unfold stripHtmlStep
  split
  · exact ⟨rfl, rfl⟩
  · constructor
    · rw [Bool.eq_iff_iff, isFile_writeFile_iff]
      constructor
      · rintro (h | h)
        · exact absurd h hq
        · exact h
      · exact fun h => Or.inr h
    · exact readFile_writeFile_ne _ _ _ _ hq

theorem readFile_isFile (fs : FSys) (p : FPath) (h : isFile fs p = true) :
    ∃ c, readFile fs p = some c := by
  obtain ⟨e, he, hp⟩ := (isFile_iff fs p).mp h
  simp only [readFile]
  cases hf : fs.files.find? (fun e => e.1 = p) with
  | some e' => exact ⟨e'.2, rfl⟩
  | none =>
    exfalso
    have := List.find?_eq_none.mp hf e he
    simp [hp] at this

theorem stripHtmlStep_index (deck : FPath) (fs : FSys)
    (hidx : isFile fs (deck ++ [indexName]) = true) :
    readFile (stripHtmlStep deck fs) (deck ++ [indexName])
      = some (stripCssLinks ((readFile fs (deck ++ [indexName])).getD [])) := by
  unfold stripHtmlStep
  split
  · next heq =>
    obtain ⟨c, hc⟩ := readFile_isFile fs _ hidx
    rw [heq, hc]
    simp [hc]
  · exact readFile_writeFile_self _ _ _

theorem removeArtifact_other (fs : FSys) (p q : FPath) (hq : ¬ p <+: q) :
    isFile (removeArtifact fs p) q = isFile fs q
    ∧ isDir (removeArtifact fs p) q = isDir fs q
    ∧ readFile (removeArtifact fs p) q = readFile fs q := by
  have hne : q ≠ p := fun h => hq (h ▸ List.prefix_refl q)
  unfold removeArtifact
  split
  · split
    · refine ⟨?_, ?_, readFile_rmRec_ne fs p q hq⟩
      · rw [Bool.eq_iff_iff, isFile_rmRec_iff]
        exact ⟨fun h => h.1, fun h => ⟨h, hq⟩⟩
      · rw [Bool.eq_iff_iff, isDir_rmRec_iff]
        exact ⟨fun h => h.1, fun h => ⟨h, hq⟩⟩
    · refine ⟨?_, rfl, readFile_unlink_ne fs p q hne⟩
      rw [Bool.eq_iff_iff, isFile_unlink_iff]
      exact ⟨fun h => h.1, fun h => ⟨h, hne⟩⟩
  · exact ⟨rfl, rfl, rfl⟩

theorem removeArtifact_gone (fs : FSys) (p : FPath) :
    fsExists (removeArtifact fs p) p = false := by
  unfold removeArtifact
  split
  · split
    · next hdir =>
      show (isFile _ p || isDir _ p) = false
      have h1 : isFile (rmRec fs p) p = false := by
        rw [← Bool.not_eq_true, isFile_rmRec_iff]
        rintro ⟨_, hnp⟩
        exact hnp (List.prefix_refl p)
      have h2 : isDir (rmRec fs p) p = false := by
        rw [← Bool.not_eq_true, isDir_rmRec_iff]
        rintro ⟨_, hnp⟩
        exact hnp (List.prefix_refl p)
      rw [h1, h2]
      rfl
    · next hdir =>
      show (isFile _ p || isDir _ p) = false
      have h1 : isFile (unlink fs p) p = false := by
        rw [← Bool.not_eq_true, isFile_unlink_iff]
        rintro ⟨_, hnp⟩
        exact hnp rfl
      have h2 : isDir (unlink fs p) p = false := by
        rw [isDir_unlink]
        exact Bool.not_eq_true _ ▸ (fun h => hdir h)
      rw [h1, h2]
      rfl
  · next hex =>
    simpa using hex

theorem cssNames_ensureAssets (deck : FPath) (fs : FSys) :
    cssNames (ensureAssets deck fs) deck = cssNames fs deck := by
  unfold ensureAssets
  split
  · rfl
  · next hne =>
    have hnf : isFile fs (deck ++ ["assets"]) = false := by
      simp only [fsExists, Bool.or_eq_true, not_or] at hne
      cases h : isFile fs (deck ++ ["assets"]) with
      | false => rfl
      | true => exact absurd h hne.1
    unfold cssNames readdirNames mkdir
    have hchild : childName deck (deck ++ ["assets"]) = some "assets" :=
      (childName_eq_some deck (deck ++ ["assets"]) "assets").mpr rfl
    have hfile_eq : ∀ q, isFile (FSys.mk fs.files ((deck ++ ["assets"]) :: fs.dirs)) q
        = isFile fs q := fun _ => rfl
    simp only [List.filterMap_append, List.filterMap_cons, hchild,
      List.filter_append, List.filter_cons, hfile_eq, hnf]
    simp

theorem customCssBlock_congr (fs fs' : FSys) (deck : FPath) (names : List String)
    (h : ∀ q, readFile fs' q = readFile fs q) :
    customCssBlock fs' deck names = customCssBlock fs deck names := by
  unfold customCssBlock
  congr 1
  congr 1
  apply List.map_congr_left
  intro n _
  rw [h (deck ++ [n])]

theorem cssNames_mem {fs : FSys} {deck : FPath} {n : String} (hn : n ∈ cssNames fs deck) :
    isFile fs (deck ++ [n]) = true ∧ strEndsWith n ".css" = true ∧ n ≠ "offline-v2.css" := by
  unfold cssNames at hn
  rw [List.mem_filter] at hn
  have h2 := hn.2
  simp only [Bool.and_eq_true, decide_eq_true_eq] at h2
  exact ⟨h2.1.1, h2.1.2, h2.2⟩

theorem cssName_ne_index {fs : FSys} {deck : FPath} {n : String}
    (hn : n ∈ cssNames fs deck) : n ≠ indexName := by
  intro h
  have := (cssNames_mem hn).2.1
  rw [h] at this
  exact absurd this (by decide)

theorem cssName_ne_artifact {fs : FSys} {deck : FPath} {n : String}
    (hn : n ∈ cssNames fs deck) : n ≠ "screenshots" ∧ n ≠ "output.pdf" := by
  have hcss := (cssNames_mem hn).2.1
  constructor <;> intro h <;> rw [h] at hcss <;> exact absurd hcss (by decide)

theorem artifact_not_prefix_single (deck : FPath) (a n : String) (h : a ≠ n) :
    ¬ (deck ++ [a]) <+: (deck ++ [n]) := by
  intro hp
  rw [append_prefix_cancel] at hp
  exact h ((singleton_prefix_iff a n []).mp hp)

theorem artifact_not_prefix_lib (deck : FPath) (a : String) (h : a ≠ "lib") :
    ¬ (deck ++ [a]) <+: (deck ++ ["lib", "offline-v2.css"]) := by
  intro hp
  rw [append_prefix_cancel] at hp
  exact h ((singleton_prefix_iff a "lib" ["offline-v2.css"]).mp hp)

/-- C2.  On a project that holds loose stylesheets in its root and a
canonical stylesheet at `lib/offline-v2.css`, one finalize run deletes
every loose stylesheet, appends each one's content (preceded by an
origin banner, in discovery order) to the canonical stylesheet, and
leaves exactly one stylesheet link (the canonical one) in the markup,
assuming the markup decomposes into well-formed pieces and held exactly
one canonical stylesheet link. -/
theorem finalize_consolidates_css
    (deck : FPath) (fs : FSys)
    (hdeck : fsExists fs deck = true)
    (hidx : isFile fs (deck ++ [indexName]) = true)
    (hmain : isFile fs (deck ++ ["lib", "offline-v2.css"]) = true)
    (hnonempty : ¬ (cssNames fs deck).isEmpty = true)
    (ps : List Piece)
    (hwf : WfPieces ps)
    (hps : (readFile fs (deck ++ [indexName])).getD [] = flatPieces ps)
    (hone : (pieceTags ps).countP (fun t => hasCssHref t && hasInfix canonicalRef t) = 1) :
    (finalize deck fs).1 = Except.ok ()
    ∧ (∀ n ∈ cssNames fs deck, isFile (finalize deck fs).2 (deck ++ [n]) = false)
    ∧ readFile (finalize deck fs).2 (deck ++ ["lib", "offline-v2.css"])
        = some ((readFile fs (deck ++ ["lib", "offline-v2.css"])).getD []
            ++ customCssBlock fs deck (cssNames fs deck))
    ∧ cssLinkCount ((readFile (finalize deck fs).2 (deck ++ [indexName])).getD []) = 1
    ∧ nonCanonicalCssLinkCount
        ((readFile (finalize deck fs).2 (deck ++ [indexName])).getD []) = 0 := by
  have hidxex : fsExists fs (deck ++ [indexName]) = true := by
    simp [fsExists, hidx]
  have hfin : finalize deck fs
      = (Except.ok (),
          removeArtifact
            (removeArtifact
              (stripHtmlStep deck (integrateCss deck (ensureAssets deck fs)))
              (deck ++ ["screenshots"]))
            (deck ++ ["output.pdf"])) := by
    unfold finalize
    rw [if_neg (by simp [hdeck]), if_neg (by simp [hidxex])]
  have hnames1 : cssNames (ensureAssets deck fs) deck = cssNames fs deck :=
    cssNames_ensureAssets deck fs
  have hmain1 : fsExists (ensureAssets deck fs) (deck ++ ["lib", "offline-v2.css"]) = true :=
    ensureAssets_exists_mono deck fs _ (by simp [fsExists, hmain])
  refine ⟨by rw [hfin], ?_, ?_, ?_⟩
  · -- loose stylesheets are gone
    intro n hn
    obtain ⟨hscr, hpdf⟩ := cssName_ne_artifact hn
    rw [hfin]
    rw [(removeArtifact_other _ _ _
          (artifact_not_prefix_single deck _ n (fun h => hpdf h.symm))).1,
        (removeArtifact_other _ _ _
          (artifact_not_prefix_single deck _ n (fun h => hscr h.symm))).1,
        (stripHtmlStep_other deck _ _
          (append_single_ne deck n indexName (cssName_ne_index hn))).1]
    exact integrateCss_removes deck (ensureAssets deck fs) hmain1 n (hnames1 ▸ hn)
  · -- canonical stylesheet contents
    rw [hfin]
    rw [(removeArtifact_other _ _ _ (artifact_not_prefix_lib deck _ (by decide))).2.2,
        (removeArtifact_other _ _ _ (artifact_not_prefix_lib deck _ (by decide))).2.2,
        (stripHtmlStep_other deck _ _ (append_len_ne deck _ _ (by decide))).2]
    rw [integrateCss_mainCss deck (ensureAssets deck fs) hmain1 (by rw [hnames1]; exact hnonempty)]
    rw [hnames1, ensureAssets_readFile,
      customCssBlock_congr fs (ensureAssets deck fs) deck _ (ensureAssets_readFile deck fs)]
  · -- the markup holds exactly one stylesheet link, the canonical one
    have hread4 : readFile (finalize deck fs).2 (deck ++ [indexName])
        = some (stripCssLinks (flatPieces ps)) := by
      rw [hfin]
      rw [(removeArtifact_other _ _ _
            (artifact_not_prefix_single deck _ indexName (by decide))).2.2,
          (removeArtifact_other _ _ _
            (artifact_not_prefix_single deck _ indexName (by decide))).2.2]
      have hidx2 : isFile (integrateCss deck (ensureAssets deck fs)) (deck ++ [indexName])
          = true := by
        rw [integrateCss_isFile_other deck _ _
            (fun n hn => append_single_ne deck indexName n
              (fun h => cssName_ne_index (hnames1 ▸ hn) h.symm))
            (append_len_ne deck _ _ (by decide)),
          ensureAssets_isFile]
        exact hidx
      rw [stripHtmlStep_index deck _ hidx2]
      rw [integrateCss_readFile_other deck _ _
            (fun n hn => append_single_ne deck indexName n
              (fun h => cssName_ne_index (hnames1 ▸ hn) h.symm))
            (append_len_ne deck _ _ (by decide)),
          ensureAssets_readFile, hps]
    rw [hread4]
    rw [stripCssLinks_flat ps hwf]
    have hwf' := WfPieces_stripPieces hwf
    constructor
    · show countTagsGo hasCssHref none (flatPieces (stripPieces ps)) = 1
      rw [countTagsGo_flat hasCssHref _ hwf', pieceTags_stripPieces, List.countP_filter]
      rw [← hone]
      apply List.countP_congr
      intro t _
      cases h1 : hasCssHref t <;> cases h2 : hasInfix canonicalRef t <;>
        simp [dropTag, h1, h2]
    · show countTagsGo dropTag none (flatPieces (stripPieces ps)) = 0
      rw [countTagsGo_flat dropTag _ hwf', pieceTags_stripPieces, List.countP_filter]
      rw [List.countP_eq_zero]
      intro t _
      cases h : dropTag t <;> simp [h]

/-- A concrete project for the C2 witness: two loose stylesheets, a
canonical stylesheet, and a markup with one canonical link and one
removable link. -/
def demoDeckFs : FSys :=
  ⟨[(["deck", "index.html"],
     ("<link rel=\"stylesheet\" href=\"lib/offline-v2.css\">\n<link href=\"a.css\">\n".data)),
    (["deck", "a.css"], "body \x7b color:red \x7d".data),
    (["deck", "b.css"], "h1 \x7b color:blue \x7d".data),
    (["deck", "lib", "offline-v2.css"], "base".data)],
   [["deck"], ["deck", "lib"]]⟩

def demoPieces : List Piece :=
  [Piece.tag "<link rel=\"stylesheet\" href=\"lib/offline-v2.css\"".data,
   Piece.plain "\n".data,
   Piece.tag "<link href=\"a.css\"".data,
   Piece.plain "\n".data]

/-- C2 witness at the concrete project. -/
theorem finalize_consolidates_css_witness :
    (finalize ["deck"] demoDeckFs).1 = Except.ok ()
    ∧ (∀ n ∈ cssNames demoDeckFs ["deck"],
        isFile (finalize ["deck"] demoDeckFs).2 (["deck"] ++ [n]) = false)
    ∧ readFile (finalize ["deck"] demoDeckFs).2 (["deck"] ++ ["lib", "offline-v2.css"])
        = some ((readFile demoDeckFs (["deck"] ++ ["lib", "offline-v2.css"])).getD []
            ++ customCssBlock demoDeckFs ["deck"] (cssNames demoDeckFs ["deck"]))
    ∧ cssLinkCount
        ((readFile (finalize ["deck"] demoDeckFs).2 (["deck"] ++ [indexName])).getD []) = 1
    ∧ nonCanonicalCssLinkCount
        ((readFile (finalize ["deck"] demoDeckFs).2 (["deck"] ++ [indexName])).getD [])
          = 0 :=
  finalize_consolidates_css ["deck"] demoDeckFs (by decide) (by decide) (by decide)
    (by decide) demoPieces (by decide) (by decide) (by decide)

/-- C10.  If the deck path does not exist, or no `index.html` exists
under it, finalize exits with an error before performing any of its
four steps: the returned file system is the input, untouched. -/
theorem finalize_requires_markup (deck : FPath) (fs : FSys) :
    (fsExists fs deck = false →
      finalize deck fs = (Except.error "Error: Deck path does not exist", fs))
    ∧ (fsExists fs deck = true → fsExists fs (deck ++ [indexName]) = false →
      finalize deck fs = (Except.error "Error: index.html not found", fs)) := by
  constructor
  · intro h
    unfold finalize
    rw [if_pos (by simp [h])]
  · intro h1 h2
    unfold finalize
    rw [if_neg (by simp [h1]), if_pos (by simp [h2])]

/-- C10 witness: a missing deck directory and a deck without markup. -/
theorem finalize_requires_markup_witness :
    finalize ["nope"] ⟨[], []⟩
      = (Except.error "Error: Deck path does not exist", (⟨[], []⟩ : FSys))
    ∧ finalize ["d"] ⟨[], [["d"]]⟩
      = (Except.error "Error: index.html not found", (⟨[], [["d"]]⟩ : FSys)) :=
  ⟨(finalize_requires_markup ["nope"] ⟨[], []⟩).1 (by decide),
   (finalize_requires_markup ["d"] ⟨[], [["d"]]⟩).2 (by decide) (by decide)⟩

/-! ### Run-to-run preservation lemmas for the idempotence analysis -/

theorem not_prefix_append_single (p : FPath) (a : String) : ¬ (p ++ [a]) <+: p := by
  intro h
  have := h.length_le
  simp at this

theorem stripHtmlStep_isFile_index (deck : FPath) (fs : FSys)
    (h : isFile fs (deck ++ [indexName]) = true) :
    isFile (stripHtmlStep deck fs) (deck ++ [indexName]) = true := by
  unfold stripHtmlStep
  split
  · exact h
  · rw [Bool.eq_iff_iff, isFile_writeFile_iff]
    simp

theorem removeArtifact_isFile_sub (fs : FSys) (p q : FPath)
    (h : isFile (removeArtifact fs p) q = true) : isFile fs q = true := by
  unfold removeArtifact at h
  split at h
  · split at h
    · exact ((isFile_rmRec_iff fs p q).mp h).1
    · exact ((isFile_unlink_iff fs p q).mp h).1
  · exact h

theorem removeArtifact_isDir_sub (fs : FSys) (p q : FPath)
    (h : isDir (removeArtifact fs p) q = true) : isDir fs q = true := by
  unfold removeArtifact at h
  split at h
  · split at h
    · exact ((isDir_rmRec_iff fs p q).mp h).1
    · rw [isDir_unlink] at h
      exact h
  · exact h

theorem removeArtifact_absent (fs : FSys) (p q : FPath)
    (h : fsExists fs q = false) : fsExists (removeArtifact fs p) q = false := by
  cases hex : fsExists (removeArtifact fs p) q with
  | false => rfl
  | true =>
    exfalso
    simp only [fsExists, Bool.or_eq_true] at hex
    simp only [fsExists, Bool.or_eq_false_iff] at h
    rcases hex with hf | hd
    · rw [removeArtifact_isFile_sub fs p q hf] at h
      simp at h
    · rw [removeArtifact_isDir_sub fs p q hd] at h
      simp at h

/-- After one successful run, both ephemeral artifacts are gone. -/
theorem finalize_artifacts_gone (fs3 : FSys) (deck : FPath) :
    fsExists (removeArtifact (removeArtifact fs3 (deck ++ ["screenshots"]))
        (deck ++ ["output.pdf"])) (deck ++ ["screenshots"]) = false
    ∧ fsExists (removeArtifact (removeArtifact fs3 (deck ++ ["screenshots"]))
        (deck ++ ["output.pdf"])) (deck ++ ["output.pdf"]) = false := by
  constructor
  · exact removeArtifact_absent _ _ _ (removeArtifact_gone fs3 (deck ++ ["screenshots"]))
  · exact removeArtifact_gone _ (deck ++ ["output.pdf"])

theorem fsExists_congr {fs fs' : FSys} {q : FPath}
    (hf : isFile fs' q = isFile fs q) (hd : isDir fs' q = isDir fs q) :
    fsExists fs' q = fsExists fs q := by
  simp [fsExists, hf, hd]

theorem self_ne_append_single (p : FPath) (a : String) : p ≠ p ++ [a] := by
  intro h
  have := congrArg List.length h
  simp at this

theorem self_ne_append (p : FPath) (xs : List String) (h : xs ≠ []) : p ≠ p ++ xs := by
  intro he
  have hlen := congrArg List.length he
  simp only [List.length_append] at hlen
  have : xs.length = 0 := by omega
  exact h (List.length_eq_zero.mp this)

theorem cssName_ne_of_not_css {fs : FSys} {deck : FPath} {n : String}
    (hn : n ∈ cssNames fs deck) (m : String) (hm : strEndsWith m ".css" = false) :
    n ≠ m := by
  intro h
  have := (cssNames_mem hn).2.1
  rw [h, hm] at this
  exact absurd this (by simp)

theorem finalize_ok_eq (deck : FPath) (g : FSys)
    (h1 : fsExists g deck = true) (h2 : fsExists g (deck ++ [indexName]) = true) :
    finalize deck g
      = (Except.ok (),
          removeArtifact
            (removeArtifact
              (stripHtmlStep deck (integrateCss deck (ensureAssets deck g)))
              (deck ++ ["screenshots"]))
            (deck ++ ["output.pdf"])) := by
  unfold finalize
  rw [if_neg (by simp [h1]), if_neg (by simp [h2])]

/-- C6 (amended).  Re-running finalize on an already-finalized project
raises no error and changes nothing, provided the project markup
decomposes into well-formed pieces (plain text free of stray `<link`
fragments plus complete link tags).  The unamended claim is refuted by
`finalize_rerun_not_noop` below: deleting a link tag can splice a new
`<link` token out of the surrounding text, and the second run then
rewrites the markup again. -/
theorem finalize_rerun_noop
    (deck : FPath) (fs : FSys)
    (hdeck : fsExists fs deck = true)
    (hidx : isFile fs (deck ++ [indexName]) = true)
    (ps : List Piece) (hwf : WfPieces ps)
    (hps : (readFile fs (deck ++ [indexName])).getD [] = flatPieces ps) :
    finalize deck (finalize deck fs).2 = (Except.ok (), (finalize deck fs).2) := by
  have hidxex : fsExists fs (deck ++ [indexName]) = true := by
    simp [fsExists, hidx]
  have hfin : (finalize deck fs).2
      = removeArtifact
          (removeArtifact
            (stripHtmlStep deck (integrateCss deck (ensureAssets deck fs)))
            (deck ++ ["screenshots"]))
          (deck ++ ["output.pdf"]) := by
    unfold finalize
    rw [if_neg (by simp [hdeck]), if_neg (by simp [hidxex])]
  have hnames1 : cssNames (ensureAssets deck fs) deck = cssNames fs deck :=
    cssNames_ensureAssets deck fs
  -- names that appear in cssNames of the first stage
  have hcss_ne_idx : ∀ n ∈ cssNames (ensureAssets deck fs) deck,
      deck ++ [indexName] ≠ deck ++ [n] := fun n hn =>
    append_single_ne deck indexName n (fun h => (cssName_ne_index hn) h.symm)
  have hcss_ne_assets : ∀ n ∈ cssNames (ensureAssets deck fs) deck,
      deck ++ ["assets"] ≠ deck ++ [n] := fun n hn =>
    append_single_ne deck "assets" n
      (fun h => (cssName_ne_of_not_css hn "assets" (by decide)) h.symm)
  have hcss_ne_deck : ∀ n ∈ cssNames (ensureAssets deck fs) deck,
      deck ≠ deck ++ [n] := fun n _ => self_ne_append_single deck n
  -- (1) index survives the run
  have hidxB : isFile (integrateCss deck (ensureAssets deck fs)) (deck ++ [indexName])
      = true := by
    rw [integrateCss_isFile_other deck _ _ hcss_ne_idx (append_len_ne deck _ _ (by decide)),
      ensureAssets_isFile]
    exact hidx
  have hidxC : isFile (stripHtmlStep deck (integrateCss deck (ensureAssets deck fs)))
      (deck ++ [indexName]) = true := stripHtmlStep_isFile_index deck _ hidxB
  have hidxD : isFile (finalize deck fs).2 (deck ++ [indexName]) = true := by
    rw [hfin,
      (removeArtifact_other _ _ _ (artifact_not_prefix_single deck _ _ (by decide))).1,
      (removeArtifact_other _ _ _ (artifact_not_prefix_single deck _ _ (by decide))).1]
    exact hidxC
  -- (2) the deck directory survives
  have hdeckD : fsExists (finalize deck fs).2 deck = true := by
    rw [hfin]
    rw [fsExists_congr
        (removeArtifact_other _ _ _ (not_prefix_append_single deck _)).1
        (removeArtifact_other _ _ _ (not_prefix_append_single deck _)).2.1,
      fsExists_congr
        (removeArtifact_other _ _ _ (not_prefix_append_single deck _)).1
        (removeArtifact_other _ _ _ (not_prefix_append_single deck _)).2.1,
      fsExists_congr
        (stripHtmlStep_other deck _ _ (self_ne_append deck [indexName] (by simp))).1
        (stripHtmlStep_isDir deck _ deck),
      fsExists_congr
        (integrateCss_isFile_other deck _ _ hcss_ne_deck
          (self_ne_append deck ["lib", "offline-v2.css"] (by simp)))
        (integrateCss_isDir deck _ deck)]
    exact ensureAssets_exists_mono deck fs deck hdeck
  -- (3) the assets folder survives
  have hassetsD : fsExists (finalize deck fs).2 (deck ++ ["assets"]) = true := by
    rw [hfin]
    rw [fsExists_congr
        (removeArtifact_other _ _ _ (artifact_not_prefix_single deck _ _ (by decide))).1
        (removeArtifact_other _ _ _ (artifact_not_prefix_single deck _ _ (by decide))).2.1,
      fsExists_congr
        (removeArtifact_other _ _ _ (artifact_not_prefix_single deck _ _ (by decide))).1
        (removeArtifact_other _ _ _ (artifact_not_prefix_single deck _ _ (by decide))).2.1,
      fsExists_congr
        (stripHtmlStep_other deck _ _ (append_single_ne deck _ _ (by decide))).1
        (stripHtmlStep_isDir deck _ _),
      fsExists_congr
        (integrateCss_isFile_other deck _ _ hcss_ne_assets
          (append_len_ne deck _ _ (by decide)))
        (integrateCss_isDir deck _ _)]
    exact ensureAssets_exists deck fs
  -- (4) no loose stylesheets remain, or the canonical stylesheet is absent
  have hstep2 : integrateCss deck (finalize deck fs).2 = (finalize deck fs).2 := by
    by_cases hmainA : fsExists (ensureAssets deck fs) (deck ++ ["lib", "offline-v2.css"])
        = true
    · -- canonical present: every loose stylesheet was removed in run 1
      have hempty : cssNames (finalize deck fs).2 deck = [] := by
        rw [List.eq_nil_iff_forall_not_mem]
        intro n hn
        obtain ⟨hnf, hncss, hnoff⟩ := cssNames_mem hn
        have hscr : n ≠ "screenshots" := cssName_ne_of_not_css hn _ (by decide)
        have hpdf : n ≠ "output.pdf" := cssName_ne_of_not_css hn _ (by decide)
        have hnidx : n ≠ indexName := cssName_ne_index hn
        rw [hfin,
          (removeArtifact_other _ _ _
            (artifact_not_prefix_single deck _ n (fun h => hpdf h.symm))).1,
          (removeArtifact_other _ _ _
            (artifact_not_prefix_single deck _ n (fun h => hscr h.symm))).1,
          (stripHtmlStep_other deck _ _
            (append_single_ne deck n indexName hnidx)).1] at hnf
        by_cases hmem : n ∈ cssNames (ensureAssets deck fs) deck
        · rw [integrateCss_removes deck _ hmainA n hmem] at hnf
          exact absurd hnf (by simp)
        · rw [integrateCss_isFile_other deck _ _
              (fun m hm => append_single_ne deck n m
                (fun h => hmem (h ▸ hm)))
              (append_len_ne deck [n] ["lib", "offline-v2.css"] (by simp))] at hnf
          apply hmem
          unfold cssNames
          rw [List.mem_filter]
          refine ⟨(mem_readdirNames _ deck n).mpr (Or.inl hnf), ?_⟩
          simp [hnf, hncss, hnoff]
      unfold integrateCss
      split
      · rfl
      · rw [if_pos (by rw [hempty]; rfl)]
    · -- canonical absent in run 1: it stays absent
      have hmainA' : fsExists (ensureAssets deck fs) (deck ++ ["lib", "offline-v2.css"])
          = false := by
        cases h : fsExists (ensureAssets deck fs) (deck ++ ["lib", "offline-v2.css"]) with
        | false => rfl
        | true => exact absurd h hmainA
      have hB : integrateCss deck (ensureAssets deck fs) = ensureAssets deck fs := by
        unfold integrateCss
        rw [if_pos (by simp [hmainA'])]
      have hmainD : fsExists (finalize deck fs).2 (deck ++ ["lib", "offline-v2.css"])
          = false := by
        rw [hfin, hB]
        apply removeArtifact_absent
        apply removeArtifact_absent
        rw [fsExists_congr
            (stripHtmlStep_other deck _ _ (append_len_ne deck _ _ (by decide))).1
            (stripHtmlStep_isDir deck _ _)]
        exact hmainA'
      unfold integrateCss
      rw [if_pos (by simp [hmainD])]
  -- (5) the markup is already fully stripped
  have hreadD : readFile (finalize deck fs).2 (deck ++ [indexName])
      = some (stripCssLinks (flatPieces ps)) := by
    rw [hfin,
      (removeArtifact_other _ _ _
        (artifact_not_prefix_single deck _ _ (by decide))).2.2,
      (removeArtifact_other _ _ _
        (artifact_not_prefix_single deck _ _ (by decide))).2.2,
      stripHtmlStep_index deck _ hidxB,
      integrateCss_readFile_other deck _ _ hcss_ne_idx (append_len_ne deck _ _ (by decide)),
      ensureAssets_readFile, hps]
  have hstep3 : stripHtmlStep deck (finalize deck fs).2 = (finalize deck fs).2 := by
    unfold stripHtmlStep
    rw [if_pos ?_]
    rw [hreadD]
    show stripCssLinks (stripCssLinks (flatPieces ps)) = stripCssLinks (flatPieces ps)
    rw [stripCssLinks_flat ps hwf, stripCssLinks_flat _ (WfPieces_stripPieces hwf),
      stripPieces_idem]
  -- (6) artifacts are gone
  have hartifacts := finalize_artifacts_gone
    (stripHtmlStep deck (integrateCss deck (ensureAssets deck fs))) deck
  have hscrD : fsExists (finalize deck fs).2 (deck ++ ["screenshots"]) = false := by
    rw [hfin]; exact hartifacts.1
  have hpdfD : fsExists (finalize deck fs).2 (deck ++ ["output.pdf"]) = false := by
    rw [hfin]; exact hartifacts.2
  -- assemble the second run
  have hstep1 : ensureAssets deck (finalize deck fs).2 = (finalize deck fs).2 := by
    unfold ensureAssets
    rw [if_pos hassetsD]
  have hidxexD : fsExists (finalize deck fs).2 (deck ++ [indexName]) = true := by
    simp [fsExists, hidxD]
  have hr1 : removeArtifact (finalize deck fs).2 (deck ++ ["screenshots"])
      = (finalize deck fs).2 := by
    unfold removeArtifact
    rw [if_neg (by simp [hscrD])]
  have hr2 : removeArtifact (finalize deck fs).2 (deck ++ ["output.pdf"])
      = (finalize deck fs).2 := by
    unfold removeArtifact
    rw [if_neg (by simp [hpdfD])]
  rw [finalize_ok_eq deck _ hdeckD hidxexD, hstep1, hstep2, hstep3, hr1, hr2]

/-- C6 witness: on the concrete demo project the second run is a no-op. -/
theorem finalize_rerun_noop_witness :
    finalize ["deck"] (finalize ["deck"] demoDeckFs).2
      = (Except.ok (), (finalize ["deck"] demoDeckFs).2) :=
  finalize_rerun_noop ["deck"] demoDeckFs (by decide) (by decide) demoPieces
    (by decide) (by decide)

/-- A project whose markup splices a new `<link` token once the first
removable tag is deleted: `<li` + `<link href="a.css">` + `nk ...`. -/
def splicedFs : FSys :=
  ⟨[(["deck", "index.html"], "<li<link href=\"a.css\">nk href=\"b.css\">".data),
    (["deck", "lib", "offline-v2.css"], "base".data)],
   [["deck"], ["deck", "lib"]]⟩

/-- C6 counterexample: the first run rewrites the markup to
`<link href="b.css">`, and the second run — far from being a no-op —
strips that newly spliced stylesheet link too, changing the file
again.  This refutes the unrestricted claim that a second run changes
no file content. -/
theorem finalize_rerun_not_noop :
    (finalize ["deck"] splicedFs).1 = Except.ok ()
    ∧ readFile (finalize ["deck"] splicedFs).2 ["deck", "index.html"]
        = some "<link href=\"b.css\">".data
    ∧ readFile (finalize ["deck"] (finalize ["deck"] splicedFs).2).2 ["deck", "index.html"]
        = some []
    ∧ (finalize ["deck"] (finalize ["deck"] splicedFs).2).2
        ≠ (finalize ["deck"] splicedFs).2 :=
  ⟨rfl, by decide, by decide, by decide⟩

/-! ## Template materialization (create-presentation.js, extractTemplate)

`extractTemplate(slug, outputDir)` (source lines 26-77): refuse when
the deck folder already exists, otherwise extract the template archive
into a timestamped scratch directory, create the deck folder, move the
two whitelisted entries (`index.html` and `lib/`) into it, and remove
the scratch subtree (best-effort cleanup, modelled as succeeding).
-/

inductive CreateErr where
  | conflict : FPath → CreateErr
deriving DecidableEq

/-- The contents of template.zip, abstract: file entries and directory
entries with archive-relative paths. -/
structure ZipData where
  zfiles : List (FPath × List Char)
  zdirs : List FPath
deriving DecidableEq

/-- `zip.extractAllTo(base, true)`. -/
def extractAll (fs : FSys) (base : FPath) (zip : ZipData) : FSys :=
  ⟨zip.zfiles.map (fun e => (base ++ e.1, e.2)) ++ fs.files,
   base :: (zip.zdirs.map (fun q => base ++ q) ++ fs.dirs)⟩

/-- `fs.renameSync(src, dst)` — moves the file or the whole subtree. -/
def rename (fs : FSys) (src dst : FPath) : FSys :=
  ⟨fs.files.map (fun e =>
      if src.isPrefixOf e.1 then (dst ++ e.1.drop src.length, e.2) else e),
   fs.dirs.map (fun q =>
      if src.isPrefixOf q then dst ++ q.drop src.length else q)⟩

/-- `temp-extract-${Date.now()}` with the clock value passed in. -/
def tempDirName (now : Nat) : String := "temp-extract-" ++ String.mk (numChars now)

def moveEntry (fs : FSys) (src dst : FPath) : FSys :=
  if fsExists fs src then rename fs src dst else fs

def extractTemplate (slug : String) (outputDir : FPath) (zip : ZipData) (now : Nat)
    (fs : FSys) : Except CreateErr FPath × FSys :=
  if fsExists fs (outputDir ++ ["deck-" ++ slug]) then
    (Except.error (CreateErr.conflict (outputDir ++ ["deck-" ++ slug])), fs)
  else
    (Except.ok (outputDir ++ ["deck-" ++ slug]),
      rmRec
        (moveEntry
          (moveEntry
            (mkdir (extractAll fs (outputDir ++ [tempDirName now]) zip)
              (outputDir ++ ["deck-" ++ slug]))
            (outputDir ++ [tempDirName now, "index.html"])
            (outputDir ++ ["deck-" ++ slug, "index.html"]))
          (outputDir ++ [tempDirName now, "lib"])
          (outputDir ++ ["deck-" ++ slug, "lib"]))
        (outputDir ++ [tempDirName now]))

theorem deckName_ne_tempName (slug : String) (now : Nat) :
    "deck-" ++ slug ≠ tempDirName now := by
  intro h
  have hd := congrArg String.data h
  rw [String.data_append] at hd
  unfold tempDirName at hd
  rw [String.data_append] at hd
  have := congrArg List.head? hd
  simp at this

theorem rename_isDir_keep (fs : FSys) (src dst q : FPath) (hq : ¬ src <+: q)
    (hdir : isDir fs q = true) : isDir (rename fs src dst) q = true := by
  rw [isDir_iff] at hdir ⊢
  unfold rename
  show q ∈ fs.dirs.map _
  rw [List.mem_map]
  refine ⟨q, hdir, ?_⟩
  rw [if_neg (fun hp => hq (List.isPrefixOf_iff_prefix.mp hp))]

theorem moveEntry_isDir_keep (fs : FSys) (src dst q : FPath) (hq : ¬ src <+: q)
    (hdir : isDir fs q = true) : isDir (moveEntry fs src dst) q = true := by
  unfold moveEntry
  split
  · exact rename_isDir_keep fs src dst q hq hdir
  · exact hdir

/-- C3.  Materializing the same slug into the same output directory
twice: the first call succeeds and leaves the deck folder in place, and
the second call fails with a conflict error naming the deck path while
leaving the whole file system — in particular the first call's
directory — untouched. -/
theorem extractTemplate_conflict_on_rerun
    (slug : String) (outputDir : FPath) (zip zip₂ : ZipData) (now now₂ : Nat)
    (fs : FSys)
    (hfree : fsExists fs (outputDir ++ ["deck-" ++ slug]) = false) :
    (extractTemplate slug outputDir zip now fs).1
        = Except.ok (outputDir ++ ["deck-" ++ slug])
    ∧ fsExists (extractTemplate slug outputDir zip now fs).2
        (outputDir ++ ["deck-" ++ slug]) = true
    ∧ extractTemplate slug outputDir zip₂ now₂
        (extractTemplate slug outputDir zip now fs).2
      = (Except.error (CreateErr.conflict (outputDir ++ ["deck-" ++ slug])),
         (extractTemplate slug outputDir zip now fs).2) := by
  have hrun1 : extractTemplate slug outputDir zip now fs
      = (Except.ok (outputDir ++ ["deck-" ++ slug]),
          rmRec
            (moveEntry
              (moveEntry
                (mkdir (extractAll fs (outputDir ++ [tempDirName now]) zip)
                  (outputDir ++ ["deck-" ++ slug]))
                (outputDir ++ [tempDirName now, "index.html"])
                (outputDir ++ ["deck-" ++ slug, "index.html"]))
              (outputDir ++ [tempDirName now, "lib"])
              (outputDir ++ ["deck-" ++ slug, "lib"]))
            (outputDir ++ [tempDirName now])) := by
    unfold extractTemplate
    rw [if_neg (by simp [hfree])]
  have hdeck : fsExists (extractTemplate slug outputDir zip now fs).2
      (outputDir ++ ["deck-" ++ slug]) = true := by
    rw [hrun1]
    have h1 : isDir (mkdir (extractAll fs (outputDir ++ [tempDirName now]) zip)
        (outputDir ++ ["deck-" ++ slug])) (outputDir ++ ["deck-" ++ slug]) = true :=
      (isDir_mkdir_iff _ _ _).mpr (Or.inl rfl)
    have hpre1 : ¬ (outputDir ++ [tempDirName now, "index.html"])
        <+: (outputDir ++ ["deck-" ++ slug]) := by
      intro hp
      have := hp.length_le
      simp at this
    have hpre2 : ¬ (outputDir ++ [tempDirName now, "lib"])
        <+: (outputDir ++ ["deck-" ++ slug]) := by
      intro hp
      have := hp.length_le
      simp at this
    have hpre3 : ¬ (outputDir ++ [tempDirName now])
        <+: (outputDir ++ ["deck-" ++ slug]) := by
      intro hp
      rw [append_prefix_cancel] at hp
      have := (singleton_prefix_iff _ _ _).mp hp
      exact deckName_ne_tempName slug now this.symm
    have h2 := moveEntry_isDir_keep _ (outputDir ++ [tempDirName now, "index.html"])
      (outputDir ++ ["deck-" ++ slug, "index.html"]) _ hpre1 h1
    have h3 := moveEntry_isDir_keep _ (outputDir ++ [tempDirName now, "lib"])
      (outputDir ++ ["deck-" ++ slug, "lib"]) _ hpre2 h2
    have h4 : isDir (rmRec
        (moveEntry
          (moveEntry
            (mkdir (extractAll fs (outputDir ++ [tempDirName now]) zip)
              (outputDir ++ ["deck-" ++ slug]))
            (outputDir ++ [tempDirName now, "index.html"])
            (outputDir ++ ["deck-" ++ slug, "index.html"]))
          (outputDir ++ [tempDirName now, "lib"])
          (outputDir ++ ["deck-" ++ slug, "lib"]))
        (outputDir ++ [tempDirName now])) (outputDir ++ ["deck-" ++ slug]) = true :=
      (isDir_rmRec_iff _ _ _).mpr ⟨h3, hpre3⟩
    simp [fsExists, h4]
  refine ⟨by rw [hrun1], hdeck, ?_⟩
  generalize hG : (extractTemplate slug outputDir zip now fs).2 = G at hdeck ⊢
  unfold extractTemplate
  rw [if_pos hdeck]

def demoZip : ZipData := ⟨[(["index.html"], "<html>".data)], [["lib"]]⟩

/-- C3 witness at a concrete slug, output directory, archive and clock. -/
theorem extractTemplate_conflict_on_rerun_witness :
    (extractTemplate "abc123" ["out"] demoZip 5 ⟨[], [["out"]]⟩).1
        = Except.ok (["out"] ++ ["deck-" ++ "abc123"])
    ∧ fsExists (extractTemplate "abc123" ["out"] demoZip 5 ⟨[], [["out"]]⟩).2
        (["out"] ++ ["deck-" ++ "abc123"]) = true
    ∧ extractTemplate "abc123" ["out"] demoZip 6
        (extractTemplate "abc123" ["out"] demoZip 5 ⟨[], [["out"]]⟩).2
      = (Except.error (CreateErr.conflict (["out"] ++ ["deck-" ++ "abc123"])),
         (extractTemplate "abc123" ["out"] demoZip 5 ⟨[], [["out"]]⟩).2) :=
  extractTemplate_conflict_on_rerun "abc123" ["out"] demoZip demoZip 5 6
    ⟨[], [["out"]]⟩ (by decide)

/-! ## The main() validation prelude (create-presentation.js lines 234-276)

Order of effects in `main`: parse options (pure), reject the mutually
exclusive flags, default or validate the structure, check that the
template archive exists, and only then touch the file system (creating
the output directory and extracting).  Slug generation is pure and
omitted.  `slides` is modelled as `Option (Option Nat)`: absent, or
present with either a usable count or an unusable (`NaN`/negative)
value, which `main` rejects through the same `< 1 || isNaN` test.
-/

structure Options where
  slides : Option (Option Nat)
  structureOpt : Option (List Tok)
  outputDir : FPath
deriving DecidableEq

def TEMPLATE_ZIP_PATH : FPath := ["references", "template.zip"]

def pathString (p : FPath) : String := String.intercalate "/" p

def msgMutex : String := "Error: Cannot use both --slides and --structure. Choose one."
def msgSlides : String := "Error: Slide count must be at least 1."
def msgStructure : String :=
  "Error: Structure values must be positive integers or \"d\" for dividers."
def msgZip : String := "Error: Template zip not found at " ++ pathString TEMPLATE_ZIP_PATH

/-- The file-system boundary of `main`: template-archive check, then
output-directory creation (lines 267-276). -/
def mainFinish (items : List Item) (outputDir : FPath) (fs : FSys) :
    Except String (List Item) × FSys :=
  if ¬ fsExists fs TEMPLATE_ZIP_PATH then (Except.error msgZip, fs)
  else if ¬ fsExists fs outputDir then (Except.ok items, mkdir fs outputDir)
  else (Except.ok items, fs)

/-- Validation prelude of `main` (lines 238-276). -/
def mainPrelude (opts : Options) (fs : FSys) : Except String (List Item) × FSys :=
  if opts.slides.isSome && opts.structureOpt.isSome then (Except.error msgMutex, fs)
  else
    match opts.slides, opts.structureOpt with
    | none, none => mainFinish (List.replicate 5 (Item.num 1)) opts.outputDir fs
    | some sv, _ =>
      match sv with
      | none => (Except.error msgSlides, fs)
      | some n =>
        if n < 1 then (Except.error msgSlides, fs)
        else mainFinish (List.replicate n (Item.num 1)) opts.outputDir fs
    | none, some ts =>
      match validateStructure ts with
      | none => (Except.error msgStructure, fs)
      | some items => mainFinish items opts.outputDir fs

/-- C9 (amended).  Every configuration-error condition — invalid
grammar token, both mutually exclusive structure options supplied,
missing template archive — is fatal and aborts before any file-system
mutation (the returned file system is the input).  The missing-archive
error names the offending path; the grammar-token and exclusivity
errors carry fixed generic messages.  (That the offending token is
*not* included in the message is witnessed by
`mainPrelude_generic_token_message`, which refutes the original
claim's "reported with the specific offending value".) -/
theorem mainPrelude_config_errors :
    (∀ (opts : Options) (fs : FSys), opts.slides.isSome = true →
      opts.structureOpt.isSome = true →
      mainPrelude opts fs = (Except.error msgMutex, fs))
    ∧ (∀ (fs : FSys) (ts : List Tok) (od : FPath), ts.any tokBad = true →
      mainPrelude ⟨none, some ts, od⟩ fs = (Except.error msgStructure, fs))
    ∧ (∀ (fs : FSys) (od : FPath), fsExists fs TEMPLATE_ZIP_PATH = false →
      mainPrelude ⟨none, none, od⟩ fs = (Except.error msgZip, fs))
    ∧ msgZip.data
        = "Error: Template zip not found at ".data ++ (pathString TEMPLATE_ZIP_PATH).data := by
  refine ⟨?_, ?_, ?_, String.data_append _ _⟩
  · intro opts fs h1 h2
    unfold mainPrelude
    rw [if_pos (by simp [h1, h2])]
  · intro fs ts od hbad
    unfold mainPrelude
    rw [if_neg (by simp)]
    show (match validateStructure ts with
      | none => (Except.error msgStructure, fs)
      | some items => mainFinish items od fs) = _
    unfold validateStructure
    rw [if_pos hbad]
  · intro fs od hzip
    unfold mainPrelude
    rw [if_neg (by simp)]
    show mainFinish (List.replicate 5 (Item.num 1)) od fs = _
    unfold mainFinish
    rw [if_pos (by simp [hzip])]

/-- C9 witness: concrete instances of the three fatal conditions. -/
theorem mainPrelude_config_errors_witness :
    mainPrelude ⟨some (some 3), some [Tok.d], ["o"]⟩ ⟨[], []⟩
      = (Except.error msgMutex, (⟨[], []⟩ : FSys))
    ∧ mainPrelude ⟨none, some [Tok.num 0], ["o"]⟩ ⟨[], []⟩
      = (Except.error msgStructure, (⟨[], []⟩ : FSys))
    ∧ mainPrelude ⟨none, none, ["o"]⟩ ⟨[], []⟩
      = (Except.error msgZip, (⟨[], []⟩ : FSys)) :=
  ⟨mainPrelude_config_errors.1 ⟨some (some 3), some [Tok.d], ["o"]⟩ ⟨[], []⟩
      (by decide) (by decide),
   mainPrelude_config_errors.2.1 ⟨[], []⟩ [Tok.num 0] ["o"] (by decide),
   mainPrelude_config_errors.2.2.1 ⟨[], []⟩ ["o"] (by decide)⟩

/-- C9 counterexample: with the invalid token `0` the run aborts with
the fixed message `Error: Structure values must be positive integers
or "d" for dividers.`, which does not contain the offending value's
text `0` — refuting "reported with the specific offending value". -/
theorem mainPrelude_generic_token_message :
    mainPrelude ⟨none, some [Tok.num 0], ["out"]⟩ ⟨[], []⟩
      = (Except.error msgStructure, (⟨[], []⟩ : FSys))
    ∧ hasInfix (numChars 0) msgStructure.data = false := by
  constructor
  · rfl
  · decide

/-! ## Deck customization: the embedded-config update
    (create-presentation.js, cleanTemplateHTML lines 141-174)

The script block's config update.  The regex
`/var SLConfig = ({[\s\S]*?});/` matches at the first
`var SLConfig = {` that is followed by a `};`, capturing lazily up to
the first `};` (a later start position can only match if a `};`
follows it, and that `};` would equally close the first start, so
first-occurrence search is exact).  On a JSON parse success the
`deck.slug` / `deck.title` / `deck.slide_count` fields are assigned and
the block is re-serialized; on a parse failure (or the exception thrown
when `config.deck` is not an object) the fallback substitutes the slug
and title field patterns literally in the raw script text.
-/

/-- Split at the first occurrence of `p`: `s = pre ++ p ++ post`. -/
def findSplit (p : List Char) : List Char → Option (List Char × List Char)
  | [] => none
  | c :: rest =>
    if p.isPrefixOf (c :: rest) then some ([], (c :: rest).drop p.length)
    else
      match findSplit p rest with
      | none => none
      | some (a, b) => some (c :: a, b)

theorem findSplit_spec (p : List Char) (hp : p ≠ []) :
    ∀ pre rest : List Char,
      (∀ i, i < pre.length → ¬ p.isPrefixOf ((pre ++ p ++ rest).drop i)) →
      findSplit p (pre ++ p ++ rest) = some (pre, rest) := by
  intro pre
  induction pre with
  | nil =>
    intro rest _
    obtain ⟨c, p2, hp2⟩ : ∃ c p2, p = c :: p2 := by
      cases hpc : p with
      | nil => exact absurd hpc hp
      | cons c p2 => exact ⟨c, p2, rfl⟩
    subst hp2
    show findSplit (c :: p2) (c :: (p2 ++ rest)) = some ([], rest)
    rw [findSplit, if_pos ?hpre]
    case hpre =>
      exact List.isPrefixOf_iff_prefix.mpr ⟨rest, by simp⟩
    have hdrop : (c :: (p2 ++ rest)).drop (c :: p2).length = rest := by
      simp [List.drop_left]
    rw [hdrop]
  | cons c pre' ih =>
    intro rest hfirst
    show findSplit p (c :: (pre' ++ p ++ rest)) = some (c :: pre', rest)
    rw [findSplit, if_neg ?hneg]
    case hneg =>
      have := hfirst 0 (by simp)
      simpa using this
    rw [ih rest (fun i hi => by
      have := hfirst (i + 1) (by simp; omega)
      simpa using this)]

theorem findSplit_inv (p : List Char) :
    ∀ s pre post : List Char, findSplit p s = some (pre, post) →
      s = pre ++ p ++ post
      ∧ ∀ i, i < pre.length → ¬ p.isPrefixOf (s.drop i) := by
  intro s
  induction s with
  | nil => intro pre post h; simp [findSplit] at h
  | cons c rest ih =>
    intro pre post h
    rw [findSplit] at h
    by_cases hpre : p.isPrefixOf (c :: rest)
    · rw [if_pos hpre] at h
      simp only [Option.some.injEq, Prod.mk.injEq] at h
      obtain ⟨h1, h2⟩ := h
      constructor
      · rw [← h1, ← h2]
        have hp2 : p <+: c :: rest := List.isPrefixOf_iff_prefix.mp hpre
        rcases hp2 with ⟨t, ht⟩
        rw [← ht, List.drop_left]
        simp
      · intro i hi
        rw [← h1] at hi
        simp at hi
    · rw [if_neg hpre] at h
      cases hfs : findSplit p rest with
      | none => rw [hfs] at h; simp at h
      | some ab =>
        rw [hfs] at h
        obtain ⟨a, b⟩ := ab
        simp only [Option.some.injEq, Prod.mk.injEq] at h
        obtain ⟨h1, h2⟩ := h
        obtain ⟨hs, hfst⟩ := ih a b hfs
        constructor
        · rw [← h1, ← h2, hs]; rfl
        · intro i hi
          rw [← h1] at hi
          cases i with
          | zero => simpa using hpre
          | succ j =>
            simp only [List.length_cons] at hi
            have := hfst j (by omega)
            simpa using this

/-- `'"'`-escaping of the title: `options.title.replace(/"/g, '\\"')`. -/
def escTitle (t : List Char) : List Char :=
  t.flatMap (fun c => if c = '"' then ['\\', '"'] else [c])

/-- One literal field substitution
`.replace(/"<key>":"[^"]*"/, '"<key>":"<v>"')`: locate the first
occurrence of the opening pattern, span the quote-free old value and
its closing quote, and replace the value. -/
def replaceField (pat v s : List Char) : List Char :=
  match findSplit pat s with
  | none => s
  | some (pre, rest) =>
    match rest.dropWhile (fun c => ¬ c = '"') with
    | '"' :: rest2 => pre ++ pat ++ v ++ '"' :: rest2
    | _ => s

def slugFieldPat : List Char := "\"slug\":\"".data
def titleFieldPat : List Char := "\"title\":\"".data

/-- The fallback path (source lines 165-171): substitute the slug
pattern, then the title pattern, in the raw script text. -/
def fallbackUpdate (script slug title : List Char) : List Char :=
  replaceField titleFieldPat (escTitle title)
    (replaceField slugFieldPat ("deck-".data ++ slug) script)

theorem dropWhile_append_all {p : Char → Bool} (a : List Char) (s : List Char)
    (h : ∀ c ∈ a, p c = true) : List.dropWhile p (a ++ s) = List.dropWhile p s := by
  induction a with
  | nil => rfl
  | cons c a2 ih =>
    show List.dropWhile p (c :: (a2 ++ s)) = _
    rw [List.dropWhile_cons_of_pos (h c (List.mem_cons_self c a2)),
      ih (fun x hx => h x (List.mem_cons_of_mem c hx))]

theorem replaceField_spec (pat v : List Char) (hp : pat ≠ []) (pre x post : List Char)
    (hfirst : ∀ i, i < pre.length → ¬ pat.isPrefixOf ((pre ++ pat ++ (x ++ '"' :: post)).drop i))
    (hx : '"' ∉ x) :
    replaceField pat v (pre ++ pat ++ (x ++ '"' :: post))
      = pre ++ pat ++ v ++ '"' :: post := by
  have hfs := findSplit_spec pat hp pre (x ++ '"' :: post) hfirst
  have hdw : (x ++ '"' :: post).dropWhile (fun c => ¬ c = '"') = '"' :: post := by
    rw [dropWhile_append_all x _ (fun c hc => by
      simp only [decide_eq_true_eq]
      exact fun h => hx (h ▸ hc))]
    rw [List.dropWhile_cons_of_neg (by simp)]
  unfold replaceField
  simp only [hfs, hdw]

/-! ### A miniature JSON model for the success path

`JSON.parse` / `JSON.stringify(config, null, 2)` restricted to the value
shapes the template config uses: double-quoted strings without escapes,
non-negative decimal integers, and objects.  Well-formedness (`wfVal`)
limits string contents to the characters on which `stringify` is
faithfully inverted by `parse` (no quote, backslash, braces, semicolon
or control characters). -/

def isWsChar (c : Char) : Bool := c = ' ' || c = '\n' || c = '\t' || c = '\r'

def skipWs (s : List Char) : List Char := s.dropWhile isWsChar

def isDigitChar (c : Char) : Bool := decide (c ∈ digitChars)

mutual
inductive JVal : Type where
  | jstr : List Char → JVal
  | jnum : Nat → JVal
  | jobj : JFields → JVal
inductive JFields : Type where
  | fnil : JFields
  | fcons : List Char → JVal → JFields → JFields
end

deriving instance DecidableEq for JVal, JFields

def wfStrChar (c : Char) : Bool :=
  !(c = '"' || c = '\\' || c = '\x7b' || c = '\x7d' || c = ';' || decide (c.toNat < 32))

def wfStr (s : List Char) : Bool := s.all wfStrChar

mutual
def wfVal : JVal → Bool
  | JVal.jstr s => wfStr s
  | JVal.jnum _ => true
  | JVal.jobj fs => wfFields fs
def wfFields : JFields → Bool
  | JFields.fnil => true
  | JFields.fcons k v fs => wfStr k && wfVal v && wfFields fs
end

def spacesN (n : Nat) : List Char := List.replicate n ' '

mutual
/-- `JSON.stringify(v, null, 2)` at field indentation `ind`. -/
def jstringify : Nat → JVal → List Char
  | _, JVal.jstr s => '"' :: (s ++ ['"'])
  | _, JVal.jnum n => numChars n
  | _, JVal.jobj JFields.fnil => ['\x7b', '\x7d']
  | ind, JVal.jobj (JFields.fcons k v fs) =>
    '\x7b' :: '\n' :: (jfieldsStr (ind + 2) (JFields.fcons k v fs)
      ++ '\n' :: (spacesN ind ++ ['\x7d']))
def jfieldsStr : Nat → JFields → List Char
  | _, JFields.fnil => []
  | ind, JFields.fcons k v JFields.fnil =>
    spacesN ind ++ '"' :: (k ++ '"' :: ':' :: ' ' :: jstringify ind v)
  | ind, JFields.fcons k v (JFields.fcons k2 v2 fs) =>
    (spacesN ind ++ '"' :: (k ++ '"' :: ':' :: ' ' :: jstringify ind v))
      ++ ',' :: '\n' :: jfieldsStr ind (JFields.fcons k2 v2 fs)
end

mutual
def jsize : JVal → Nat
  | JVal.jstr _ => 1
  | JVal.jnum _ => 1
  | JVal.jobj fs => 1 + fsize fs
def fsize : JFields → Nat
  | JFields.fnil => 0
  | JFields.fcons _ v fs => 1 + jsize v + fsize fs
end

mutual
/-- Fuel-indexed recursive-descent reading of one JSON value. -/
def jparseVal : Nat → List Char → Option (JVal × List Char)
  | 0, _ => none
  | fuel + 1, s =>
    match skipWs s with
    | [] => none
    | c :: rest =>
      if c = '"' then
        match rest.dropWhile (fun x => ¬ x = '"') with
        | '"' :: rest2 => some (JVal.jstr (rest.takeWhile (fun x => ¬ x = '"')), rest2)
        | _ => none
      else if c = '\x7b' then
        match skipWs rest with
        | '\x7d' :: rest2 => some (JVal.jobj JFields.fnil, rest2)
        | _ =>
          match jparseFields fuel rest with
          | some (fs, rest2) => some (JVal.jobj fs, rest2)
          | none => none
      else if isDigitChar c then
        some (JVal.jnum (charsToNat ((c :: rest).takeWhile isDigitChar)),
          (c :: rest).dropWhile isDigitChar)
      else none
/-- Reads `"k": v` pairs separated by commas, consuming the closing
brace. -/
def jparseFields : Nat → List Char → Option (JFields × List Char)
  | 0, _ => none
  | fuel + 1, s =>
    match skipWs s with
    | '"' :: rest =>
      match rest.dropWhile (fun x => ¬ x = '"') with
      | '"' :: rest2 =>
        match skipWs rest2 with
        | ':' :: rest3 =>
          match jparseVal fuel rest3 with
          | some (v, rest4) =>
            match skipWs rest4 with
            | ',' :: rest5 =>
              match jparseFields fuel rest5 with
              | some (fs, rest6) =>
                some (JFields.fcons (rest.takeWhile (fun x => ¬ x = '"')) v fs, rest6)
              | none => none
            | '\x7d' :: rest5 =>
              some (JFields.fcons (rest.takeWhile (fun x => ¬ x = '"')) v JFields.fnil, rest5)
            | _ => none
          | none => none
        | _ => none
      | _ => none
    | _ => none
end

/-- `JSON.parse` on a complete payload: one value, nothing but
whitespace after it. -/
def jparse (s : List Char) : Option JVal :=
  match jparseVal (s.length + 1) s with
  | some (v, rest) => if skipWs rest = [] then some v else none
  | none => none

/-- JS property read `fs[k]`. -/
def getField : JFields → List Char → Option JVal
  | JFields.fnil, _ => none
  | JFields.fcons k2 v2 fs, k => if k2 = k then some v2 else getField fs k

/-- JS property assignment `fs[k] = v`: overwrite in place, else append. -/
def setField : JFields → List Char → JVal → JFields
  | JFields.fnil, k, v => JFields.fcons k v JFields.fnil
  | JFields.fcons k2 v2 fs, k, v =>
    if k2 = k then JFields.fcons k2 v fs
    else JFields.fcons k2 v2 (setField fs k v)

def deckKey : List Char := "deck".data
def slugKey : List Char := "slug".data
def titleKey : List Char := "title".data
def countKey : List Char := "slide_count".data

/-- The three assignments `config.deck.slug = ...`, `config.deck.title
= ...`, `config.deck.slide_count = ...` (source lines 152-154).  A
missing `deck` (or a non-object `config`) makes the first assignment
throw, landing in the catch block: `none`.  A primitive `deck` value
absorbs the assignments silently (sloppy mode), so the config is
re-serialized unchanged. -/
def setDeck (cfg : JVal) (slug title : List Char) (count : Nat) : Option JVal :=
  match cfg with
  | JVal.jobj fs =>
    match getField fs deckKey with
    | some (JVal.jobj ds) =>
      some (JVal.jobj (setField fs deckKey (JVal.jobj
        (setField (setField (setField ds slugKey (JVal.jstr ("deck-".data ++ slug)))
          titleKey (JVal.jstr title)) countKey (JVal.jnum count)))))
    | some _ => some cfg
    | none => none
  | _ => none

/-- Reads `config.deck[k]` out of a config value. -/
def deckField (cfg : JVal) (k : List Char) : Option JVal :=
  match cfg with
  | JVal.jobj fs =>
    match getField fs deckKey with
    | some (JVal.jobj ds) => getField ds k
    | _ => none
  | _ => none

/-- The fixed text up to the config regex's capture group. -/
def varPrefix : List Char := "var SLConfig = ".data

/-- `var SLConfig = {`: where `/var SLConfig = ({[\s\S]*?});/` must
start matching. -/
def varPat : List Char := varPrefix ++ ['\x7b']

def endPat : List Char := ['\x7d', ';']

/-- The regex match `/var SLConfig = ({[\s\S]*?});/` on the script
text: the earliest `var SLConfig = {` start, the lazy capture up to the
first following `};`.  (A later start position can only match if some
`};` follows it, and that `};` also closes the earliest start, so
taking the first occurrence of each delimiter is exactly the regex's
match.) -/
def extractConfig (s : List Char) : Option (List Char × List Char × List Char) :=
  match findSplit varPat s with
  | none => none
  | some (pre, rest) =>
    match findSplit endPat rest with
    | none => none
    | some (mid, post) => some (pre, '\x7b' :: (mid ++ ['\x7d']), post)

/-- The script-content update of `cleanTemplateHTML` (lines 146-173):
no config match leaves the script alone; a parsed config has its deck
fields assigned and the matched span re-serialized; a parse failure or
a throwing assignment falls back to the literal slug/title
substitution. -/
def updateConfigScript (script slug title : List Char) (count : Nat) : List Char :=
  match extractConfig script with
  | none => script
  | some (pre, payload, post) =>
    match jparse payload with
    | none => fallbackUpdate script slug title
    | some cfg =>
      match setDeck cfg slug title count with
      | none => fallbackUpdate script slug title
      | some cfg2 => pre ++ varPrefix ++ jstringify 0 cfg2 ++ ';' :: post

/-- `C5`: when the embedded-config payload fails JSON parsing, the
customizer does not fail: it falls back to literal substitution,
rewriting exactly the `"slug":"..."` and `"title":"..."` field spans
(the title with its quotes escaped) and leaving every other character
of the script — in particular any `"slide_count"` field — verbatim. -/
theorem updateConfig_fallback
    (script slug title : List Char) (count : Nat)
    (pre payload post : List Char)
    (hext : extractConfig script = some (pre, payload, post))
    (hparse : jparse payload = none)
    (A X B Y C : List Char)
    (hscript : script = A ++ slugFieldPat ++ (X ++ '"' :: (B ++ titleFieldPat ++ (Y ++ '"' :: C))))
    (hX : '"' ∉ X) (hY : '"' ∉ Y)
    (hfirstS : ∀ i, i < A.length → ¬ slugFieldPat.isPrefixOf (script.drop i))
    (hfirstT : ∀ i, i < (A ++ slugFieldPat ++ (("deck-".data ++ slug) ++ '"' :: B)).length →
      ¬ titleFieldPat.isPrefixOf
        (((A ++ slugFieldPat ++ (("deck-".data ++ slug) ++ '"' :: B)) ++ titleFieldPat
          ++ (Y ++ '"' :: C)).drop i)) :
    updateConfigScript script slug title count
      = A ++ slugFieldPat ++ (("deck-".data ++ slug) ++ '"' ::
          (B ++ titleFieldPat ++ (escTitle title ++ '"' :: C))) := by
  have h1 : updateConfigScript script slug title count = fallbackUpdate script slug title := by
    unfold updateConfigScript
    simp only [hext, hparse]
  have hinner := replaceField_spec slugFieldPat ("deck-".data ++ slug) (by decide)
    A X (B ++ titleFieldPat ++ (Y ++ '"' :: C)) (hscript ▸ hfirstS) hX
  have houter := replaceField_spec titleFieldPat (escTitle title) (by decide)
    (A ++ slugFieldPat ++ (("deck-".data ++ slug) ++ '"' :: B)) Y C hfirstT hY
  rw [h1]
  unfold fallbackUpdate
  rw [hscript, hinner]
  have hshape : A ++ slugFieldPat ++ ("deck-".data ++ slug) ++ '"' :: (B ++ titleFieldPat ++ (Y ++ '"' :: C))
      = (A ++ slugFieldPat ++ (("deck-".data ++ slug) ++ '"' :: B)) ++ titleFieldPat ++ (Y ++ '"' :: C) := by
    simp [List.append_assoc]
  rw [hshape, houter]
  simp [List.append_assoc]

def demoBadA : List Char := "var SLConfig = \x7bBAD\x7d;\n".data
def demoBadB : List Char := ",\"slide_count\":7,".data
def demoBadScript : List Char :=
  demoBadA ++ slugFieldPat ++ ("deck-old".data ++ '"' ::
    (demoBadB ++ titleFieldPat ++ ("Old".data ++ '"' :: ([] : List Char))))

theorem updateConfig_fallback_witness :
    updateConfigScript demoBadScript "abc".data "New Deck".data 6
      = demoBadA ++ slugFieldPat ++ (("deck-".data ++ "abc".data) ++ '"' ::
          (demoBadB ++ titleFieldPat ++ (escTitle "New Deck".data ++ '"' :: ([] : List Char)))) :=
  updateConfig_fallback demoBadScript "abc".data "New Deck".data 6
    [] "\x7bBAD\x7d".data ('\n' :: (slugFieldPat ++ ("deck-old".data ++ '"' ::
      (demoBadB ++ titleFieldPat ++ ("Old".data ++ '"' :: ([] : List Char))))))
    (by decide) (by decide)
    demoBadA "deck-old".data demoBadB "Old".data ([] : List Char)
    (by decide) (by decide) (by decide) (by decide) (by decide)

theorem takeWhile_append_all {p : Char → Bool} (x s : List Char)
    (h : ∀ c ∈ x, p c = true) : (x ++ s).takeWhile p = x ++ s.takeWhile p := by
  induction x with
  | nil => rfl
  | cons c x2 ih =>
    show (c :: (x2 ++ s)).takeWhile p = _
    rw [List.takeWhile_cons_of_pos (h c (List.mem_cons_self c x2)),
      ih (fun a ha => h a (List.mem_cons_of_mem c ha))]
    rfl

theorem takeWhile_stops {p : Char → Bool} (x : List Char) (c : Char) (s : List Char)
    (hx : ∀ a ∈ x, p a = true) (hc : p c = false) :
    (x ++ c :: s).takeWhile p = x ∧ (x ++ c :: s).dropWhile p = c :: s := by
  constructor
  · rw [takeWhile_append_all x _ hx, List.takeWhile_cons_of_neg (by simp [hc])]
    simp
  · rw [dropWhile_append_all x _ hx, List.dropWhile_cons_of_neg (by simp [hc])]

theorem charsToNat_append_digit (xs : List Char) (d : Char) :
    charsToNat (xs ++ [d]) = 10 * charsToNat xs + digitVal d := by
  unfold charsToNat
  rw [List.foldl_append]
  rfl

theorem digitVal_getD (n : Nat) (h : n < 10) :
    digitVal (digitChars.getD n '0') = n := by
  interval_cases n <;> decide

theorem charsToNat_numChars (n : Nat) : charsToNat (numChars n) = n := by
  induction n using Nat.strong_induction_on with
  | _ n ih =>
    by_cases h : n < 10
    · rw [numChars_lt n h]
      show charsToNat ([] ++ [digitChars.getD n '0']) = n
      rw [charsToNat_append_digit, digitVal_getD n h]
      simp [charsToNat]
    · push_neg at h
      rw [numChars_ge n h, charsToNat_append_digit,
        ih (n / 10) (Nat.div_lt_self (by omega) (by omega)),
        digitVal_getD (n % 10) (Nat.mod_lt _ (by omega))]
      omega

theorem getField_setField_self :
    ∀ (fs : JFields) (k : List Char) (v : JVal),
      getField (setField fs k v) k = some v
  | JFields.fnil, k, v => by simp [setField, getField]
  | JFields.fcons k2 v2 fs2, k, v => by
    by_cases hk : k2 = k
    · simp [setField, hk, getField]
    · simp [setField, hk, getField, getField_setField_self fs2 k v]

theorem getField_setField_ne :
    ∀ (fs : JFields) (k k2 : List Char) (v : JVal), k2 ≠ k →
      getField (setField fs k2 v) k = getField fs k
  | JFields.fnil, k, k2, v, hne => by simp [setField, getField, hne]
  | JFields.fcons k3 v3 fs3, k, k2, v, hne => by
    by_cases hk : k3 = k2
    · subst hk
      simp [setField, getField, hne]
    · simp [setField, hk, getField, getField_setField_ne fs3 k k2 v hne]

theorem setField_absorb :
    ∀ (fs : JFields) (k : List Char) (v : JVal),
      getField fs k = some v → setField fs k v = fs
  | JFields.fnil, k, v, h => by simp [getField] at h
  | JFields.fcons k2 v2 fs2, k, v, h => by
    by_cases hk : k2 = k
    · rw [getField, if_pos hk] at h
      simp only [Option.some.injEq] at h
      simp [setField, hk, h]
    · rw [getField, if_neg hk] at h
      simp [setField, hk, setField_absorb fs2 k v h]

theorem setField_ne_fnil (fs : JFields) (k : List Char) (v : JVal) :
    setField fs k v ≠ JFields.fnil := by
  cases fs with
  | fnil => simp [setField]
  | fcons k2 v2 fs2 =>
    by_cases hk : k2 = k <;> simp [setField, hk]

theorem wf_getField :
    ∀ (fs : JFields) (k : List Char) (v : JVal), wfFields fs = true →
      getField fs k = some v → wfVal v = true
  | JFields.fnil, k, v, _, h => by simp [getField] at h
  | JFields.fcons k2 v2 fs2, k, v, hwf, h => by
    rw [wfFields] at hwf
    simp only [Bool.and_eq_true] at hwf
    by_cases hk : k2 = k
    · rw [getField, if_pos hk] at h
      simp only [Option.some.injEq] at h
      exact h ▸ hwf.1.2
    · rw [getField, if_neg hk] at h
      exact wf_getField fs2 k v hwf.2 h

theorem wf_setField :
    ∀ (fs : JFields) (k : List Char) (v : JVal), wfFields fs = true →
      wfStr k = true → wfVal v = true → wfFields (setField fs k v) = true
  | JFields.fnil, k, v, _, hk, hv => by simp [setField, wfFields, hk, hv]
  | JFields.fcons k2 v2 fs2, k, v, hwf, hk, hv => by
    rw [wfFields] at hwf
    simp only [Bool.and_eq_true] at hwf
    by_cases hkk : k2 = k
    · simp [setField, hkk, wfFields, hwf.1.1, hk, hv, hwf.2]
    · simp [setField, hkk, wfFields, hwf.1.1, hwf.1.2, wf_setField fs2 k v hwf.2 hk hv]

/-- The deck-fields assignment written out, for a config whose `deck`
is an object. -/
def deckAssigned (ds : JFields) (slug title : List Char) (count : Nat) : JFields :=
  setField (setField (setField ds slugKey (JVal.jstr ("deck-".data ++ slug)))
    titleKey (JVal.jstr title)) countKey (JVal.jnum count)

theorem setDeck_obj (fs ds : JFields) (slug title : List Char) (count : Nat)
    (hd : getField fs deckKey = some (JVal.jobj ds)) :
    setDeck (JVal.jobj fs) slug title count
      = some (JVal.jobj (setField fs deckKey (JVal.jobj (deckAssigned ds slug title count)))) := by
  rw [setDeck, hd]
  rfl

theorem deckAssigned_values (ds : JFields) (slug title : List Char) (count : Nat) :
    getField (deckAssigned ds slug title count) slugKey
        = some (JVal.jstr ("deck-".data ++ slug))
    ∧ getField (deckAssigned ds slug title count) titleKey = some (JVal.jstr title)
    ∧ getField (deckAssigned ds slug title count) countKey = some (JVal.jnum count) := by
  unfold deckAssigned
  refine ⟨?_, ?_, ?_⟩
  · rw [getField_setField_ne _ _ _ _ (by decide), getField_setField_ne _ _ _ _ (by decide),
      getField_setField_self]
  · rw [getField_setField_ne _ _ _ _ (by decide), getField_setField_self]
  · rw [getField_setField_self]

theorem deckAssigned_absorb (ds : JFields) (slug title : List Char) (count : Nat) :
    deckAssigned (deckAssigned ds slug title count) slug title count
      = deckAssigned ds slug title count := by
  obtain ⟨h1, h2, h3⟩ := deckAssigned_values ds slug title count
  show setField (setField (setField (deckAssigned ds slug title count) slugKey
      (JVal.jstr ("deck-".data ++ slug))) titleKey (JVal.jstr title)) countKey
      (JVal.jnum count) = deckAssigned ds slug title count
  rw [setField_absorb _ _ _ h1, setField_absorb _ _ _ h2, setField_absorb _ _ _ h3]

theorem setDeck_idem (fs ds : JFields) (slug title : List Char) (count : Nat)
    (hd : getField fs deckKey = some (JVal.jobj ds)) :
    setDeck (JVal.jobj (setField fs deckKey (JVal.jobj (deckAssigned ds slug title count))))
        slug title count
      = some (JVal.jobj (setField fs deckKey (JVal.jobj (deckAssigned ds slug title count)))) := by
  rw [setDeck_obj _ (deckAssigned ds slug title count) slug title count
    (getField_setField_self fs deckKey _)]
  rw [deckAssigned_absorb]
  rw [setField_absorb _ _ _ (getField_setField_self fs deckKey _)]

theorem wf_deckAssigned (ds : JFields) (slug title : List Char) (count : Nat)
    (hds : wfFields ds = true) (hslug : wfStr slug = true) (htitle : wfStr title = true) :
    wfFields (deckAssigned ds slug title count) = true := by
  unfold deckAssigned
  apply wf_setField _ _ _ ?_ (by decide) (by rfl)
  apply wf_setField _ _ _ ?_ (by decide) (by simpa [wfVal])
  apply wf_setField _ _ _ hds (by decide) ?_
  show wfStr ("deck-".data ++ slug) = true
  rw [wfStr, List.all_append]
  simp only [Bool.and_eq_true]
  exact ⟨by decide, hslug⟩

theorem wf_setDeck (fs ds : JFields) (slug title : List Char) (count : Nat)
    (hwf : wfFields fs = true) (hd : getField fs deckKey = some (JVal.jobj ds))
    (hslug : wfStr slug = true) (htitle : wfStr title = true) :
    wfVal (JVal.jobj (setField fs deckKey (JVal.jobj (deckAssigned ds slug title count)))) = true := by
  rw [wfVal]
  apply wf_setField _ _ _ hwf (by decide)
  show wfFields (deckAssigned ds slug title count) = true
  have hds : wfFields ds = true := by
    have := wf_getField fs deckKey (JVal.jobj ds) hwf hd
    rwa [wfVal] at this
  exact wf_deckAssigned ds slug title count hds hslug htitle

theorem wfStr_mem {s : List Char} {c : Char} (hwf : wfStr s = true) (hc : c ∈ s) :
    wfStrChar c = true := by
  rw [wfStr, List.all_eq_true] at hwf
  exact hwf c hc

theorem mem_spacesN {c : Char} {n : Nat} (h : c ∈ spacesN n) : c = ' ' := by
  rw [spacesN] at h
  exact List.eq_of_mem_replicate h

mutual
theorem semi_notMem_jstringify :
    ∀ (v : JVal) (ind : Nat), wfVal v = true → ';' ∉ jstringify ind v
  | JVal.jstr s, ind, hwf => by
    rw [wfVal] at hwf
    rw [jstringify]
    intro hmem
    rcases List.mem_cons.mp hmem with h | h
    · exact absurd h (by decide)
    rcases List.mem_append.mp h with h | h
    · exact absurd (wfStr_mem hwf h) (by decide)
    · exact absurd h (by decide)
  | JVal.jnum n, ind, _ => by
    rw [jstringify]
    exact notMem_numChars n (by decide)
  | JVal.jobj JFields.fnil, ind, _ => by
    rw [jstringify]
    decide
  | JVal.jobj (JFields.fcons k v fs), ind, hwf => by
    rw [wfVal] at hwf
    rw [jstringify]
    intro hmem
    rcases List.mem_cons.mp hmem with h | h
    · exact absurd h (by decide)
    rcases List.mem_cons.mp h with h | h
    · exact absurd h (by decide)
    rcases List.mem_append.mp h with h | h
    · exact semi_notMem_jfieldsStr (JFields.fcons k v fs) (ind + 2) hwf h
    rcases List.mem_cons.mp h with h | h
    · exact absurd h (by decide)
    rcases List.mem_append.mp h with h | h
    · exact absurd (mem_spacesN h) (by decide)
    · exact absurd h (by decide)
theorem semi_notMem_jfieldsStr :
    ∀ (fs : JFields) (ind : Nat), wfFields fs = true → ';' ∉ jfieldsStr ind fs
  | JFields.fnil, ind, _ => by
    rw [jfieldsStr]
    simp
  | JFields.fcons k v JFields.fnil, ind, hwf => by
    rw [wfFields] at hwf
    simp only [Bool.and_eq_true] at hwf
    rw [jfieldsStr]
    intro hmem
    rcases List.mem_append.mp hmem with h | h
    · exact absurd (mem_spacesN h) (by decide)
    rcases List.mem_cons.mp h with h | h
    · exact absurd h (by decide)
    rcases List.mem_append.mp h with h | h
    · exact absurd (wfStr_mem hwf.1.1 h) (by decide)
    rcases List.mem_cons.mp h with h | h
    · exact absurd h (by decide)
    rcases List.mem_cons.mp h with h | h
    · exact absurd h (by decide)
    rcases List.mem_cons.mp h with h | h
    · exact absurd h (by decide)
    · exact semi_notMem_jstringify v ind hwf.1.2 h
  | JFields.fcons k v (JFields.fcons k2 v2 fs2), ind, hwf => by
    rw [wfFields] at hwf
    simp only [Bool.and_eq_true] at hwf
    rw [jfieldsStr]
    intro hmem
    rcases List.mem_append.mp hmem with h | h
    · rcases List.mem_append.mp h with h | h
      · exact absurd (mem_spacesN h) (by decide)
      rcases List.mem_cons.mp h with h | h
      · exact absurd h (by decide)
      rcases List.mem_append.mp h with h | h
      · exact absurd (wfStr_mem hwf.1.1 h) (by decide)
      rcases List.mem_cons.mp h with h | h
      · exact absurd h (by decide)
      rcases List.mem_cons.mp h with h | h
      · exact absurd h (by decide)
      rcases List.mem_cons.mp h with h | h
      · exact absurd h (by decide)
      · exact semi_notMem_jstringify v ind hwf.1.2 h
    · rcases List.mem_cons.mp h with h | h
      · exact absurd h (by decide)
      rcases List.mem_cons.mp h with h | h
      · exact absurd h (by decide)
      · exact semi_notMem_jfieldsStr (JFields.fcons k2 v2 fs2) ind hwf.2 h
end

mutual
theorem jsize_le_jstringify :
    ∀ (v : JVal) (ind : Nat), jsize v ≤ (jstringify ind v).length
  | JVal.jstr s, ind => by
    rw [jsize, jstringify]
    simp
  | JVal.jnum n, ind => by
    rw [jsize, jstringify]
    cases hnc : numChars n with
    | nil => exact absurd hnc (numChars_ne_nil n)
    | cons c t => simp
  | JVal.jobj JFields.fnil, ind => by
    rw [jsize, jstringify, fsize]
    decide
  | JVal.jobj (JFields.fcons k v fs), ind => by
    rw [jsize, jstringify]
    have := fsize_le_jfieldsStr (JFields.fcons k v fs) (ind + 2)
    simp only [List.length_cons, List.length_append]
    omega
theorem fsize_le_jfieldsStr :
    ∀ (fs : JFields) (ind : Nat), fsize fs ≤ (jfieldsStr ind fs).length
  | JFields.fnil, ind => by
    rw [fsize, jfieldsStr]
    simp
  | JFields.fcons k v JFields.fnil, ind => by
    rw [fsize, jfieldsStr, fsize]
    have := jsize_le_jstringify v ind
    simp only [List.length_append, List.length_cons]
    omega
  | JFields.fcons k v (JFields.fcons k2 v2 fs2), ind => by
    rw [fsize, jfieldsStr]
    have h1 := jsize_le_jstringify v ind
    have h2 := fsize_le_jfieldsStr (JFields.fcons k2 v2 fs2) ind
    simp only [List.length_append, List.length_cons]
    omega
end

theorem skipWs_all (a s : List Char) (h : ∀ c ∈ a, isWsChar c = true) :
    skipWs (a ++ s) = skipWs s := dropWhile_append_all a s h

theorem skipWs_cons_not (c : Char) (s : List Char) (h : isWsChar c = false) :
    skipWs (c :: s) = c :: s := List.dropWhile_cons_of_neg (by simp [h])

theorem wfStrChar_ne_quote {c : Char} (h : wfStrChar c = true) : c ≠ '"' := by
  intro hc
  subst hc
  exact absurd h (by decide)

theorem ws_spacesN (n : Nat) : ∀ c ∈ spacesN n, isWsChar c = true := by
  intro c hc
  rw [mem_spacesN hc]
  decide

theorem jsize_pos (v : JVal) : 1 ≤ jsize v := by
  cases v with
  | jstr s => rw [jsize]
  | jnum n => rw [jsize]
  | jobj fs => rw [jsize]; omega

/-- A decimal literal read stops exactly at the rendered digits when
the following character is not a digit. -/
def numGuard : JVal → List Char → Prop
  | JVal.jnum _, rest => ∀ c, rest.head? = some c → isDigitChar c = false
  | _, _ => True

theorem numGuard_cons (v : JVal) (c : Char) (s : List Char)
    (h : isDigitChar c = false) : numGuard v (c :: s) := by
  cases v with
  | jstr _ => trivial
  | jobj _ => trivial
  | jnum n =>
    intro c2 hc2
    simp only [List.head?_cons, Option.some.injEq] at hc2
    exact hc2 ▸ h

theorem jfieldsStr_cons_shape (ind : Nat) (k : List Char) (v : JVal) (fs : JFields) :
    ∃ tf, jfieldsStr ind (JFields.fcons k v fs) = spacesN ind ++ '"' :: tf := by
  cases fs with
  | fnil => exact ⟨k ++ '"' :: ':' :: ' ' :: jstringify ind v, by rw [jfieldsStr]⟩
  | fcons k2 v2 fs2 =>
    refine ⟨k ++ '"' :: ':' :: ' ' :: (jstringify ind v
      ++ ',' :: '\n' :: jfieldsStr ind (JFields.fcons k2 v2 fs2)), ?_⟩
    rw [jfieldsStr]
    simp [List.append_assoc]

theorem jparse_roundtrip_aux : ∀ fuel : Nat,
    (∀ (v : JVal) (ind : Nat) (pre rest : List Char), wfVal v = true → jsize v < fuel →
      (∀ c ∈ pre, isWsChar c = true) → numGuard v rest →
      jparseVal fuel (pre ++ jstringify ind v ++ rest) = some (v, rest))
    ∧ (∀ (k : List Char) (v : JVal) (fs : JFields) (ind ind2 : Nat) (pre rest : List Char),
      wfFields (JFields.fcons k v fs) = true → fsize (JFields.fcons k v fs) < fuel →
      (∀ c ∈ pre, isWsChar c = true) →
      jparseFields fuel (pre ++ jfieldsStr ind (JFields.fcons k v fs)
        ++ '\n' :: (spacesN ind2 ++ '\x7d' :: rest)) = some (JFields.fcons k v fs, rest)) := by
  intro fuel
  induction fuel with
  | zero =>
    constructor
    · intro v _ _ _ _ hsz _ _
      exact absurd hsz (by have := jsize_pos v; omega)
    · intro k v fs _ _ _ _ _ hsz _
      rw [fsize] at hsz
      omega
  | succ fuel ih =>
    constructor
    · intro v ind pre rest hwf hsz hpre hng
      cases v with
      | jstr s =>
        rw [wfVal] at hwf
        have hshape : pre ++ jstringify ind (JVal.jstr s) ++ rest
            = pre ++ '"' :: (s ++ '"' :: rest) := by
          rw [jstringify]
          simp [List.append_assoc]
        have hsw : skipWs (pre ++ '"' :: (s ++ '"' :: rest)) = '"' :: (s ++ '"' :: rest) := by
          rw [skipWs_all pre _ hpre, skipWs_cons_not _ _ (by decide)]
        have hstops := takeWhile_stops (p := fun x => decide (¬ x = '"')) s '"' rest
          (fun a ha => by simpa using wfStrChar_ne_quote (wfStr_mem hwf ha)) (by decide)
        simp only [decide_not] at hstops
        rw [hshape, jparseVal, hsw]
        simp [hstops.1, hstops.2]
      | jnum n =>
        cases hnc : numChars n with
        | nil => exact absurd hnc (numChars_ne_nil n)
        | cons c0 t =>
          have hc0 : c0 ∈ digitChars := numChars_mem_digits n c0 (by
            rw [hnc]; exact List.mem_cons_self c0 t)
          have hnws : isWsChar c0 = false :=
            (by decide : ∀ c ∈ digitChars, isWsChar c = false) c0 hc0
          have hnq : ¬ c0 = '"' := (by decide : ∀ c ∈ digitChars, ¬ c = '"') c0 hc0
          have hnb : ¬ c0 = '\x7b' := (by decide : ∀ c ∈ digitChars, ¬ c = '\x7b') c0 hc0
          have hdig : isDigitChar c0 = true := by
            rw [isDigitChar]
            simp [hc0]
          have hshape : pre ++ jstringify ind (JVal.jnum n) ++ rest = pre ++ c0 :: (t ++ rest) := by
            rw [jstringify, hnc]
            simp [List.append_assoc]
          have hsw : skipWs (pre ++ c0 :: (t ++ rest)) = c0 :: (t ++ rest) := by
            rw [skipWs_all pre _ hpre, skipWs_cons_not _ _ hnws]
          have hctr : c0 :: (t ++ rest) = numChars n ++ rest := by
            rw [hnc]
            rfl
          have hng2 : ∀ c, rest.head? = some c → isDigitChar c = false := hng
          have hall : ∀ a ∈ numChars n, isDigitChar a = true := fun a ha => by
            rw [isDigitChar]
            simp [numChars_mem_digits n a ha]
          have htk : (numChars n ++ rest).takeWhile isDigitChar = numChars n ∧
              (numChars n ++ rest).dropWhile isDigitChar = rest := by
            cases rest with
            | nil =>
              constructor
              · rw [takeWhile_append_all _ _ hall]
                simp
              · rw [dropWhile_append_all _ _ hall]
                rfl
            | cons r rs =>
              exact takeWhile_stops _ _ _ hall (hng2 r rfl)
          rw [hshape, jparseVal, hsw]
          simp [hnq, hnb, hdig, hctr, htk.1, htk.2, charsToNat_numChars]
      | jobj fs =>
        cases fs with
        | fnil =>
          have hshape : pre ++ jstringify ind (JVal.jobj JFields.fnil) ++ rest
              = pre ++ '\x7b' :: ('\x7d' :: rest) := by
            rw [jstringify]
            simp
          have hsw : skipWs (pre ++ '\x7b' :: ('\x7d' :: rest)) = '\x7b' :: ('\x7d' :: rest) := by
            rw [skipWs_all pre _ hpre, skipWs_cons_not _ _ (by decide)]
          have hsw2 : skipWs ('\x7d' :: rest) = '\x7d' :: rest :=
            skipWs_cons_not _ _ (by decide)
          rw [hshape, jparseVal, hsw]
          simp [hsw2]
        | fcons kf vf fsf =>
          rw [wfVal] at hwf
          obtain ⟨tf, htf⟩ := jfieldsStr_cons_shape (ind + 2) kf vf fsf
          have hshape : pre ++ jstringify ind (JVal.jobj (JFields.fcons kf vf fsf)) ++ rest
              = pre ++ '\x7b' :: ('\n' :: (jfieldsStr (ind + 2) (JFields.fcons kf vf fsf)
                ++ '\n' :: (spacesN ind ++ '\x7d' :: rest))) := by
            rw [jstringify]
            simp [List.append_assoc]
          have hsw : skipWs (pre ++ '\x7b' :: ('\n' :: (jfieldsStr (ind + 2) (JFields.fcons kf vf fsf)
              ++ '\n' :: (spacesN ind ++ '\x7d' :: rest))))
              = '\x7b' :: ('\n' :: (jfieldsStr (ind + 2) (JFields.fcons kf vf fsf)
                ++ '\n' :: (spacesN ind ++ '\x7d' :: rest))) := by
            rw [skipWs_all pre _ hpre, skipWs_cons_not _ _ (by decide)]
          have hsw2 : skipWs ('\n' :: (jfieldsStr (ind + 2) (JFields.fcons kf vf fsf)
              ++ '\n' :: (spacesN ind ++ '\x7d' :: rest)))
              = '"' :: (tf ++ '\n' :: (spacesN ind ++ '\x7d' :: rest)) := by
            rw [htf]
            have hre : '\n' :: ((spacesN (ind + 2) ++ '"' :: tf)
                ++ '\n' :: (spacesN ind ++ '\x7d' :: rest))
                = ('\n' :: spacesN (ind + 2))
                  ++ '"' :: (tf ++ '\n' :: (spacesN ind ++ '\x7d' :: rest)) := by
              simp [List.append_assoc]
            rw [hre, skipWs_all _ _ ?_, skipWs_cons_not _ _ (by decide)]
            intro c hc
            rcases List.mem_cons.mp hc with h | h
            · rw [h]
              decide
            · exact ws_spacesN _ c h
          have hq : jparseFields fuel ('\n' :: (jfieldsStr (ind + 2) (JFields.fcons kf vf fsf)
              ++ '\n' :: (spacesN ind ++ '\x7d' :: rest))) = some (JFields.fcons kf vf fsf, rest) :=
            ih.2 kf vf fsf (ind + 2) ind ['\n'] rest hwf
              (by rw [jsize] at hsz; omega)
              (by
                intro c hc
                simp only [List.mem_singleton] at hc
                rw [hc]
                decide)
          rw [hshape, jparseVal, hsw]
          simp [hsw2, hq]
    · intro k v fs ind ind2 pre rest hwf hsz hpre
      rw [wfFields] at hwf
      simp only [Bool.and_eq_true] at hwf
      have hswpre : ∀ Z : List Char, skipWs ((pre ++ spacesN ind) ++ '"' :: Z) = '"' :: Z := by
        intro Z
        rw [skipWs_all _ _ ?_, skipWs_cons_not _ _ (by decide)]
        intro c hc
        rcases List.mem_append.mp hc with h | h
        · exact hpre c h
        · exact ws_spacesN ind c h
      have hsw3 : skipWs ('\n' :: (spacesN ind2 ++ '\x7d' :: rest)) = '\x7d' :: rest := by
        have hre : '\n' :: (spacesN ind2 ++ '\x7d' :: rest)
            = ('\n' :: spacesN ind2) ++ '\x7d' :: rest := by
          simp
        rw [hre, skipWs_all _ _ ?_, skipWs_cons_not _ _ (by decide)]
        intro c hc
        rcases List.mem_cons.mp hc with h | h
        · rw [h]
          decide
        · exact ws_spacesN ind2 c h
      cases fs with
      | fnil =>
        rw [fsize, fsize] at hsz
        have hshape : pre ++ jfieldsStr ind (JFields.fcons k v JFields.fnil)
              ++ '\n' :: (spacesN ind2 ++ '\x7d' :: rest)
            = (pre ++ spacesN ind) ++ '"' :: (k ++ '"' :: ':' :: ' ' ::
              (jstringify ind v ++ '\n' :: (spacesN ind2 ++ '\x7d' :: rest))) := by
          rw [jfieldsStr]
          simp [List.append_assoc]
        have hstops := takeWhile_stops (p := fun x => decide (¬ x = '"')) k '"'
          (':' :: ' ' :: (jstringify ind v ++ '\n' :: (spacesN ind2 ++ '\x7d' :: rest)))
          (fun a ha => by simpa using wfStrChar_ne_quote (wfStr_mem hwf.1.1 ha)) (by decide)
        simp only [decide_not] at hstops
        have hswB : skipWs (':' :: ' ' :: (jstringify ind v
            ++ '\n' :: (spacesN ind2 ++ '\x7d' :: rest)))
            = ':' :: ' ' :: (jstringify ind v ++ '\n' :: (spacesN ind2 ++ '\x7d' :: rest)) :=
          skipWs_cons_not _ _ (by decide)
        have hp : jparseVal fuel (' ' :: (jstringify ind v
            ++ '\n' :: (spacesN ind2 ++ '\x7d' :: rest)))
            = some (v, '\n' :: (spacesN ind2 ++ '\x7d' :: rest)) :=
          ih.1 v ind [' '] ('\n' :: (spacesN ind2 ++ '\x7d' :: rest)) hwf.1.2
            (by omega)
            (by
              intro c hc
              simp only [List.mem_singleton] at hc
              rw [hc]
              decide)
            (numGuard_cons v '\n' _ (by decide))
        rw [hshape, jparseFields, hswpre]
        simp [hstops.1, hstops.2, hswB, hp, hsw3]
      | fcons k2 v2 fs2 =>
        rw [fsize] at hsz
        have hszv : jsize v < fuel := by
          have := jsize_pos v
          omega
        have hszf : fsize (JFields.fcons k2 v2 fs2) < fuel := by
          have := jsize_pos v
          omega
        have hshape : pre ++ jfieldsStr ind (JFields.fcons k v (JFields.fcons k2 v2 fs2))
              ++ '\n' :: (spacesN ind2 ++ '\x7d' :: rest)
            = (pre ++ spacesN ind) ++ '"' :: (k ++ '"' :: ':' :: ' ' ::
              (jstringify ind v ++ ',' :: '\n' :: (jfieldsStr ind (JFields.fcons k2 v2 fs2)
                ++ '\n' :: (spacesN ind2 ++ '\x7d' :: rest)))) := by
          rw [jfieldsStr]
          simp [List.append_assoc]
        have hstops := takeWhile_stops (p := fun x => decide (¬ x = '"')) k '"'
          (':' :: ' ' :: (jstringify ind v ++ ',' :: '\n' :: (jfieldsStr ind (JFields.fcons k2 v2 fs2)
            ++ '\n' :: (spacesN ind2 ++ '\x7d' :: rest))))
          (fun a ha => by simpa using wfStrChar_ne_quote (wfStr_mem hwf.1.1 ha)) (by decide)
        simp only [decide_not] at hstops
        have hswB : skipWs (':' :: ' ' :: (jstringify ind v
            ++ ',' :: '\n' :: (jfieldsStr ind (JFields.fcons k2 v2 fs2)
              ++ '\n' :: (spacesN ind2 ++ '\x7d' :: rest))))
            = ':' :: ' ' :: (jstringify ind v ++ ',' :: '\n' :: (jfieldsStr ind (JFields.fcons k2 v2 fs2)
              ++ '\n' :: (spacesN ind2 ++ '\x7d' :: rest))) :=
          skipWs_cons_not _ _ (by decide)
        have hp : jparseVal fuel (' ' :: (jstringify ind v
            ++ ',' :: '\n' :: (jfieldsStr ind (JFields.fcons k2 v2 fs2)
              ++ '\n' :: (spacesN ind2 ++ '\x7d' :: rest))))
            = some (v, ',' :: '\n' :: (jfieldsStr ind (JFields.fcons k2 v2 fs2)
              ++ '\n' :: (spacesN ind2 ++ '\x7d' :: rest))) :=
          ih.1 v ind [' '] (',' :: '\n' :: (jfieldsStr ind (JFields.fcons k2 v2 fs2)
              ++ '\n' :: (spacesN ind2 ++ '\x7d' :: rest))) hwf.1.2 hszv
            (by
              intro c hc
              simp only [List.mem_singleton] at hc
              rw [hc]
              decide)
            (numGuard_cons v ',' _ (by decide))
        have hswC : skipWs (',' :: '\n' :: (jfieldsStr ind (JFields.fcons k2 v2 fs2)
            ++ '\n' :: (spacesN ind2 ++ '\x7d' :: rest)))
            = ',' :: '\n' :: (jfieldsStr ind (JFields.fcons k2 v2 fs2)
              ++ '\n' :: (spacesN ind2 ++ '\x7d' :: rest)) :=
          skipWs_cons_not _ _ (by decide)
        have hqrec : jparseFields fuel ('\n' :: (jfieldsStr ind (JFields.fcons k2 v2 fs2)
            ++ '\n' :: (spacesN ind2 ++ '\x7d' :: rest)))
            = some (JFields.fcons k2 v2 fs2, rest) :=
          ih.2 k2 v2 fs2 ind ind2 ['\n'] rest hwf.2 hszf
            (by
              intro c hc
              simp only [List.mem_singleton] at hc
              rw [hc]
              decide)
        rw [hshape, jparseFields, hswpre]
        simp [hstops.1, hstops.2, hswB, hp, hswC, hqrec]

theorem numGuard_nil (v : JVal) : numGuard v [] := by
  cases v with
  | jstr s => trivial
  | jobj fs => trivial
  | jnum n =>
    intro c hc
    simp at hc

/-- `JSON.parse ∘ JSON.stringify` is the identity on well-formed
config values. -/
theorem jparse_jstringify (v : JVal) (hwf : wfVal v = true) :
    jparse (jstringify 0 v) = some v := by
  have hrt := (jparse_roundtrip_aux ((jstringify 0 v).length + 1)).1 v 0 [] []
    hwf (by have := jsize_le_jstringify v 0; omega)
    (by intro c hc; simp at hc) (numGuard_nil v)
  have hco : ([] : List Char) ++ jstringify 0 v ++ [] = jstringify 0 v := by simp
  rw [hco] at hrt
  rw [jparse, hrt]
  rfl

theorem prefix_drop_iff (p s1 s2 : List Char) (m i : Nat)
    (hagree : s1.take m = s2.take m) (hspan : i + p.length ≤ m) :
    p <+: s1.drop i ↔ p <+: s2.drop i := by
  have e1 : s1.take (i + p.length) = (s1.take m).take (i + p.length) := by
    rw [List.take_take, Nat.min_eq_left hspan]
  have e2 : s2.take (i + p.length) = (s2.take m).take (i + p.length) := by
    rw [List.take_take, Nat.min_eq_left hspan]
  have h1 : (s1.drop i).take p.length = (s2.drop i).take p.length := by
    rw [List.take_drop i p.length s1, List.take_drop i p.length s2, e1, e2, hagree]
  rw [List.prefix_iff_eq_take, List.prefix_iff_eq_take, h1]

theorem no_early_two_char (a b : Char) (mid post : List Char)
    (hb : b ∉ mid) (hab : ¬ b = a) :
    ∀ i, i < mid.length → ¬ [a, b].isPrefixOf ((mid ++ [a, b] ++ post).drop i) := by
  intro i hi hpre
  have hp : [a, b] <+: (mid ++ [a, b] ++ post).drop i := List.isPrefixOf_iff_prefix.mp hpre
  obtain ⟨t, ht⟩ := hp
  have hb1 : ((mid ++ [a, b] ++ post).drop i)[1]? = some b := by
    rw [← ht]
    show (a :: b :: t)[1]? = some b
    simp
  rw [List.getElem?_drop, List.append_assoc] at hb1
  by_cases hcase : i + 1 < mid.length
  · rw [List.getElem?_append_left hcase] at hb1
    obtain ⟨hlt, he⟩ := List.getElem?_eq_some.mp hb1
    exact hb (he ▸ List.getElem_mem hlt)
  · have h0 : i + 1 - mid.length = 0 := by omega
    rw [List.getElem?_append_right (by omega), h0] at hb1
    simp only [List.cons_append, List.getElem?_cons_zero, Option.some.injEq] at hb1
    exact hab (hb1.symm)

/-- The config after the three deck-field assignments. -/
def updatedConfig (fs ds : JFields) (slug title : List Char) (count : Nat) : JVal :=
  JVal.jobj (setField fs deckKey (JVal.jobj (deckAssigned ds slug title count)))

theorem deckField_updatedConfig (fs ds : JFields) (slug title : List Char) (count : Nat) :
    deckField (updatedConfig fs ds slug title count) slugKey
        = some (JVal.jstr ("deck-".data ++ slug))
    ∧ deckField (updatedConfig fs ds slug title count) titleKey = some (JVal.jstr title)
    ∧ deckField (updatedConfig fs ds slug title count) countKey = some (JVal.jnum count) := by
  have hg : getField (setField fs deckKey (JVal.jobj (deckAssigned ds slug title count))) deckKey
      = some (JVal.jobj (deckAssigned ds slug title count)) := getField_setField_self _ _ _
  unfold updatedConfig deckField
  simp only [hg]
  exact deckAssigned_values ds slug title count

theorem extractConfig_inv (s pre payload post : List Char)
    (h : extractConfig s = some (pre, payload, post)) :
    ∃ rest1 mid, findSplit varPat s = some (pre, rest1)
      ∧ findSplit endPat rest1 = some (mid, post)
      ∧ payload = '\x7b' :: (mid ++ ['\x7d']) := by
  unfold extractConfig at h
  cases hf1 : findSplit varPat s with
  | none =>
    rw [hf1] at h
    simp at h
  | some pr =>
    obtain ⟨p1, r1⟩ := pr
    rw [hf1] at h
    simp only at h
    cases hf2 : findSplit endPat r1 with
    | none =>
      rw [hf2] at h
      simp at h
    | some mp =>
      obtain ⟨m1, p2⟩ := mp
      rw [hf2] at h
      simp only [Option.some.injEq, Prod.mk.injEq] at h
      obtain ⟨h1, h2, h3⟩ := h
      refine ⟨r1, m1, ?_, ?_, h2.symm⟩
      · rw [h1]
      · exact hf2.trans (by rw [h3])

/-- `C7`: on a markup whose embedded config parses and carries a deck
object, the customizer writes the re-serialized config with the deck
fields correctly assigned, and re-running it with identical inputs on
its own output is the identity: the regex re-extracts exactly the
re-serialized payload, parsing it recovers the same config, and the
repeated assignments are absorbed — in particular the `deck-` slug
prefix is not applied twice. -/
theorem updateConfig_idempotent
    (script slug title : List Char) (count : Nat)
    (pre payload post : List Char) (fs ds : JFields)
    (hwslug : wfStr slug = true) (hwtitle : wfStr title = true)
    (hext : extractConfig script = some (pre, payload, post))
    (hparse : jparse payload = some (JVal.jobj fs))
    (hwf : wfFields fs = true)
    (hdk : getField fs deckKey = some (JVal.jobj ds)) :
    updateConfigScript script slug title count
        = pre ++ varPrefix ++ jstringify 0 (updatedConfig fs ds slug title count) ++ ';' :: post
    ∧ updateConfigScript (updateConfigScript script slug title count) slug title count
        = updateConfigScript script slug title count
    ∧ deckField (updatedConfig fs ds slug title count) slugKey
        = some (JVal.jstr ("deck-".data ++ slug))
    ∧ deckField (updatedConfig fs ds slug title count) titleKey = some (JVal.jstr title)
    ∧ deckField (updatedConfig fs ds slug title count) countKey = some (JVal.jnum count) := by
  have hsd : setDeck (JVal.jobj fs) slug title count
      = some (updatedConfig fs ds slug title count) := setDeck_obj fs ds slug title count hdk
  have hrun1 : updateConfigScript script slug title count
      = pre ++ varPrefix ++ jstringify 0 (updatedConfig fs ds slug title count) ++ ';' :: post := by
    unfold updateConfigScript
    simp only [hext, hparse, hsd]
  have hwf2 : wfVal (updatedConfig fs ds slug title count) = true :=
    wf_setDeck fs ds slug title count hwf hdk hwslug hwtitle
  obtain ⟨k0, v0, fs0, hF2eq⟩ : ∃ k0 v0 fs0,
      setField fs deckKey (JVal.jobj (deckAssigned ds slug title count))
        = JFields.fcons k0 v0 fs0 := by
    cases hF : setField fs deckKey (JVal.jobj (deckAssigned ds slug title count)) with
    | fnil => exact absurd hF (setField_ne_fnil _ _ _)
    | fcons a b c => exact ⟨a, b, c, rfl⟩
  have hstr : jstringify 0 (updatedConfig fs ds slug title count)
      = '\x7b' :: (('\n' :: (jfieldsStr 2 (JFields.fcons k0 v0 fs0) ++ ['\n'])) ++ ['\x7d']) := by
    unfold updatedConfig
    rw [hF2eq, jstringify]
    simp [spacesN, List.append_assoc]
  have hwfF2 : wfFields (JFields.fcons k0 v0 fs0) = true := by
    have h2 := hwf2
    unfold updatedConfig at h2
    rw [wfVal, hF2eq] at h2
    exact h2
  obtain ⟨rest1, mid1, hfsV, -, -⟩ := extractConfig_inv script pre payload post hext
  obtain ⟨hscript_eq, hfirstV⟩ := findSplit_inv varPat script pre rest1 hfsV
  have hout_shape : pre ++ varPrefix ++ jstringify 0 (updatedConfig fs ds slug title count)
        ++ ';' :: post
      = pre ++ varPat ++ (('\n' :: (jfieldsStr 2 (JFields.fcons k0 v0 fs0) ++ ['\n']))
        ++ endPat ++ post) := by
    rw [hstr]
    simp [varPat, endPat, List.append_assoc]
  have hfirstV2 : ∀ i, i < pre.length →
      ¬ varPat.isPrefixOf ((pre ++ varPat ++ (('\n' :: (jfieldsStr 2 (JFields.fcons k0 v0 fs0)
        ++ ['\n'])) ++ endPat ++ post)).drop i) := by
    intro i hi hcon
    apply hfirstV i hi
    rw [List.isPrefixOf_iff_prefix] at hcon ⊢
    refine (prefix_drop_iff varPat _ script (pre ++ varPat).length i ?_ ?_).mp hcon
    · rw [hscript_eq, List.take_left, List.take_left]
    · simp only [List.length_append]
      omega
  have hfsV2 : findSplit varPat (pre ++ varPat ++ (('\n' :: (jfieldsStr 2 (JFields.fcons k0 v0 fs0)
        ++ ['\n'])) ++ endPat ++ post))
      = some (pre, ('\n' :: (jfieldsStr 2 (JFields.fcons k0 v0 fs0) ++ ['\n'])) ++ endPat ++ post) :=
    findSplit_spec varPat (by decide) pre _ hfirstV2
  have hsemi2 : ';' ∉ '\n' :: (jfieldsStr 2 (JFields.fcons k0 v0 fs0) ++ ['\n']) := by
    intro hmem
    rcases List.mem_cons.mp hmem with h | h
    · exact absurd h (by decide)
    rcases List.mem_append.mp h with h | h
    · exact semi_notMem_jfieldsStr _ 2 hwfF2 h
    · exact absurd h (by decide)
  have hfsE2 : findSplit endPat (('\n' :: (jfieldsStr 2 (JFields.fcons k0 v0 fs0) ++ ['\n']))
        ++ endPat ++ post)
      = some ('\n' :: (jfieldsStr 2 (JFields.fcons k0 v0 fs0) ++ ['\n']), post) :=
    findSplit_spec endPat (by decide) _ post
      (no_early_two_char '\x7d' ';' _ post hsemi2 (by decide))
  have hext2 : extractConfig (pre ++ varPrefix
        ++ jstringify 0 (updatedConfig fs ds slug title count) ++ ';' :: post)
      = some (pre, jstringify 0 (updatedConfig fs ds slug title count), post) := by
    rw [hout_shape]
    unfold extractConfig
    simp only [hfsV2, hfsE2]
    rw [hstr]
  have hrt : jparse (jstringify 0 (updatedConfig fs ds slug title count))
      = some (updatedConfig fs ds slug title count) := jparse_jstringify _ hwf2
  have hsd2 : setDeck (updatedConfig fs ds slug title count) slug title count
      = some (updatedConfig fs ds slug title count) := setDeck_idem fs ds slug title count hdk
  have hrun2 : updateConfigScript (pre ++ varPrefix
        ++ jstringify 0 (updatedConfig fs ds slug title count) ++ ';' :: post) slug title count
      = pre ++ varPrefix ++ jstringify 0 (updatedConfig fs ds slug title count) ++ ';' :: post := by
    unfold updateConfigScript
    simp only [hext2, hrt, hsd2]
  obtain ⟨hd1, hd2, hd3⟩ := deckField_updatedConfig fs ds slug title count
  exact ⟨hrun1, by rw [hrun1, hrun2], hd1, hd2, hd3⟩

def demoCfgDs : JFields :=
  JFields.fcons "slug".data (JVal.jstr "old".data) JFields.fnil

def demoCfgFs : JFields :=
  JFields.fcons "deck".data (JVal.jobj demoCfgDs) JFields.fnil

def demoCfgScript : List Char :=
  "var SLConfig = \x7b\"deck\":\x7b\"slug\":\"old\"\x7d\x7d;".data

def demoCfgPayload : List Char :=
  "\x7b\"deck\":\x7b\"slug\":\"old\"\x7d\x7d".data

theorem updateConfig_idempotent_witness :
    updateConfigScript demoCfgScript "abc".data "New Deck".data 6
        = [] ++ varPrefix
          ++ jstringify 0 (updatedConfig demoCfgFs demoCfgDs "abc".data "New Deck".data 6)
          ++ ';' :: []
    ∧ updateConfigScript (updateConfigScript demoCfgScript "abc".data "New Deck".data 6)
          "abc".data "New Deck".data 6
        = updateConfigScript demoCfgScript "abc".data "New Deck".data 6
    ∧ deckField (updatedConfig demoCfgFs demoCfgDs "abc".data "New Deck".data 6) slugKey
        = some (JVal.jstr ("deck-".data ++ "abc".data))
    ∧ deckField (updatedConfig demoCfgFs demoCfgDs "abc".data "New Deck".data 6) titleKey
        = some (JVal.jstr "New Deck".data)
    ∧ deckField (updatedConfig demoCfgFs demoCfgDs "abc".data "New Deck".data 6) countKey
        = some (JVal.jnum 6) :=
  updateConfig_idempotent demoCfgScript "abc".data "New Deck".data 6
    [] demoCfgPayload [] demoCfgFs demoCfgDs
    (by decide) (by decide) (by decide) (by decide) (by decide) (by decide)
